import Mathlib

/-! Render graph builder: pass scheduling and texture aliasing.

A shallow embedding of `src/loading/shaderpack/render_graph_builder.cpp`
(`order_passes`, `add_dependent_passes`, `Range`, `determine_usage_order_of_textures`,
`determine_aliasing_of_textures`) together with theorems about it.

Conventions of the embedding:

* `eastl::unordered_map<eastl::string, V>` is an association list with unique keys; the code never
  iterates over a map, so only `find`, `at`, `emplace`, `operator[]` and `size` are modelled.
* `unordered_map::at` on a missing key does not return (it throws or asserts); this is the outcome
  `Abort.out_of_range`.
* `add_dependent_passes` is recursive without a termination measure. It is embedded with a bound on
  the recursion depth (`fuel`); `Abort.out_of_fuel` means that the bound was hit. "The call returns
  `r`" is `∃ fuel, ... fuel ... = .ok r`, "the call never returns" is `∀ fuel, ... = .error .out_of_fuel`.
* `NOVA_LOG(ERROR)` messages are collected in a list; `DEBUG` and `TRACE` messages are left out.
-/

namespace nova.renderer.shaderpack

/-! ## Data model -/

/-- Modelled from the spec: an output resource descriptor (name + format) of a pass; the structure is
declared in a header outside `src/`. Only `name` is read by the code embedded here. -/
structure TextureAttachmentInfo where
  name : String
  pixel_format : Nat
  deriving DecidableEq

/-- Modelled from the spec: the pass descriptor (§3), declared in a header outside `src/`: a name,
explicit dependency names, the textures and buffers read, the textures and buffers written. -/
structure RenderPassCreateInfo where
  name : String
  dependencies : List String
  texture_inputs : List String
  texture_outputs : List TextureAttachmentInfo
  input_buffers : List String
  output_buffers : List String
  deriving DecidableEq

/-- Modelled from the spec: the per-resource metadata, declared in a header outside `src/`. The
aliasing resolver reads only `format` and compares it with `==`; the format type is a parameter. -/
structure TextureCreateInfo (Format : Type) where
  format : Format

/-- The error carried by a failed `Result`. -/
structure NovaError where
  message : String
  deriving DecidableEq

/-- The `Result<T>` of the source: a value or a `NovaError`. -/
inductive Result (α : Type) where
  | value (v : α)
  | error (e : NovaError)
  deriving DecidableEq

/-- Ways in which a call does not return normally. -/
inductive Abort where
  /-- The recursion bound of the embedding was reached. -/
  | out_of_fuel
  /-- The source called `unordered_map::at` with a key that is not in the map. -/
  | out_of_range (key : String)
  deriving DecidableEq

deriving instance DecidableEq for Except

/-- The messages written with `NOVA_LOG(ERROR)`. -/
inductive LogError where
  /-- "Circular render graph detected! ..." -/
  | circular_render_graph
  /-- "Pass P reads from resource R, but nothing writes to it" -/
  | texture_not_written (pass_name texture_name : String)
  /-- "Pass P reads from buffer B, but no passes write to it" -/
  | buffer_not_written (pass_name buffer_name : String)
  /-- "This render graph does not write to the backbuffer. ..." -/
  | no_backbuffer
  deriving DecidableEq

/-! ## `eastl::unordered_map<eastl::string, V>` -/

/-- A string-keyed map as an association list; every operation below keeps the keys unique. -/
abbrev unordered_map (V : Type) := List (String × V)

namespace unordered_map

/-- The value stored under `key`, if any (`find(key) != end()`, `at(key)`). -/
def find {V : Type} : unordered_map V → String → Option V
  | [], _ => none
  | (k, v) :: rest, key => if k = key then some v else find rest key

/-- The call `m.emplace(key, v)`: inserts only when `key` is not present yet. -/
def emplace {V : Type} (m : unordered_map V) (key : String) (v : V) : unordered_map V :=
  match m.find key with
  | some _ => m
  | none => m ++ [(key, v)]

/-- The effect of `f(m[key])` for a mutating `f`: `operator[]` inserts a default value first when
`key` is not present. -/
def subscript {V : Type} (dflt : V) (f : V → V) : unordered_map V → String → unordered_map V
  | [], key => [(key, f dflt)]
  | (k, v) :: rest, key =>
    if k = key then (k, f v) :: rest else (k, v) :: subscript dflt f rest key

/-- The number of entries (`size()`). -/
def size {V : Type} (m : unordered_map V) : Nat := m.length

end unordered_map

/-! ## `Range` -/

/-- The constant `~0U` for a 32 bit `unsigned`. -/
def UINT_MAX : Nat := 4294967295

/-- The usage range of a resource; the fields are 32 bit unsigned pass indices. -/
structure Range where
  first_write_pass : Nat
  last_write_pass : Nat
  first_read_pass : Nat
  last_read_pass : Nat
  deriving DecidableEq

namespace Range

/-- Modelled from the spec: the default member initialisers of `Range` (declared in a header outside
`src/`): a fresh range has `first = ~0U` and `last = 0` for both writes and reads. -/
def fresh : Range := ⟨UINT_MAX, 0, UINT_MAX, 0⟩

def has_writer (r : Range) : Bool := decide (r.first_write_pass ≤ r.last_write_pass)

def has_reader (r : Range) : Bool := decide (r.first_read_pass ≤ r.last_read_pass)

def is_used (r : Range) : Bool := r.has_writer || r.has_reader

def can_alias (r : Range) : Bool :=
  !(r.has_reader && r.has_writer && decide (r.first_read_pass ≤ r.first_write_pass))

def last_used_pass (r : Range) : Nat :=
  let last_pass := 0
  let last_pass := if r.has_writer then max last_pass r.last_write_pass else last_pass
  let last_pass := if r.has_reader then max last_pass r.last_read_pass else last_pass
  last_pass

def first_used_pass (r : Range) : Nat :=
  let first_pass := UINT_MAX
  let first_pass := if r.has_writer then min first_pass r.first_write_pass else first_pass
  let first_pass := if r.has_reader then min first_pass r.first_read_pass else first_pass
  first_pass

def is_disjoint_with (r other : Range) : Bool :=
  if !r.is_used || !other.is_used then false
  else if !r.can_alias || !other.can_alias then false
  else
    let left := decide (r.last_used_pass < other.first_used_pass)
    let right := decide (other.last_used_pass < r.first_used_pass)
    left || right

end Range

/-! ## `add_dependent_passes` -/

/-- The state `add_dependent_passes` mutates: the working order and the error log. -/
structure SchedState where
  ordered_passes : List String
  errors : List LogError
  deriving DecidableEq

namespace SchedState

/-- The call `ordered_passes.push_back(name)`. -/
def push_back (st : SchedState) (name : String) : SchedState :=
  { st with ordered_passes := st.ordered_passes ++ [name] }

/-- The call `ordered_passes.insert(ordered_passes.end(), names.begin(), names.end())`. -/
def insert_end (st : SchedState) (names : List String) : SchedState :=
  { st with ordered_passes := st.ordered_passes ++ names }

/-- One `NOVA_LOG(ERROR)` message. -/
def log (st : SchedState) (e : LogError) : SchedState :=
  { st with errors := st.errors ++ [e] }

end SchedState

/-- The loop `for(write_pass : write_passes) add_dependent_passes(write_pass, ...)`, with the
recursive call abstracted as `visit`. -/
def visit_all (visit : String → SchedState → Except Abort SchedState) :
    List String → SchedState → Except Abort SchedState
  | [], st => .ok st
  | write_pass :: rest, st =>
    match visit write_pass st with
    | .error e => .error e
    | .ok st => visit_all visit rest st

/-- The loop over `pass.dependencies`: each dependency is pushed, then visited. -/
def visit_dependencies (visit : String → SchedState → Except Abort SchedState) :
    List String → SchedState → Except Abort SchedState
  | [], st => .ok st
  | dependency :: rest, st =>
    match visit dependency (st.push_back dependency) with
    | .error e => .error e
    | .ok st => visit_dependencies visit rest st

/-- The loops over `pass.texture_inputs` and over `pass.input_buffers` (they differ in the message
logged, `not_written`): a resource without writer is logged and skipped; otherwise all its writers
are appended, then each of them is visited. -/
def visit_inputs (visit : String → SchedState → Except Abort SchedState)
    (resource_to_write_pass : unordered_map (List String)) (not_written : String → LogError) :
    List String → SchedState → Except Abort SchedState
  | [], st => .ok st
  | resource_name :: rest, st =>
    match resource_to_write_pass.find resource_name with
    | none =>
      visit_inputs visit resource_to_write_pass not_written rest (st.log (not_written resource_name))
    | some write_passes =>
      match visit_all visit write_passes (st.insert_end write_passes) with
      | .error e => .error e
      | .ok st => visit_inputs visit resource_to_write_pass not_written rest st

/-- The function `add_dependent_passes`; `fuel` bounds the recursion depth, `depth` is the 32 bit
counter of the source. -/
def add_dependent_passes (passes : unordered_map RenderPassCreateInfo)
    (resource_to_write_pass : unordered_map (List String)) :
    Nat → String → Nat → SchedState → Except Abort SchedState
  | 0, _, _, _ => .error .out_of_fuel
  | fuel + 1, pass_name, depth, st =>
    let st := if depth > passes.size then st.log .circular_render_graph else st
    match passes.find pass_name with
    | none => .error (.out_of_range pass_name)
    | some pass =>
      let visit := fun name s =>
        add_dependent_passes passes resource_to_write_pass fuel name ((depth + 1) % 4294967296) s
      match visit_dependencies visit pass.dependencies st with
      | .error e => .error e
      | .ok st =>
        match visit_inputs visit resource_to_write_pass (.texture_not_written pass_name)
            pass.texture_inputs st with
        | .error e => .error e
        | .ok st =>
          visit_inputs visit resource_to_write_pass (.buffer_not_written pass_name)
            pass.input_buffers st

/-! ## `order_passes` -/

/-- The name index built by the first loop of `order_passes`. -/
def build_render_passes_to_order (passes : List RenderPassCreateInfo) :
    unordered_map RenderPassCreateInfo :=
  passes.foldl (fun m create_info => m.emplace create_info.name create_info) []

/-- The call `resource_to_write_pass[resource].push_back(pass_name)`. -/
def add_writer (m : unordered_map (List String)) (resource pass_name : String) :
    unordered_map (List String) :=
  unordered_map.subscript [] (fun writers => writers ++ [pass_name]) m resource

/-- The write index built by the second loop of `order_passes`. -/
def build_resource_to_write_pass (passes : List RenderPassCreateInfo) :
    unordered_map (List String) :=
  passes.foldl (fun m pass =>
    let m := pass.texture_outputs.foldl (fun m output => add_writer m output.name pass.name) m
    pass.output_buffers.foldl (fun m buffer_output => add_writer m buffer_output pass.name) m) []

/-- The state of the in-place compaction loop of `order_passes`. -/
structure FilterState where
  ordered_passes : List String
  output_itr : Nat
  seen : List String

/-- One iteration of the compaction loop, reading position `read_idx` of the vector that is being
overwritten. -/
def filter_step (st : FilterState) (read_idx : Nat) : FilterState :=
  match st.ordered_passes[read_idx]? with
  | none => st
  | some pass =>
    if pass ∈ st.seen then st
    else
      { ordered_passes := st.ordered_passes.set st.output_itr pass
        output_itr := st.output_itr + 1
        seen := pass :: st.seen }

/-- The compaction loop of `order_passes` followed by `erase(output_itr, end())`. -/
def filter_passes (ordered_passes : List String) : List String :=
  let st := (List.range ordered_passes.length).foldl filter_step ⟨ordered_passes, 0, []⟩
  st.ordered_passes.take st.output_itr

/-- The last loop of `order_passes`: `render_passes_to_order.at(pass_name)` for each name. -/
def passes_in_submission_order (render_passes_to_order : unordered_map RenderPassCreateInfo) :
    List String → Except Abort (List RenderPassCreateInfo)
  | [] => .ok []
  | pass_name :: rest =>
    match render_passes_to_order.find pass_name with
    | none => .error (.out_of_range pass_name)
    | some pass =>
      match passes_in_submission_order render_passes_to_order rest with
      | .error e => .error e
      | .ok tail => .ok (pass :: tail)

/-- The function `order_passes`: the `Result` it returns and the errors it logged. -/
def order_passes (fuel : Nat) (passes : List RenderPassCreateInfo) :
    Except Abort (Result (List RenderPassCreateInfo) × List LogError) :=
  let render_passes_to_order := build_render_passes_to_order passes
  let resource_to_write_pass := build_resource_to_write_pass passes
  match resource_to_write_pass.find "Backbuffer" with
  | none =>
    .ok (.error ⟨"Failed to order passes because no backbuffer was found"⟩, [.no_backbuffer])
  | some backbuffer_writes =>
    match visit_all
        (fun pass_name s =>
          add_dependent_passes render_passes_to_order resource_to_write_pass fuel pass_name 1 s)
        backbuffer_writes ⟨backbuffer_writes, []⟩ with
    | .error e => .error e
    | .ok st =>
      match passes_in_submission_order render_passes_to_order
          (filter_passes st.ordered_passes.reverse) with
      | .error e => .error e
      | .ok ordered => .ok (.value ordered, st.errors)

/-! ## `determine_usage_order_of_textures` -/

/-- The update of one range at pass index `pass_idx` (the same for inputs and outputs). -/
def touch (pass_idx : Nat) (tex_range : Range) : Range :=
  if pass_idx < tex_range.first_write_pass then { tex_range with first_write_pass := pass_idx }
  else if pass_idx > tex_range.last_write_pass then { tex_range with last_write_pass := pass_idx }
  else tex_range

/-- The tables `determine_usage_order_of_textures` mutates. -/
structure UsageState where
  resource_used_range : unordered_map Range
  resources_in_order : List String

/-- The body of both inner loops: `resource_used_range[name]` is updated, `name` is appended to the
discovery list when it is not in it. -/
def record_use (pass_idx : Nat) (st : UsageState) (name : String) : UsageState :=
  { resource_used_range := unordered_map.subscript Range.fresh (touch pass_idx) st.resource_used_range name
    resources_in_order :=
      if name ∈ st.resources_in_order then st.resources_in_order
      else st.resources_in_order ++ [name] }

/-- The loop over the passes, from pass index `pass_idx` (a 32 bit counter). -/
def usage_loop : List RenderPassCreateInfo → Nat → UsageState → UsageState
  | [], _, st => st
  | pass :: rest, pass_idx, st =>
    let st := pass.texture_inputs.foldl (record_use pass_idx) st
    let st := (pass.texture_outputs.map (·.name)).foldl (record_use pass_idx) st
    usage_loop rest ((pass_idx + 1) % 4294967296) st

/-- The function `determine_usage_order_of_textures`, on the tables passed in by reference. -/
def determine_usage_order_of_textures (passes : List RenderPassCreateInfo)
    (resource_used_range : unordered_map Range) (resources_in_order : List String) : UsageState :=
  usage_loop passes 0 ⟨resource_used_range, resources_in_order⟩

/-! ## `determine_aliasing_of_textures` -/

/-- The inner loop of `determine_aliasing_of_textures` over the candidates `resources_in_order[j]`,
`j < i`. -/
def try_alias {Format : Type} [DecidableEq Format]
    (textures : unordered_map (TextureCreateInfo Format))
    (resource_used_range : unordered_map Range) (to_alias_name : String) (to_alias_format : Format) :
    List String → unordered_map String → Except Abort (unordered_map String)
  | [], aliases => .ok aliases
  | try_alias_name :: rest, aliases =>
    match resource_used_range.find to_alias_name with
    | none => .error (.out_of_range to_alias_name)
    | some to_alias_range =>
      match resource_used_range.find try_alias_name with
      | none => .error (.out_of_range try_alias_name)
      | some try_alias_range =>
        if to_alias_range.is_disjoint_with try_alias_range then
          match textures.find try_alias_name with
          | none => .error (.out_of_range try_alias_name)
          | some try_alias_info =>
            if to_alias_format = try_alias_info.format then
              try_alias textures resource_used_range to_alias_name to_alias_format rest
                (unordered_map.subscript "" (fun _ => try_alias_name) aliases to_alias_name)
            else
              try_alias textures resource_used_range to_alias_name to_alias_format rest aliases
        else
          try_alias textures resource_used_range to_alias_name to_alias_format rest aliases

/-- The outer loop of `determine_aliasing_of_textures`, at index `i` with the entries from `i` on
still to do. -/
def alias_loop {Format : Type} [DecidableEq Format]
    (textures : unordered_map (TextureCreateInfo Format))
    (resource_used_range : unordered_map Range) (resources_in_order : List String) :
    Nat → List String → unordered_map String → Except Abort (unordered_map String)
  | _, [], aliases => .ok aliases
  | i, to_alias_name :: rest, aliases =>
    if to_alias_name = "Backbuffer" ∨ to_alias_name = "backbuffer" then
      alias_loop textures resource_used_range resources_in_order (i + 1) rest aliases
    else
      match textures.find to_alias_name with
      | none => .error (.out_of_range to_alias_name)
      | some to_alias =>
        match try_alias textures resource_used_range to_alias_name to_alias.format
            (resources_in_order.take i) aliases with
        | .error e => .error e
        | .ok aliases =>
          alias_loop textures resource_used_range resources_in_order (i + 1) rest aliases

/-- The function `determine_aliasing_of_textures`. -/
def determine_aliasing_of_textures {Format : Type} [DecidableEq Format]
    (textures : unordered_map (TextureCreateInfo Format))
    (resource_used_range : unordered_map Range) (resources_in_order : List String) :
    Except Abort (unordered_map String) :=
  alias_loop textures resource_used_range resources_in_order 0 resources_in_order []

/-! ## Notions used in the statements -/

/-- The pass writes the resource: it lists it among its texture outputs or its output buffers. -/
def writes (pass : RenderPassCreateInfo) (resource : String) : Prop :=
  resource ∈ pass.texture_outputs.map (·.name) ∨ resource ∈ pass.output_buffers

/-- The pass reads the resource: it lists it among its texture inputs or its input buffers. -/
def reads (pass : RenderPassCreateInfo) (resource : String) : Prop :=
  resource ∈ pass.texture_inputs ∨ resource ∈ pass.input_buffers

instance (pass : RenderPassCreateInfo) (resource : String) : Decidable (writes pass resource) := by
  unfold writes; infer_instance

instance (pass : RenderPassCreateInfo) (resource : String) : Decidable (reads pass resource) := by
  unfold reads; infer_instance

/-- The pass named `n` directly requires the pass named `m`: some pass named `n` lists `m` as an
explicit dependency, or reads a resource that some pass named `m` writes. -/
def requires (passes : List RenderPassCreateInfo) (n m : String) : Prop :=
  ∃ P ∈ passes, P.name = n ∧
    (m ∈ P.dependencies ∨ ∃ r, reads P r ∧ ∃ W ∈ passes, W.name = m ∧ writes W r)

/-- The pass name `n` is reachable from a writer of "Backbuffer" through `requires`. -/
def reachable (passes : List RenderPassCreateInfo) (n : String) : Prop :=
  ∃ W ∈ passes, writes W "Backbuffer" ∧ Relation.ReflTransGen (requires passes) W.name n

/-- No pass requires itself through a chain of one or more steps. -/
def acyclic (passes : List RenderPassCreateInfo) : Prop :=
  ∀ n, ¬ Relation.TransGen (requires passes) n n

/-- No two passes of the list declare the same name. -/
def unique_names (passes : List RenderPassCreateInfo) : Prop :=
  (passes.map (·.name)).Nodup

instance (passes : List RenderPassCreateInfo) : Decidable (unique_names passes) := by
  unfold unique_names; infer_instance

/-- Every explicit dependency names a pass of the list. -/
def dependencies_exist (passes : List RenderPassCreateInfo) : Prop :=
  ∀ P ∈ passes, ∀ d ∈ P.dependencies, d ∈ passes.map (·.name)

instance (passes : List RenderPassCreateInfo) : Decidable (dependencies_exist passes) := by
  unfold dependencies_exist; infer_instance

/-- The names of the passes writing `resource`, in list order, one entry per listing. -/
def writers_of (passes : List RenderPassCreateInfo) (resource : String) : List String :=
  passes.flatMap fun pass =>
    ((pass.texture_outputs.filter fun output => output.name = resource).map fun _ => pass.name) ++
      ((pass.output_buffers.filter fun buffer_output => buffer_output = resource).map
        fun _ => pass.name)

/-- A writer list `o` of the write index after the names `ws` were pushed to it. -/
def pushed (o : Option (List String)) (ws : List String) : Option (List String) :=
  if ws = [] then o else some (o.getD [] ++ ws)

/-- The first occurrences of the names of a list, in order, after the names in `acc`. -/
def first_occurrences (acc : List String) (names : List String) : List String :=
  names.foldl (fun acc name => if name ∈ acc then acc else acc ++ [name]) acc

/-! ## The graph walked by `add_dependent_passes` -/

/-- The names `add_dependent_passes` appends for a pass before and between its recursive calls: the
explicit dependencies, the writers of the texture inputs, the writers of the input buffers. -/
def children (resource_to_write_pass : unordered_map (List String)) (pass : RenderPassCreateInfo) :
    List String :=
  pass.dependencies ++
    pass.texture_inputs.flatMap (fun r => (resource_to_write_pass.find r).getD []) ++
    pass.input_buffers.flatMap (fun r => (resource_to_write_pass.find r).getD [])

/-- The name `c` is visited by the call for the name `n`. -/
def edge (passes : unordered_map RenderPassCreateInfo)
    (resource_to_write_pass : unordered_map (List String)) (n c : String) : Prop :=
  ∃ pass, passes.find n = some pass ∧ c ∈ children resource_to_write_pass pass

/-- Every occurrence of a name in `e` is followed, further right, by everything it visits. -/
def followed (passes : unordered_map RenderPassCreateInfo)
    (resource_to_write_pass : unordered_map (List String)) (e : List String) : Prop :=
  ∀ d1 d2 m, e = d1 ++ m :: d2 → ∀ c, edge passes resource_to_write_pass m c → c ∈ d2

/-- The message `entry` is what the call for the name `x` logs about an input without writer. -/
def unresolved (passes : unordered_map RenderPassCreateInfo)
    (resource_to_write_pass : unordered_map (List String)) (x : String) (entry : LogError) : Prop :=
  ∃ pass, passes.find x = some pass ∧
    ((∃ r ∈ pass.texture_inputs, resource_to_write_pass.find r = none ∧
        entry = .texture_not_written x r) ∨
      (∃ r ∈ pass.input_buffers, resource_to_write_pass.find r = none ∧
        entry = .buffer_not_written x r))

/-- What the calls for the names `cs` (one after the other) append to the working order, `e`, and
to the log, `lg`. -/
structure segment (passes : unordered_map RenderPassCreateInfo)
    (resource_to_write_pass : unordered_map (List String)) (cs : List String) (e : List String)
    (lg : List LogError) : Prop where
  followed : followed passes resource_to_write_pass e
  sound : ∀ x ∈ e, ∃ c ∈ cs, Relation.TransGen (edge passes resource_to_write_pass) c x
  complete : ∀ c ∈ cs, ∀ x, Relation.TransGen (edge passes resource_to_write_pass) c x → x ∈ e
  logged : ∀ c ∈ cs, ∀ x, Relation.ReflTransGen (edge passes resource_to_write_pass) c x →
    ∀ entry, unresolved passes resource_to_write_pass x entry → entry ∈ lg
  acyc : ∀ x, x ∈ cs ∨ x ∈ e → ¬ Relation.TransGen (edge passes resource_to_write_pass) x x

/-- What appending the names `roots` and calling `add_dependent_passes` for each of them appends to
the working order, `e`, and to the log, `lg`. -/
structure covers (passes : unordered_map RenderPassCreateInfo)
    (resource_to_write_pass : unordered_map (List String)) (roots : List String) (e : List String)
    (lg : List LogError) : Prop where
  followed : followed passes resource_to_write_pass e
  sound : ∀ x ∈ e, ∃ c ∈ roots, Relation.ReflTransGen (edge passes resource_to_write_pass) c x
  complete : ∀ c ∈ roots, ∀ x,
    Relation.ReflTransGen (edge passes resource_to_write_pass) c x → x ∈ e
  logged : ∀ c ∈ roots, ∀ x, Relation.ReflTransGen (edge passes resource_to_write_pass) c x →
    ∀ entry, unresolved passes resource_to_write_pass x entry → entry ∈ lg
  acyc : ∀ x ∈ e, ¬ Relation.TransGen (edge passes resource_to_write_pass) x x

/-! ## Example pass lists -/

/-- The pass `A` of the scenario of §8: it writes the texture "G". -/
def pass_A : RenderPassCreateInfo := ⟨"A", [], [], [⟨"G", 0⟩], [], []⟩

/-- The pass `B` of the scenario of §8: it reads "G" and writes "Backbuffer". -/
def pass_B : RenderPassCreateInfo := ⟨"B", [], ["G"], [⟨"Backbuffer", 0⟩], [], []⟩

/-- A pass that depends on `cycle_B`, which depends on it. -/
def cycle_A : RenderPassCreateInfo := ⟨"A", ["B"], [], [], [], []⟩

/-- A pass that writes "Backbuffer" and depends on `cycle_A`. -/
def cycle_B : RenderPassCreateInfo := ⟨"B", ["A"], [], [⟨"Backbuffer", 0⟩], [], []⟩

/-- The pass `C` of the scenario of §8: it reads "X", which no pass writes. -/
def pass_C : RenderPassCreateInfo := ⟨"C", [], ["X"], [⟨"Backbuffer", 0⟩], [], []⟩

/-- A pass named "A" that writes "Backbuffer". -/
def duplicate_first : RenderPassCreateInfo := ⟨"A", [], [], [⟨"Backbuffer", 0⟩], [], []⟩

/-- Another pass named "A". -/
def duplicate_second : RenderPassCreateInfo := ⟨"A", [], [], [⟨"Other", 0⟩], [], []⟩

/-- A rank on the names of the scenario of §8 that decreases along `requires`. -/
def scenario_rank (n : String) : Nat := if n = "B" then 1 else 0

/-! ## Example tables for the aliasing resolver -/

/-- Three textures of one format. -/
def shared_textures : unordered_map (TextureCreateInfo Nat) :=
  [("X", ⟨0⟩), ("Y1", ⟨0⟩), ("Y2", ⟨0⟩)]

/-- The texture "X" is used at pass 0 only, "Y1" and "Y2" are both used at the passes 1 to 2. -/
def shared_ranges : unordered_map Range :=
  [("X", ⟨0, 0, UINT_MAX, 0⟩), ("Y1", ⟨1, 2, UINT_MAX, 0⟩), ("Y2", ⟨1, 2, UINT_MAX, 0⟩)]

/-- A texture table in which "Backbuffer" is declared next to a texture "T" of the same format. -/
def backbuffer_textures : unordered_map (TextureCreateInfo Nat) :=
  [("Backbuffer", ⟨0⟩), ("T", ⟨0⟩)]

/-- The resource "Backbuffer" is used at pass 0 only, "T" at the passes 1 to 2. -/
def backbuffer_ranges : unordered_map Range :=
  [("Backbuffer", ⟨0, 0, UINT_MAX, 0⟩), ("T", ⟨1, 2, UINT_MAX, 0⟩)]

/-- What holds of an entry `Y -> X` recorded by `determine_aliasing_of_textures`: `Y` is not the
backbuffer, `X` stands before `Y` in the discovery list, the range of `Y` is disjoint with the
range of `X`, and the formats are equal. -/
def alias_entry_ok {Format : Type} (textures : unordered_map (TextureCreateInfo Format))
    (resource_used_range : unordered_map Range) (resources_in_order : List String)
    (Y X : String) : Prop :=
  (Y ≠ "Backbuffer" ∧ Y ≠ "backbuffer") ∧
    (∃ i j : Nat, j < i ∧ resources_in_order[i]? = some Y ∧ resources_in_order[j]? = some X) ∧
    ∃ rY rX tY tX, resource_used_range.find Y = some rY ∧ resource_used_range.find X = some rX ∧
      rY.is_disjoint_with rX = true ∧ textures.find Y = some tY ∧ textures.find X = some tX ∧
      tY.format = tX.format

/-- The candidate `X` is eligible for `Y`: both have a range and a texture entry, the range of `Y`
is disjoint with the range of `X`, and the formats are equal. -/
def eligible {Format : Type} (textures : unordered_map (TextureCreateInfo Format))
    (resource_used_range : unordered_map Range) (Y X : String) : Prop :=
  ∃ rY rX tY tX, resource_used_range.find Y = some rY ∧ resource_used_range.find X = some rX ∧
    textures.find Y = some tY ∧ textures.find X = some tX ∧
    rY.is_disjoint_with rX = true ∧ tY.format = tX.format

/-- Three textures of one format, used one after the other. -/
def chain_textures : unordered_map (TextureCreateInfo Nat) :=
  [("X0", ⟨0⟩), ("X1", ⟨0⟩), ("Y", ⟨0⟩)]

/-- The texture "X0" is used at pass 0, "X1" at the passes 1 to 2, "Y" at the passes 3 to 4. -/
def chain_ranges : unordered_map Range :=
  [("X0", ⟨0, 0, UINT_MAX, 0⟩), ("X1", ⟨1, 2, UINT_MAX, 0⟩), ("Y", ⟨3, 4, UINT_MAX, 0⟩)]

/-- A texture "X" and a texture spelled "BACKBUFFER", of one format. -/
def uppercase_textures : unordered_map (TextureCreateInfo Nat) :=
  [("X", ⟨0⟩), ("BACKBUFFER", ⟨0⟩)]

/-- The texture "X" is used at pass 0, "BACKBUFFER" at the passes 1 to 2. -/
def uppercase_ranges : unordered_map Range :=
  [("X", ⟨0, 0, UINT_MAX, 0⟩), ("BACKBUFFER", ⟨1, 2, UINT_MAX, 0⟩)]

/-- Between the states `s` and `s'` the log grew, and not by the message of the cycle guard. -/
def no_circular_logged (s s' : SchedState) : Prop :=
  ∃ lg, s'.errors = s.errors ++ lg ∧ LogError.circular_render_graph ∉ lg

/-! ## Notions about the usage tracker -/

/-- The texture names a pass touches in `determine_usage_order_of_textures`, in the order of the
code: the texture inputs, then the names of the texture outputs. -/
def touched (pass : RenderPassCreateInfo) : List String :=
  pass.texture_inputs ++ pass.texture_outputs.map (·.name)

/-- The pass reads or writes the texture `T`. -/
def accesses (pass : RenderPassCreateInfo) (T : String) : Prop := T ∈ touched pass

instance (pass : RenderPassCreateInfo) (T : String) : Decidable (accesses pass T) := by
  unfold accesses; infer_instance

/-- The range entry of one texture after it was touched at the pass indices `es`, in this order,
starting from the entry `o` (no entry: `none`). -/
def apply_events (o : Option Range) (es : List Nat) : Option Range :=
  es.foldl (fun o idx => some (touch idx (o.getD Range.fresh))) o

/-- The values of the 32 bit pass counter at which the texture `T` is touched, one per listing, when
the loop over `passes` starts with the counter at `pass_idx`. -/
def events_from : List RenderPassCreateInfo → Nat → String → List Nat
  | [], _, _ => []
  | pass :: rest, pass_idx, T =>
    ((touched pass).filter fun name => name = T).map (fun _ => pass_idx) ++
      events_from rest ((pass_idx + 1) % 4294967296) T

/-- An ordered pass list: "X" is written at pass 0, "Y" is written at pass 1 and read at pass 2. -/
def pipeline_passes : List RenderPassCreateInfo :=
  [⟨"W0", [], [], [⟨"X", 0⟩], [], []⟩, ⟨"W1", [], [], [⟨"Y", 0⟩], [], []⟩,
    ⟨"W2", [], ["Y"], [], [], []⟩]

/-- The textures of `pipeline_passes`, of one format. -/
def pipeline_textures : unordered_map (TextureCreateInfo Nat) := [("X", ⟨0⟩), ("Y", ⟨0⟩)]

/-- The four fields of the range fit the 32 bit `unsigned` of the source. -/
def Range.is_u32 (r : Range) : Prop :=
  r.first_write_pass ≤ UINT_MAX ∧ r.last_write_pass ≤ UINT_MAX ∧
    r.first_read_pass ≤ UINT_MAX ∧ r.last_read_pass ≤ UINT_MAX

instance (r : Range) : Decidable r.is_u32 := by
  unfold Range.is_u32; infer_instance

/-- A range table with an entry for "G" that has a reader, for the tracker to start from. -/
def read_ranges : unordered_map Range := [("G", ⟨5, 6, 3, 7⟩)]

/-! ## Reachability of passes and what the log names -/

/-- A pass named "A" that writes "Backbuffer" and reads "G". -/
def reentrant_first : RenderPassCreateInfo := ⟨"A", [], ["G"], [⟨"Backbuffer", 0⟩], [], []⟩

/-- A second pass named "A", which writes "G". -/
def reentrant_second : RenderPassCreateInfo := ⟨"A", [], [], [⟨"G", 0⟩], [], []⟩

/-! ## The maps -/

namespace unordered_map

theorem find_append {V : Type} (m m' : unordered_map V) (key : String) :
    find (m ++ m') key = (find m key).orElse fun _ => find m' key := by
  induction m with
  | nil => simp [find]
  | cons e rest ih =>
    obtain ⟨k, v⟩ := e
    by_cases h : k = key <;> simp [find, h, ih]

theorem find_emplace {V : Type} (m : unordered_map V) (key key' : String) (v : V) :
    find (m.emplace key v) key' =
      (find m key').orElse fun _ => if key = key' then some v else none := by
  unfold emplace
  cases h : find m key with
  | some w =>
    by_cases hk : key = key'
    · subst hk; simp [h]
    · cases h' : find m key' <;> simp [hk]
  | none => simp [find_append, find]

theorem find_subscript {V : Type} (dflt : V) (f : V → V) (m : unordered_map V)
    (key key' : String) :
    find (subscript dflt f m key) key' =
      if key = key' then some (f ((find m key).getD dflt)) else find m key' := by
  induction m with
  | nil => simp [subscript, find]
  | cons e rest ih =>
    obtain ⟨k, v⟩ := e
    by_cases h : k = key
    · subst h
      by_cases h' : k = key' <;> simp [subscript, find, h']
    · by_cases h' : k = key'
      · subst h'
        have : ¬ key = k := fun e => h e.symm
        simp [subscript, find, h, this]
      · simp [subscript, find, h, h', ih]

theorem mem_of_find {V : Type} {m : unordered_map V} {key : String} {v : V}
    (h : find m key = some v) : (key, v) ∈ m := by
  induction m with
  | nil => simp [find] at h
  | cons e rest ih =>
    obtain ⟨k, w⟩ := e
    by_cases hk : k = key
    · simp only [find, hk, if_true, Option.some.injEq] at h
      rw [hk, h]
      simp
    · simp only [find, hk, if_false] at h
      exact List.mem_cons_of_mem _ (ih h)

end unordered_map

/-! ## The pass index and the write index -/

theorem find_emplace_fold (passes : List RenderPassCreateInfo)
    (m : unordered_map RenderPassCreateInfo) (n : String) :
    unordered_map.find (passes.foldl (fun m create_info => m.emplace create_info.name create_info) m) n =
      (unordered_map.find m n).orElse fun _ => passes.find? fun P => decide (P.name = n) := by
  induction passes generalizing m with
  | nil => cases h : unordered_map.find m n <;> simp [h]
  | cons P rest ih =>
    rw [List.foldl_cons, ih, unordered_map.find_emplace]
    cases h : unordered_map.find m n with
    | some w => simp
    | none => by_cases hn : P.name = n <;> simp [List.find?, hn]

/-- The name index maps a name to the first pass of the list declaring it. -/
theorem find_render_passes_to_order (passes : List RenderPassCreateInfo) (n : String) :
    (build_render_passes_to_order passes).find n = passes.find? fun P => decide (P.name = n) := by
  unfold build_render_passes_to_order
  rw [find_emplace_fold]
  simp [unordered_map.find]

theorem pushed_pushed (o : Option (List String)) (a b : List String) :
    pushed (pushed o a) b = pushed o (a ++ b) := by
  unfold pushed
  by_cases ha : a = [] <;> by_cases hb : b = [] <;> simp [ha, hb]

theorem find_add_writer_fold {α : Type} (key : α → String) (pass_name : String) (outs : List α)
    (m : unordered_map (List String)) (r : String) :
    unordered_map.find (outs.foldl (fun m output => add_writer m (key output) pass_name) m) r =
      pushed (unordered_map.find m r)
        ((outs.filter fun output => key output = r).map fun _ => pass_name) := by
  induction outs generalizing m with
  | nil => simp [pushed]
  | cons o rest ih =>
    rw [List.foldl_cons, ih]
    unfold add_writer
    rw [unordered_map.find_subscript]
    by_cases h : key o = r
    · subst h
      simp only [if_true, List.filter_cons, decide_True, List.map_cons]
      have : pushed (unordered_map.find m (key o)) [pass_name] =
          some ((unordered_map.find m (key o)).getD [] ++ [pass_name]) := by simp [pushed]
      rw [← this, pushed_pushed]
      simp
    · simp [h, List.filter_cons]

theorem find_write_fold (passes : List RenderPassCreateInfo) (m : unordered_map (List String))
    (r : String) :
    unordered_map.find (passes.foldl (fun m pass =>
      let m := pass.texture_outputs.foldl (fun m output => add_writer m output.name pass.name) m
      pass.output_buffers.foldl (fun m buffer_output => add_writer m buffer_output pass.name) m) m) r =
      pushed (unordered_map.find m r) (writers_of passes r) := by
  induction passes generalizing m with
  | nil => simp [pushed, writers_of]
  | cons P rest ih =>
    rw [List.foldl_cons, ih]
    simp only []
    rw [find_add_writer_fold (fun b : String => b), find_add_writer_fold (fun o : TextureAttachmentInfo => o.name),
      pushed_pushed, pushed_pushed]
    simp only [writers_of, List.flatMap_cons, List.append_assoc]

/-- The write index maps a resource to its writer list, and has no entry for a resource without
writer. -/
theorem find_resource_to_write_pass (passes : List RenderPassCreateInfo) (r : String) :
    (build_resource_to_write_pass passes).find r = pushed none (writers_of passes r) := by
  unfold build_resource_to_write_pass
  rw [find_write_fold]
  simp [unordered_map.find]

theorem mem_writers_of (passes : List RenderPassCreateInfo) (r m : String) :
    m ∈ writers_of passes r ↔ ∃ W ∈ passes, W.name = m ∧ writes W r := by
  unfold writers_of writes
  simp only [List.mem_flatMap, List.mem_append, List.mem_map, List.mem_filter, decide_eq_true_eq]
  constructor
  · rintro ⟨W, hW, h | h⟩
    · obtain ⟨o, ⟨ho, hr⟩, hm⟩ := h
      exact ⟨W, hW, hm, Or.inl ⟨o, ho, hr⟩⟩
    · obtain ⟨o, ⟨ho, hr⟩, hm⟩ := h
      exact ⟨W, hW, hm, Or.inr (hr ▸ ho)⟩
  · rintro ⟨W, hW, hm, h | h⟩
    · obtain ⟨o, ho, hr⟩ := h
      exact ⟨W, hW, Or.inl ⟨o, ⟨ho, hr⟩, hm⟩⟩
    · exact ⟨W, hW, Or.inr ⟨r, ⟨h, rfl⟩, hm⟩⟩

/-! ## The compaction loop -/

theorem first_occurrences_append (acc l l' : List String) :
    first_occurrences acc (l ++ l') = first_occurrences (first_occurrences acc l) l' := by
  simp [first_occurrences, List.foldl_append]

theorem first_occurrences_snoc (acc l : List String) (x : String) :
    first_occurrences acc (l ++ [x]) =
      if x ∈ first_occurrences acc l then first_occurrences acc l
      else first_occurrences acc l ++ [x] := by
  rw [first_occurrences_append]
  simp [first_occurrences]

/-- The invariant of the compaction loop after `r` iterations on the vector `l`. -/
theorem filter_loop_invariant (l : List String) (r : Nat) (hr : r ≤ l.length) :
    let st := (List.range r).foldl filter_step ⟨l, 0, []⟩
    st.output_itr ≤ r ∧ st.ordered_passes.length = l.length ∧
      st.ordered_passes.take st.output_itr = first_occurrences [] (l.take r) ∧
      st.ordered_passes.drop r = l.drop r ∧
      ∀ x, x ∈ st.seen ↔ x ∈ first_occurrences [] (l.take r) := by
  induction r with
  | zero => simp [first_occurrences]
  | succ r ih =>
    have hr' : r < l.length := hr
    obtain ⟨h_out, h_len, h_take, h_drop, h_seen⟩ := ih (Nat.le_of_lt hr')
    simp only [List.range_succ, List.foldl_append, List.foldl_cons, List.foldl_nil]
    generalize (List.range r).foldl filter_step ⟨l, 0, []⟩ = st at h_out h_len h_take h_drop h_seen
    have h_get : st.ordered_passes[r]? = some l[r] := by
      have := congrArg (fun v => v[0]?) h_drop
      simpa [List.getElem?_drop, List.getElem?_eq_getElem hr'] using this
    have h_tk : l.take (r + 1) = l.take r ++ [l[r]] := by
      rw [List.take_succ, List.getElem?_eq_getElem hr']; rfl
    have h_dr : st.ordered_passes.drop (r + 1) = l.drop (r + 1) := by
      rw [← List.drop_drop 1 r, ← List.drop_drop 1 r, h_drop]
    rw [h_tk, first_occurrences_snoc]
    unfold filter_step
    rw [h_get]
    simp only []
    by_cases hx : l[r] ∈ st.seen
    · have hx' := (h_seen _).1 hx
      rw [if_pos hx, if_pos hx']
      exact ⟨Nat.le_succ_of_le h_out, h_len, h_take, h_dr, h_seen⟩
    · have hx' : l[r] ∉ first_occurrences [] (l.take r) := fun h => hx ((h_seen _).2 h)
      rw [if_neg hx, if_neg hx']
      have h_lt : st.output_itr < st.ordered_passes.length := by omega
      refine ⟨Nat.succ_le_succ h_out, by simp [h_len], ?_, ?_, ?_⟩
      · simp only []
        rw [List.take_succ, List.set_take, List.getElem?_set_self h_lt,
          List.set_eq_of_length_le (by simp), h_take]
        rfl
      · simp only []
        rw [List.drop_set_of_lt _ _ (by omega), h_dr]
      · intro x
        simp only [List.mem_cons, List.mem_append, List.mem_singleton, h_seen]
        tauto

/-- The in-place compaction computes the list of first occurrences. -/
theorem filter_passes_eq (l : List String) : filter_passes l = first_occurrences [] l := by
  have h := filter_loop_invariant l l.length (Nat.le_refl _)
  simp only [List.take_length] at h
  exact h.2.2.1

theorem mem_first_occurrences (acc l : List String) (x : String) :
    x ∈ first_occurrences acc l ↔ x ∈ acc ∨ x ∈ l := by
  induction l using List.reverseRecOn with
  | nil => simp [first_occurrences]
  | append_singleton l y ih =>
    rw [first_occurrences_snoc]
    by_cases hy : y ∈ first_occurrences acc l
    · rw [if_pos hy, ih]
      simp only [List.mem_append, List.mem_singleton]
      constructor
      · rintro (h | h)
        · exact Or.inl h
        · exact Or.inr (Or.inl h)
      · rintro (h | h | h)
        · exact Or.inl h
        · exact Or.inr h
        · subst h
          exact ih.1 hy
    · rw [if_neg hy]
      simp only [List.mem_append, List.mem_singleton, ih]
      tauto

theorem nodup_first_occurrences (acc l : List String) (h : acc.Nodup) :
    (first_occurrences acc l).Nodup := by
  induction l using List.reverseRecOn with
  | nil => simpa [first_occurrences] using h
  | append_singleton l y ih =>
    rw [first_occurrences_snoc]
    by_cases hy : y ∈ first_occurrences acc l
    · rw [if_pos hy]; exact ih
    · rw [if_neg hy]
      exact List.Nodup.append ih (List.nodup_singleton y) (by simpa using hy)

theorem first_occurrences_prefix (acc l : List String) :
    ∃ t, first_occurrences acc l = acc ++ t := by
  induction l using List.reverseRecOn with
  | nil => exact ⟨[], by simp [first_occurrences]⟩
  | append_singleton l y ih =>
    obtain ⟨t, ht⟩ := ih
    rw [first_occurrences_snoc]
    by_cases hy : y ∈ first_occurrences acc l
    · rw [if_pos hy]; exact ⟨t, ht⟩
    · rw [if_neg hy, ht]; exact ⟨t ++ [y], by simp⟩

/-- In the list of first occurrences, the part before a name `P` is the list of first occurrences
of what precedes the first `P`. -/
theorem first_occurrences_split (l1 l2 : List String) (P : String) (hP : P ∉ l1) :
    ∃ t, first_occurrences [] (l1 ++ P :: l2) = first_occurrences [] l1 ++ P :: t := by
  have h : first_occurrences [] (l1 ++ P :: l2) =
      first_occurrences (first_occurrences [] l1 ++ [P]) l2 := by
    have hP' : P ∉ first_occurrences [] l1 := by
      rw [mem_first_occurrences]; simpa using hP
    rw [show l1 ++ P :: l2 = (l1 ++ [P]) ++ l2 by simp, first_occurrences_append,
      first_occurrences_snoc, if_neg hP']
  obtain ⟨t, ht⟩ := first_occurrences_prefix (first_occurrences [] l1 ++ [P]) l2
  exact ⟨t, by rw [h, ht]; simp⟩

/-! ## What a traversal appends -/

section walk

variable {pm : unordered_map RenderPassCreateInfo} {rtw : unordered_map (List String)}

theorem followed_nil : followed pm rtw [] := by
  intro d1 d2 m h
  simp at h

theorem followed_append {e1 e2 : List String} (h1 : followed pm rtw e1)
    (h2 : followed pm rtw e2) : followed pm rtw (e1 ++ e2) := by
  intro d1 d2 m h c hc
  rcases List.append_eq_append_iff.1 h with ⟨a, _, ha⟩ | ⟨t, ht, ht'⟩
  · exact h2 a d2 m ha c hc
  · cases t with
    | nil => exact h2 [] d2 m (by simpa using ht'.symm) c hc
    | cons y t =>
      simp only [List.cons_append, List.cons.injEq] at ht'
      obtain ⟨rfl, rfl⟩ := ht'
      exact List.mem_append_left _ (h1 d1 t m ht c hc)

theorem segment_nil : segment pm rtw [] [] [] where
  followed := followed_nil
  sound := by simp
  complete := by simp
  logged := by simp
  acyc := by simp

theorem segment_append {cs1 cs2 e1 e2 : List String} {lg1 lg2 : List LogError}
    (h1 : segment pm rtw cs1 e1 lg1) (h2 : segment pm rtw cs2 e2 lg2) :
    segment pm rtw (cs1 ++ cs2) (e1 ++ e2) (lg1 ++ lg2) where
  followed := followed_append h1.followed h2.followed
  sound := by
    intro x hx
    rcases List.mem_append.1 hx with hx | hx
    · obtain ⟨c, hc, h⟩ := h1.sound x hx
      exact ⟨c, List.mem_append_left _ hc, h⟩
    · obtain ⟨c, hc, h⟩ := h2.sound x hx
      exact ⟨c, List.mem_append_right _ hc, h⟩
  complete := by
    intro c hc x hx
    rcases List.mem_append.1 hc with hc | hc
    · exact List.mem_append_left _ (h1.complete c hc x hx)
    · exact List.mem_append_right _ (h2.complete c hc x hx)
  logged := by
    intro c hc x hx entry he
    rcases List.mem_append.1 hc with hc | hc
    · exact List.mem_append_left _ (h1.logged c hc x hx entry he)
    · exact List.mem_append_right _ (h2.logged c hc x hx entry he)
  acyc := by
    intro x hx
    rcases hx with hx | hx
    · rcases List.mem_append.1 hx with hx | hx
      · exact h1.acyc x (Or.inl hx)
      · exact h2.acyc x (Or.inl hx)
    · rcases List.mem_append.1 hx with hx | hx
      · exact h1.acyc x (Or.inr hx)
      · exact h2.acyc x (Or.inr hx)

theorem covers_nil : covers pm rtw [] [] [] where
  followed := followed_nil
  sound := by simp
  complete := by simp
  logged := by simp
  acyc := by simp

theorem covers_append {cs1 cs2 e1 e2 : List String} {lg1 lg2 : List LogError}
    (h1 : covers pm rtw cs1 e1 lg1) (h2 : covers pm rtw cs2 e2 lg2) :
    covers pm rtw (cs1 ++ cs2) (e1 ++ e2) (lg1 ++ lg2) where
  followed := followed_append h1.followed h2.followed
  sound := by
    intro x hx
    rcases List.mem_append.1 hx with hx | hx
    · obtain ⟨c, hc, h⟩ := h1.sound x hx
      exact ⟨c, List.mem_append_left _ hc, h⟩
    · obtain ⟨c, hc, h⟩ := h2.sound x hx
      exact ⟨c, List.mem_append_right _ hc, h⟩
  complete := by
    intro c hc x hx
    rcases List.mem_append.1 hc with hc | hc
    · exact List.mem_append_left _ (h1.complete c hc x hx)
    · exact List.mem_append_right _ (h2.complete c hc x hx)
  logged := by
    intro c hc x hx entry he
    rcases List.mem_append.1 hc with hc | hc
    · exact List.mem_append_left _ (h1.logged c hc x hx entry he)
    · exact List.mem_append_right _ (h2.logged c hc x hx entry he)
  acyc := by
    intro x hx
    rcases List.mem_append.1 hx with hx | hx
    · exact h1.acyc x hx
    · exact h2.acyc x hx

/-- A batch of names appended to the working order, followed by what their calls append. -/
theorem covers_of_segment {ws e : List String} {lg : List LogError}
    (h : segment pm rtw ws e lg) : covers pm rtw ws (ws ++ e) lg where
  followed := by
    intro d1 d2 m hsplit c hc
    rcases List.append_eq_append_iff.1 hsplit with ⟨a, _, ha⟩ | ⟨t, ht, ht'⟩
    · exact h.followed a d2 m ha c hc
    · cases t with
      | nil => exact h.followed [] d2 m (by simpa using ht'.symm) c hc
      | cons y t =>
        simp only [List.cons_append, List.cons.injEq] at ht'
        obtain ⟨rfl, rfl⟩ := ht'
        have hm : m ∈ ws := by rw [ht]; simp
        exact List.mem_append_right _ (h.complete m hm c (Relation.TransGen.single hc))
  sound := by
    intro x hx
    rcases List.mem_append.1 hx with hx | hx
    · exact ⟨x, hx, Relation.ReflTransGen.refl⟩
    · obtain ⟨c, hc, hcx⟩ := h.sound x hx
      exact ⟨c, hc, hcx.to_reflTransGen⟩
  complete := by
    intro c hc x hx
    rcases Relation.reflTransGen_iff_eq_or_transGen.1 hx with rfl | hx
    · exact List.mem_append_left _ hc
    · exact List.mem_append_right _ (h.complete c hc x hx)
  logged := h.logged
  acyc := by
    intro x hx
    rcases List.mem_append.1 hx with hx | hx
    · exact h.acyc x (Or.inl hx)
    · exact h.acyc x (Or.inr hx)

/-- What the call for `n` appends, from what its loops append. -/
theorem segment_of_covers {n : String} {pass : RenderPassCreateInfo} {e : List String}
    {lg : List LogError} (hn : pm.find n = some pass) (h : covers pm rtw (children rtw pass) e lg)
    (hlog : ∀ entry, unresolved pm rtw n entry → entry ∈ lg) : segment pm rtw [n] e lg := by
  have hedge : ∀ c, edge pm rtw n c ↔ c ∈ children rtw pass := by
    intro c
    constructor
    · rintro ⟨pass', hp, hc⟩
      rw [hn] at hp
      cases hp
      exact hc
    · exact fun hc => ⟨pass, hn, hc⟩
  have hcomplete : ∀ x, Relation.TransGen (edge pm rtw) n x → x ∈ e := by
    intro x hx
    obtain ⟨c, hc, hcx⟩ := Relation.TransGen.head'_iff.1 hx
    exact h.complete c ((hedge c).1 hc) x hcx
  refine ⟨h.followed, ?_, ?_, ?_, ?_⟩
  · intro x hx
    obtain ⟨c, hc, hcx⟩ := h.sound x hx
    exact ⟨n, by simp, Relation.TransGen.head' ((hedge c).2 hc) hcx⟩
  · intro c hc x hx
    simp only [List.mem_singleton] at hc
    subst hc
    exact hcomplete x hx
  · intro c hc x hx entry he
    simp only [List.mem_singleton] at hc
    subst hc
    rcases Relation.ReflTransGen.cases_head hx with rfl | ⟨c', hc', hcx⟩
    · exact hlog entry he
    · exact h.logged c' ((hedge c').1 hc') x hcx entry he
  · intro x hx
    rcases hx with hx | hx
    · simp only [List.mem_singleton] at hx
      subst hx
      intro hcyc
      exact h.acyc x (hcomplete x hcyc) hcyc
    · exact h.acyc x hx

theorem covers_log_mono {roots e : List String} {lg lg' : List LogError}
    (h : covers pm rtw roots e lg) (hsub : ∀ entry ∈ lg, entry ∈ lg') :
    covers pm rtw roots e lg' :=
  ⟨h.followed, h.sound, h.complete,
    fun c hc x hx entry he => hsub entry (h.logged c hc x hx entry he), h.acyc⟩

theorem visit_all_spec {visit : String → SchedState → Except Abort SchedState}
    (hv : ∀ c s s', visit c s = .ok s' →
      ∃ e lg, s' = ⟨s.ordered_passes ++ e, s.errors ++ lg⟩ ∧ segment pm rtw [c] e lg)
    (cs : List String) (s s' : SchedState) (h : visit_all visit cs s = .ok s') :
    ∃ e lg, s' = ⟨s.ordered_passes ++ e, s.errors ++ lg⟩ ∧ segment pm rtw cs e lg := by
  induction cs generalizing s with
  | nil =>
    simp only [visit_all, Except.ok.injEq] at h
    subst h
    exact ⟨[], [], by simp, segment_nil⟩
  | cons c rest ih =>
    cases hc : visit c s with
    | error err => simp [visit_all, hc] at h
    | ok s1 =>
      simp only [visit_all, hc] at h
      obtain ⟨e1, lg1, rfl, hseg1⟩ := hv c s s1 hc
      obtain ⟨e2, lg2, rfl, hseg2⟩ := ih _ h
      exact ⟨e1 ++ e2, lg1 ++ lg2, by simp, segment_append hseg1 hseg2⟩

theorem visit_dependencies_spec {visit : String → SchedState → Except Abort SchedState}
    (hv : ∀ c s s', visit c s = .ok s' →
      ∃ e lg, s' = ⟨s.ordered_passes ++ e, s.errors ++ lg⟩ ∧ segment pm rtw [c] e lg)
    (ds : List String) (s s' : SchedState) (h : visit_dependencies visit ds s = .ok s') :
    ∃ e lg, s' = ⟨s.ordered_passes ++ e, s.errors ++ lg⟩ ∧ covers pm rtw ds e lg := by
  induction ds generalizing s with
  | nil =>
    simp only [visit_dependencies, Except.ok.injEq] at h
    subst h
    exact ⟨[], [], by simp, covers_nil⟩
  | cons d rest ih =>
    cases hd : visit d (s.push_back d) with
    | error err => simp [visit_dependencies, hd] at h
    | ok s1 =>
      simp only [visit_dependencies, hd] at h
      obtain ⟨e1, lg1, rfl, hseg1⟩ := hv d _ s1 hd
      obtain ⟨e2, lg2, rfl, hcov2⟩ := ih _ h
      exact ⟨[d] ++ e1 ++ e2, lg1 ++ lg2, by simp [SchedState.push_back],
        covers_append (covers_of_segment hseg1) hcov2⟩

theorem visit_inputs_spec {visit : String → SchedState → Except Abort SchedState}
    (hv : ∀ c s s', visit c s = .ok s' →
      ∃ e lg, s' = ⟨s.ordered_passes ++ e, s.errors ++ lg⟩ ∧ segment pm rtw [c] e lg)
    (not_written : String → LogError)
    (rs : List String) (s s' : SchedState) (h : visit_inputs visit rtw not_written rs s = .ok s') :
    ∃ e lg, s' = ⟨s.ordered_passes ++ e, s.errors ++ lg⟩ ∧
      covers pm rtw (rs.flatMap fun r => (rtw.find r).getD []) e lg ∧
      ∀ r ∈ rs, rtw.find r = none → not_written r ∈ lg := by
  induction rs generalizing s with
  | nil =>
    simp only [visit_inputs, Except.ok.injEq] at h
    subst h
    exact ⟨[], [], by simp, covers_nil, by simp⟩
  | cons r rest ih =>
    cases hr : rtw.find r with
    | none =>
      simp only [visit_inputs, hr] at h
      obtain ⟨e2, lg2, rfl, hcov2, hlog2⟩ := ih _ h
      refine ⟨e2, [not_written r] ++ lg2, by simp [SchedState.log], ?_, ?_⟩
      · simp only [List.flatMap_cons, hr, Option.getD_none, List.nil_append]
        exact covers_log_mono hcov2 (fun entry he => List.mem_append_right _ he)
      · intro r' hr' hnone
        rcases List.mem_cons.1 hr' with rfl | hr'
        · simp
        · exact List.mem_append_right _ (hlog2 r' hr' hnone)
    | some ws =>
      simp only [visit_inputs, hr] at h
      cases hw : visit_all visit ws (s.insert_end ws) with
      | error err => simp [hw] at h
      | ok s1 =>
        simp only [hw] at h
        obtain ⟨e1, lg1, rfl, hseg1⟩ := visit_all_spec hv ws _ s1 hw
        obtain ⟨e2, lg2, rfl, hcov2, hlog2⟩ := ih _ h
        refine ⟨ws ++ e1 ++ e2, lg1 ++ lg2, by simp [SchedState.insert_end], ?_, ?_⟩
        · simp only [List.flatMap_cons, hr, Option.getD_some]
          exact covers_append (covers_of_segment hseg1) hcov2
        · intro r' hr' hnone
          rcases List.mem_cons.1 hr' with rfl | hr'
          · rw [hr] at hnone; cases hnone
          · exact List.mem_append_right _ (hlog2 r' hr' hnone)

/-- What a returning call of `add_dependent_passes` appends to the working order and to the log. -/
theorem add_dependent_passes_spec (fuel : Nat) (n : String) (depth : Nat) (s s' : SchedState)
    (h : add_dependent_passes pm rtw fuel n depth s = .ok s') :
    ∃ e lg, s' = ⟨s.ordered_passes ++ e, s.errors ++ lg⟩ ∧ segment pm rtw [n] e lg := by
  induction fuel generalizing n depth s s' with
  | zero => simp [add_dependent_passes] at h
  | succ fuel ih =>
    unfold add_dependent_passes at h
    simp only [] at h
    cases hn : pm.find n with
    | none => simp [hn] at h
    | some pass =>
      simp only [hn] at h
      have hv : ∀ c s s',
          add_dependent_passes pm rtw fuel c ((depth + 1) % 4294967296) s = .ok s' →
          ∃ e lg, s' = ⟨s.ordered_passes ++ e, s.errors ++ lg⟩ ∧ segment pm rtw [c] e lg :=
        fun c s s' hc => ih c _ s s' hc
      obtain ⟨lg0, hs0⟩ : ∃ lg0, (if depth > pm.size then s.log .circular_render_graph else s) =
          ⟨s.ordered_passes, s.errors ++ lg0⟩ := by
        by_cases hd : depth > pm.size
        · exact ⟨[.circular_render_graph], by simp [hd, SchedState.log]⟩
        · exact ⟨[], by simp [hd]⟩
      rw [hs0] at h
      split at h
      next => cases h
      next s1 h1 =>
        obtain ⟨e1, lg1, rfl, hcov1⟩ := visit_dependencies_spec hv _ _ _ h1
        split at h
        next => cases h
        next s2 h2 =>
          obtain ⟨e2, lg2, rfl, hcov2, hlog2⟩ := visit_inputs_spec hv _ _ _ _ h2
          obtain ⟨e3, lg3, rfl, hcov3, hlog3⟩ := visit_inputs_spec hv _ _ _ _ h
          refine ⟨e1 ++ e2 ++ e3, lg0 ++ (lg1 ++ lg2 ++ lg3), by simp, ?_⟩
          have hcov : covers pm rtw (children rtw pass) (e1 ++ e2 ++ e3) (lg1 ++ lg2 ++ lg3) :=
            covers_append (covers_append hcov1 hcov2) hcov3
          refine segment_of_covers hn
            (covers_log_mono hcov fun entry he => List.mem_append_right _ he) ?_
          rintro entry ⟨pass', hp, hu⟩
          rw [hn] at hp
          cases hp
          rcases hu with ⟨r, hr, hnone, rfl⟩ | ⟨r, hr, hnone, rfl⟩
          · have := hlog2 r hr hnone
            simp [this]
          · have := hlog3 r hr hnone
            simp [this]

end walk

/-! ## The graph of a pass list -/

theorem mem_getD_pushed (ws : List String) (x : String) :
    x ∈ (pushed none ws).getD [] ↔ x ∈ ws := by
  unfold pushed
  by_cases h : ws = [] <;> simp [h]

theorem find_index_mem {passes : List RenderPassCreateInfo} {n : String}
    {P : RenderPassCreateInfo} (h : (build_render_passes_to_order passes).find n = some P) :
    P ∈ passes ∧ P.name = n := by
  rw [find_render_passes_to_order] at h
  exact ⟨List.mem_of_find?_eq_some h, by simpa using List.find?_some h⟩

theorem find_index_of_mem {passes : List RenderPassCreateInfo} {n : String}
    (h : n ∈ passes.map (·.name)) : ∃ P, (build_render_passes_to_order passes).find n = some P := by
  rw [find_render_passes_to_order]
  obtain ⟨P, hP, rfl⟩ := List.mem_map.1 h
  cases hf : passes.find? fun Q => decide (Q.name = P.name) with
  | some Q => exact ⟨Q, rfl⟩
  | none =>
    have := List.find?_eq_none.1 hf P hP
    simp at this

theorem find_index_unique {passes : List RenderPassCreateInfo} (hu : unique_names passes)
    {P : RenderPassCreateInfo} (hP : P ∈ passes) :
    (build_render_passes_to_order passes).find P.name = some P := by
  obtain ⟨Q, hQ⟩ := find_index_of_mem (List.mem_map_of_mem _ hP)
  obtain ⟨hQm, hQn⟩ := find_index_mem hQ
  rw [hQ, List.inj_on_of_nodup_map hu hQm hP hQn]

/-- A step of the traversal is a step of `requires`. -/
theorem requires_of_edge {passes : List RenderPassCreateInfo} {n c : String}
    (h : edge (build_render_passes_to_order passes) (build_resource_to_write_pass passes) n c) :
    requires passes n c := by
  obtain ⟨P, hP, hc⟩ := h
  obtain ⟨hPm, hPn⟩ := find_index_mem hP
  refine ⟨P, hPm, hPn, ?_⟩
  simp only [children, List.mem_append, List.mem_flatMap, find_resource_to_write_pass,
    mem_getD_pushed, mem_writers_of] at hc
  rcases hc with (hc | ⟨r, hr, hW⟩) | ⟨r, hr, hW⟩
  · exact Or.inl hc
  · exact Or.inr ⟨r, Or.inl hr, hW⟩
  · exact Or.inr ⟨r, Or.inr hr, hW⟩

/-- With unique pass names, a step of `requires` is a step of the traversal. -/
theorem edge_of_requires {passes : List RenderPassCreateInfo} (hu : unique_names passes)
    {n c : String} (h : requires passes n c) :
    edge (build_render_passes_to_order passes) (build_resource_to_write_pass passes) n c := by
  obtain ⟨P, hPm, rfl, hc⟩ := h
  refine ⟨P, find_index_unique hu hPm, ?_⟩
  simp only [children, List.mem_append, List.mem_flatMap, find_resource_to_write_pass,
    mem_getD_pushed, mem_writers_of]
  rcases hc with hc | ⟨r, hr | hr, hW⟩
  · exact Or.inl (Or.inl hc)
  · exact Or.inl (Or.inr ⟨r, hr, hW⟩)
  · exact Or.inr ⟨r, hr, hW⟩

/-- The target of a step of `requires` is a pass name when explicit dependencies exist. -/
theorem requires_target_mem {passes : List RenderPassCreateInfo} (hd : dependencies_exist passes)
    {n c : String} (h : requires passes n c) : c ∈ passes.map (·.name) := by
  obtain ⟨P, hPm, _, hc | ⟨r, _, W, hW, rfl, _⟩⟩ := h
  · exact hd P hPm c hc
  · exact List.mem_map_of_mem _ hW

/-! ## The result of `order_passes` -/

theorem passes_in_submission_order_spec (pm : unordered_map RenderPassCreateInfo)
    (names : List String) (ordered : List RenderPassCreateInfo)
    (h : passes_in_submission_order pm names = .ok ordered) :
    List.Forall₂ (fun n P => pm.find n = some P) names ordered := by
  induction names generalizing ordered with
  | nil =>
    simp only [passes_in_submission_order, Except.ok.injEq] at h
    subst h
    exact List.Forall₂.nil
  | cons n rest ih =>
    unfold passes_in_submission_order at h
    split at h
    next => cases h
    next P hP =>
      split at h
      next => cases h
      next tail ht =>
        simp only [Except.ok.injEq] at h
        subst h
        exact List.Forall₂.cons hP (ih tail ht)

/-- The shape of a returned result: without Backbuffer writer the error, otherwise the passes found
under the first occurrences of the reversed working order. -/
theorem order_passes_ok {fuel : Nat} {passes : List RenderPassCreateInfo}
    {res : Result (List RenderPassCreateInfo)} {log : List LogError}
    (h : order_passes fuel passes = .ok (res, log)) :
    (writers_of passes "Backbuffer" = [] ∧
      res = .error ⟨"Failed to order passes because no backbuffer was found"⟩ ∧
      log = [.no_backbuffer]) ∨
    (writers_of passes "Backbuffer" ≠ [] ∧ ∃ D ordered,
      covers (build_render_passes_to_order passes) (build_resource_to_write_pass passes)
        (writers_of passes "Backbuffer") D log ∧
      res = .value ordered ∧
      List.Forall₂ (fun n P => (build_render_passes_to_order passes).find n = some P)
        (first_occurrences [] D.reverse) ordered) := by
  unfold order_passes at h
  simp only [find_resource_to_write_pass] at h
  by_cases hw : writers_of passes "Backbuffer" = []
  · left
    simp only [hw, pushed, if_true, Except.ok.injEq, Prod.mk.injEq] at h
    exact ⟨hw, h.1.symm, h.2.symm⟩
  · right
    simp only [pushed, if_neg hw, Option.getD_none, List.nil_append] at h
    split at h
    next => cases h
    next st hst =>
      obtain ⟨e, lg, rfl, hseg⟩ := visit_all_spec
        (fun c s s' hc => add_dependent_passes_spec fuel c 1 s s' hc) _ _ _ hst
      split at h
      next => cases h
      next ordered hord =>
        simp only [Except.ok.injEq, Prod.mk.injEq, List.nil_append] at h
        obtain ⟨rfl, rfl⟩ := h
        rw [filter_passes_eq] at hord
        exact ⟨hw, _, ordered, covers_of_segment hseg, rfl,
          passes_in_submission_order_spec _ _ _ hord⟩

theorem forall₂_getElem?_right {α β : Type} {R : α → β → Prop} {l₁ : List α} {l₂ : List β}
    (h : List.Forall₂ R l₁ l₂) {i : Nat} {b : β} (hb : l₂[i]? = some b) :
    ∃ a, l₁[i]? = some a ∧ R a b := by
  induction h generalizing i with
  | nil => simp at hb
  | cons hab _ ih =>
    cases i with
    | zero =>
      simp only [List.getElem?_cons_zero, Option.some.injEq] at hb
      subst hb
      exact ⟨_, by simp, hab⟩
    | succ i => simpa using ih (by simpa using hb)

theorem forall₂_getElem?_left {α β : Type} {R : α → β → Prop} {l₁ : List α} {l₂ : List β}
    (h : List.Forall₂ R l₁ l₂) {i : Nat} {a : α} (ha : l₁[i]? = some a) :
    ∃ b, l₂[i]? = some b ∧ R a b := by
  induction h generalizing i with
  | nil => simp at ha
  | cons hab _ ih =>
    cases i with
    | zero =>
      simp only [List.getElem?_cons_zero, Option.some.injEq] at ha
      subst ha
      exact ⟨_, by simp, hab⟩
    | succ i => simpa using ih (by simpa using ha)

theorem forall₂_mem_right {α β : Type} {R : α → β → Prop} {l₁ : List α} {l₂ : List β}
    (h : List.Forall₂ R l₁ l₂) {b : β} (hb : b ∈ l₂) : ∃ a ∈ l₁, R a b := by
  induction h with
  | nil => simp at hb
  | cons hab _ ih =>
    rcases List.mem_cons.1 hb with rfl | hb
    · exact ⟨_, by simp, hab⟩
    · obtain ⟨a, ha, hr⟩ := ih hb
      exact ⟨a, List.mem_cons_of_mem _ ha, hr⟩

theorem forall₂_mem_left {α β : Type} {R : α → β → Prop} {l₁ : List α} {l₂ : List β}
    (h : List.Forall₂ R l₁ l₂) {a : α} (ha : a ∈ l₁) : ∃ b ∈ l₂, R a b := by
  induction h with
  | nil => simp at ha
  | cons hab _ ih =>
    rcases List.mem_cons.1 ha with rfl | ha
    · exact ⟨_, by simp, hab⟩
    · obtain ⟨b, hb, hr⟩ := ih ha
      exact ⟨b, List.mem_cons_of_mem _ hb, hr⟩

theorem getElem?_inj_of_nodup {l : List String} (hl : l.Nodup) {i j : Nat} {x : String}
    (hi : l[i]? = some x) (hj : l[j]? = some x) : i = j := by
  obtain ⟨hi', hix⟩ := List.getElem?_eq_some.1 hi
  obtain ⟨hj', hjx⟩ := List.getElem?_eq_some.1 hj
  exact (List.Nodup.getElem_inj_iff hl).1 (hix.trans hjx.symm)

/-- In the normalised order every name stands behind the names it visits. -/
theorem first_occurrences_order {pm : unordered_map RenderPassCreateInfo}
    {rtw : unordered_map (List String)} {D : List String} (hf : followed pm rtw D)
    {i : Nat} {n c : String} (hn : (first_occurrences [] D.reverse)[i]? = some n)
    (hc : edge pm rtw n c) :
    ∃ j, j < i ∧ (first_occurrences [] D.reverse)[j]? = some c := by
  have hmem : n ∈ D.reverse := by
    have := (mem_first_occurrences [] D.reverse n).1 (List.getElem?_mem hn)
    simpa using this
  obtain ⟨as, bs, hsplit, hnas⟩ := List.eq_append_cons_of_mem hmem
  have hD : D = bs.reverse ++ n :: as.reverse := by
    have := congrArg List.reverse hsplit
    simpa using this
  have hcas : c ∈ as := by
    have := hf _ _ _ hD c hc
    simpa using this
  obtain ⟨t, ht⟩ := first_occurrences_split as bs n hnas
  rw [hsplit, ht] at hn ⊢
  have hnodup : (first_occurrences [] as ++ n :: t).Nodup := by
    rw [← ht]; exact nodup_first_occurrences [] _ List.nodup_nil
  have hi : i = (first_occurrences [] as).length :=
    getElem?_inj_of_nodup hnodup hn
      (by rw [List.getElem?_append_right (Nat.le_refl _)]; simp)
  have hcA : c ∈ first_occurrences [] as := (mem_first_occurrences [] as c).2 (Or.inr hcas)
  obtain ⟨j, hj⟩ := List.mem_iff_getElem?.1 hcA
  have hjlt : j < (first_occurrences [] as).length := (List.getElem?_eq_some.1 hj).1
  exact ⟨j, hi ▸ hjlt, by rw [List.getElem?_append_left hjlt]; exact hj⟩

/-! ## Termination on acyclic pass lists -/

theorem visit_all_total {visit : String → SchedState → Except Abort SchedState}
    (cs : List String) (hv : ∀ c ∈ cs, ∀ s, ∃ s', visit c s = .ok s') (s : SchedState) :
    ∃ s', visit_all visit cs s = .ok s' := by
  induction cs generalizing s with
  | nil => exact ⟨s, rfl⟩
  | cons c rest ih =>
    obtain ⟨s1, h1⟩ := hv c (by simp) s
    obtain ⟨s2, h2⟩ := ih (fun c' hc' => hv c' (List.mem_cons_of_mem _ hc')) s1
    exact ⟨s2, by simp only [visit_all, h1, h2]⟩

theorem visit_dependencies_total {visit : String → SchedState → Except Abort SchedState}
    (ds : List String) (hv : ∀ c ∈ ds, ∀ s, ∃ s', visit c s = .ok s') (s : SchedState) :
    ∃ s', visit_dependencies visit ds s = .ok s' := by
  induction ds generalizing s with
  | nil => exact ⟨s, rfl⟩
  | cons d rest ih =>
    obtain ⟨s1, h1⟩ := hv d (by simp) (s.push_back d)
    obtain ⟨s2, h2⟩ := ih (fun c' hc' => hv c' (List.mem_cons_of_mem _ hc')) s1
    exact ⟨s2, by simp only [visit_dependencies, h1, h2]⟩

theorem visit_inputs_total {visit : String → SchedState → Except Abort SchedState}
    (rtw : unordered_map (List String)) (not_written : String → LogError) (rs : List String)
    (hv : ∀ c ∈ rs.flatMap (fun r => (rtw.find r).getD []), ∀ s, ∃ s', visit c s = .ok s')
    (s : SchedState) : ∃ s', visit_inputs visit rtw not_written rs s = .ok s' := by
  induction rs generalizing s with
  | nil => exact ⟨s, rfl⟩
  | cons r rest ih =>
    have hrest : ∀ c ∈ rest.flatMap (fun r => (rtw.find r).getD []), ∀ s,
        ∃ s', visit c s = .ok s' :=
      fun c hc => hv c (by simp only [List.flatMap_cons, List.mem_append]; exact Or.inr hc)
    cases hr : rtw.find r with
    | none =>
      obtain ⟨s2, h2⟩ := ih hrest (s.log (not_written r))
      exact ⟨s2, by simp only [visit_inputs, hr, h2]⟩
    | some ws =>
      have hws : ∀ c ∈ ws, ∀ s, ∃ s', visit c s = .ok s' :=
        fun c hc => hv c (by simp only [List.flatMap_cons, List.mem_append, hr,
          Option.getD_some]; exact Or.inl hc)
      obtain ⟨s1, h1⟩ := visit_all_total ws hws (s.insert_end ws)
      obtain ⟨s2, h2⟩ := ih hrest s1
      exact ⟨s2, by simp only [visit_inputs, hr, h1, h2]⟩

/-- A call returns when the calls it makes return with one unit of fuel less. -/
theorem add_dependent_passes_total_step {pm : unordered_map RenderPassCreateInfo}
    {rtw : unordered_map (List String)} {n : String} {pass : RenderPassCreateInfo} {g : Nat}
    (hn : pm.find n = some pass)
    (hc : ∀ c ∈ children rtw pass, ∀ depth s, ∃ s', add_dependent_passes pm rtw g c depth s = .ok s')
    (depth : Nat) (s : SchedState) :
    ∃ s', add_dependent_passes pm rtw (g + 1) n depth s = .ok s' := by
  unfold add_dependent_passes
  simp only [hn]
  generalize (if depth > pm.size then s.log .circular_render_graph else s) = s0
  have hv : ∀ c ∈ children rtw pass, ∀ s, ∃ s',
      (fun name s => add_dependent_passes pm rtw g name ((depth + 1) % 4294967296) s) c s =
        .ok s' := fun c hcm s => hc c hcm _ s
  simp only [children, List.mem_append] at hv
  obtain ⟨s1, h1⟩ := visit_dependencies_total pass.dependencies
    (fun c hcm => hv c (Or.inl (Or.inl hcm))) s0
  obtain ⟨s2, h2⟩ := visit_inputs_total rtw (.texture_not_written n) pass.texture_inputs
    (fun c hcm => hv c (Or.inl (Or.inr hcm))) s1
  obtain ⟨s3, h3⟩ := visit_inputs_total rtw (.buffer_not_written n) pass.input_buffers
    (fun c hcm => hv c (Or.inr hcm)) s2
  exact ⟨s3, by simp only [h1, h2, h3]⟩

theorem uniform_fuel {pm : unordered_map RenderPassCreateInfo} {rtw : unordered_map (List String)}
    (cs : List String)
    (h : ∀ c ∈ cs, ∃ f, ∀ g, f ≤ g → ∀ depth s, ∃ s',
      add_dependent_passes pm rtw g c depth s = .ok s') :
    ∃ f, ∀ c ∈ cs, ∀ g, f ≤ g → ∀ depth s, ∃ s',
      add_dependent_passes pm rtw g c depth s = .ok s' := by
  induction cs with
  | nil => exact ⟨0, by simp⟩
  | cons c rest ih =>
    obtain ⟨f1, h1⟩ := h c (by simp)
    obtain ⟨f2, h2⟩ := ih (fun c' hc' => h c' (List.mem_cons_of_mem _ hc'))
    refine ⟨max f1 f2, ?_⟩
    intro c' hc' g hg
    rcases List.mem_cons.1 hc' with rfl | hc'
    · exact h1 g (le_trans (le_max_left _ _) hg)
    · exact h2 c' hc' g (le_trans (le_max_right _ _) hg)

/-- On an acyclic pass list whose explicit dependencies exist, the call for a pass name returns
once the fuel is large enough. -/
theorem add_dependent_passes_terminates {passes : List RenderPassCreateInfo}
    (hd : dependencies_exist passes) (ha : acyclic passes) (n : String)
    (hn : n ∈ passes.map (·.name)) :
    ∃ f, ∀ g, f ≤ g → ∀ depth s, ∃ s',
      add_dependent_passes (build_render_passes_to_order passes)
        (build_resource_to_write_pass passes) g n depth s = .ok s' := by
  let r : {x // x ∈ passes.map (·.name)} → {x // x ∈ passes.map (·.name)} → Prop :=
    fun a b => Relation.TransGen (requires passes) b.1 a.1
  haveI : IsTrans _ r := ⟨fun a b c hab hbc => Relation.TransGen.trans hbc hab⟩
  haveI : IsIrrefl _ r := ⟨fun a h => ha a.1 h⟩
  have wf : WellFounded r := Finite.wellFounded_of_trans_of_irrefl r
  have main : ∀ a : {x // x ∈ passes.map (·.name)}, ∃ f, ∀ g, f ≤ g → ∀ depth s, ∃ s',
      add_dependent_passes (build_render_passes_to_order passes)
        (build_resource_to_write_pass passes) g a.1 depth s = .ok s' := by
    intro a
    induction a using wf.induction with
    | _ a ih =>
      obtain ⟨P, hP⟩ := find_index_of_mem a.2
      have hch : ∀ c ∈ children (build_resource_to_write_pass passes) P, ∃ f, ∀ g, f ≤ g →
          ∀ depth s, ∃ s', add_dependent_passes (build_render_passes_to_order passes)
            (build_resource_to_write_pass passes) g c depth s = .ok s' := by
        intro c hc
        have hreq : requires passes a.1 c := requires_of_edge ⟨P, hP, hc⟩
        exact ih ⟨c, requires_target_mem hd hreq⟩ (Relation.TransGen.single hreq)
      obtain ⟨f, hf⟩ := uniform_fuel _ hch
      refine ⟨f + 1, ?_⟩
      intro g hg depth s
      obtain ⟨g', rfl⟩ : ∃ g', g = g' + 1 := ⟨g - 1, by omega⟩
      exact add_dependent_passes_total_step hP (fun c hc => hf c hc g' (by omega)) depth s
  exact main ⟨n, hn⟩

theorem passes_in_submission_order_total (pm : unordered_map RenderPassCreateInfo)
    (names : List String) (h : ∀ n ∈ names, ∃ P, pm.find n = some P) :
    ∃ ordered, passes_in_submission_order pm names = .ok ordered := by
  induction names with
  | nil => exact ⟨[], rfl⟩
  | cons n rest ih =>
    obtain ⟨P, hP⟩ := h n (by simp)
    obtain ⟨tail, ht⟩ := ih (fun n' hn' => h n' (List.mem_cons_of_mem _ hn'))
    exact ⟨P :: tail, by simp only [passes_in_submission_order, hP, ht]⟩

/-- A pass list is acyclic when some rank decreases along every step of `requires`. -/
theorem acyclic_of_rank {passes : List RenderPassCreateInfo} (rank : String → Nat)
    (h : ∀ n m, requires passes n m → rank m < rank n) : acyclic passes := by
  have hlt : ∀ n m, Relation.TransGen (requires passes) n m → rank m < rank n := by
    intro n m hnm
    induction hnm with
    | single hs => exact h _ _ hs
    | tail _ hs ih => exact lt_trans (h _ _ hs) ih
  exact fun n hn => lt_irrefl _ (hlt n n hn)

/-- The names of the passes found under a list of names are these names. -/
theorem names_of_found {passes : List RenderPassCreateInfo} {names : List String}
    {ordered : List RenderPassCreateInfo}
    (hall : List.Forall₂ (fun n P => (build_render_passes_to_order passes).find n = some P)
      names ordered) : ordered.map (·.name) = names := by
  have : List.Forall₂ (fun n n' => n' = n) names (ordered.map (·.name)) :=
    List.forall₂_map_right_iff.2 (hall.imp fun n Q h => (find_index_mem h).2)
  have h2 := List.forall₂_eq_eq_eq ▸ this.flip
  exact h2

/-! ## Claims about `order_passes` -/

/-- C1, order validity: when `order_passes` returns an ordered list for a pass list with unique
names, every pass `P` of that list stands at a strictly larger index than every pass named in
`P.dependencies` and than every pass writing a texture or buffer that `P` reads. -/
theorem order_passes_order_validity (passes : List RenderPassCreateInfo) (fuel : Nat)
    (ordered : List RenderPassCreateInfo) (log : List LogError)
    (h : order_passes fuel passes = .ok (.value ordered, log)) (hu : unique_names passes)
    (i : Nat) (P : RenderPassCreateInfo) (hP : ordered[i]? = some P) :
    (∀ d ∈ P.dependencies, ∃ j, j < i ∧ ∃ Q, ordered[j]? = some Q ∧ Q.name = d) ∧
    (∀ r, reads P r → ∀ W ∈ passes, writes W r → ∃ j, j < i ∧ ordered[j]? = some W) := by
  rcases order_passes_ok h with ⟨_, hres, _⟩ | ⟨_, D, ordered', hcov, hres, hall⟩
  · cases hres
  · cases hres
    obtain ⟨n, hn, hfind⟩ := forall₂_getElem?_right hall hP
    obtain ⟨hPm, hPn⟩ := find_index_mem hfind
    have key : ∀ c, requires passes n c → ∃ j, j < i ∧ ∃ Q, ordered[j]? = some Q ∧
        (build_render_passes_to_order passes).find c = some Q := by
      intro c hc
      obtain ⟨j, hj, hjc⟩ := first_occurrences_order hcov.followed hn (edge_of_requires hu hc)
      obtain ⟨Q, hQ, hQf⟩ := forall₂_getElem?_left hall hjc
      exact ⟨j, hj, Q, hQ, hQf⟩
    constructor
    · intro d hd
      obtain ⟨j, hj, Q, hQ, hQf⟩ := key d ⟨P, hPm, hPn, Or.inl hd⟩
      exact ⟨j, hj, Q, hQ, (find_index_mem hQf).2⟩
    · intro r hr W hW hWr
      obtain ⟨j, hj, Q, hQ, hQf⟩ := key W.name ⟨P, hPm, hPn, Or.inr ⟨r, hr, W, hW, rfl, hWr⟩⟩
      rw [find_index_unique hu hW] at hQf
      cases hQf
      exact ⟨j, hj, hQ⟩

/-- Witness of C1 on the scenario of §8 (given in the order B, A): B stands behind A. -/
theorem order_passes_order_validity_witness :
    order_passes 2 [pass_B, pass_A] = .ok (.value [pass_A, pass_B], []) ∧
      unique_names [pass_B, pass_A] ∧ [pass_A, pass_B][1]? = some pass_B ∧
      ((∀ d ∈ pass_B.dependencies,
          ∃ j, j < 1 ∧ ∃ Q, [pass_A, pass_B][j]? = some Q ∧ Q.name = d) ∧
        (∀ r, reads pass_B r → ∀ W ∈ [pass_B, pass_A], writes W r →
          ∃ j, j < 1 ∧ [pass_A, pass_B][j]? = some W)) :=
  ⟨by decide, by decide, by decide,
    order_passes_order_validity [pass_B, pass_A] 2 [pass_A, pass_B] [] (by decide) (by decide)
      1 pass_B (by decide)⟩

/-- C2, completeness: on an acyclic pass list with unique names, existing explicit dependencies
and a writer of "Backbuffer", `order_passes` returns an ordered list (for some recursion bound),
and every pass reachable from a writer of "Backbuffer" occurs exactly once in it. -/
theorem order_passes_completeness (passes : List RenderPassCreateInfo)
    (hu : unique_names passes) (hd : dependencies_exist passes) (ha : acyclic passes)
    (hb : ∃ W ∈ passes, writes W "Backbuffer") :
    ∃ fuel ordered log, order_passes fuel passes = .ok (.value ordered, log) ∧
      ∀ P ∈ passes, reachable passes P.name → ordered.count P = 1 := by
  have hw : writers_of passes "Backbuffer" ≠ [] := by
    obtain ⟨W, hW, hWb⟩ := hb
    exact List.ne_nil_of_mem ((mem_writers_of passes "Backbuffer" W.name).2 ⟨W, hW, rfl, hWb⟩)
  have hnames : ∀ c ∈ writers_of passes "Backbuffer", c ∈ passes.map (·.name) := by
    intro c hc
    obtain ⟨W, hW, rfl, _⟩ := (mem_writers_of passes "Backbuffer" c).1 hc
    exact List.mem_map_of_mem _ hW
  obtain ⟨F, hF⟩ := uniform_fuel (writers_of passes "Backbuffer")
    (fun c hc => add_dependent_passes_terminates hd ha c (hnames c hc))
  obtain ⟨st, hst⟩ := @visit_all_total
    (fun pass_name s => add_dependent_passes (build_render_passes_to_order passes)
      (build_resource_to_write_pass passes) F pass_name 1 s)
    (writers_of passes "Backbuffer") (fun c hc s => hF c hc F (Nat.le_refl _) 1 s)
    ⟨writers_of passes "Backbuffer", []⟩
  obtain ⟨e, lg, hst', hseg⟩ := visit_all_spec
    (fun c s s' hc => add_dependent_passes_spec F c 1 s s' hc) _ _ _ hst
  have hcov := covers_of_segment hseg
  have hfound : ∀ n ∈ filter_passes st.ordered_passes.reverse,
      ∃ P, (build_render_passes_to_order passes).find n = some P := by
    intro n hn
    rw [filter_passes_eq, mem_first_occurrences, hst'] at hn
    simp only [List.not_mem_nil, false_or, List.mem_reverse] at hn
    obtain ⟨c, hc, hcn⟩ := hcov.sound n hn
    apply find_index_of_mem
    rcases Relation.ReflTransGen.cases_tail hcn with rfl | ⟨y, _, hy⟩
    · exact hnames _ hc
    · exact requires_target_mem hd (requires_of_edge hy)
  obtain ⟨ordered, hord⟩ := passes_in_submission_order_total _ _ hfound
  have hres : order_passes F passes = .ok (.value ordered, st.errors) := by
    unfold order_passes
    simp only [find_resource_to_write_pass, pushed, if_neg hw, Option.getD_none,
      List.nil_append, hst, hord]
  refine ⟨F, ordered, st.errors, hres, ?_⟩
  rcases order_passes_ok hres with ⟨hw', _⟩ | ⟨_, D, ordered', hcov', hres', hall⟩
  · exact absurd hw' hw
  · cases hres'
    intro P hP ⟨W, hW, hWb, hreach⟩
    have hWn : W.name ∈ writers_of passes "Backbuffer" :=
      (mem_writers_of passes "Backbuffer" W.name).2 ⟨W, hW, rfl, hWb⟩
    have hPD : P.name ∈ D :=
      hcov'.complete W.name hWn P.name (hreach.mono fun _ _ => edge_of_requires hu)
    have hPN : P.name ∈ first_occurrences [] D.reverse := by
      rw [mem_first_occurrences]; simpa using hPD
    obtain ⟨Q, hQ, hQf⟩ := forall₂_mem_left hall hPN
    rw [find_index_unique hu hP] at hQf
    cases hQf
    have hmap : ordered.map (·.name) = first_occurrences [] D.reverse := names_of_found hall
    have hnd : ordered.Nodup :=
      List.Nodup.of_map _ (hmap ▸ nodup_first_occurrences [] _ List.nodup_nil)
    exact List.count_eq_one_of_mem hnd hQ

theorem acyclic_scenario : acyclic [pass_B, pass_A] := by
  apply acyclic_of_rank scenario_rank
  rintro n m ⟨P, hP, rfl, h⟩
  simp only [List.mem_cons, List.mem_singleton, List.not_mem_nil, or_false] at hP
  rcases hP with rfl | rfl
  · rcases h with h | ⟨r, hr, W, hW, rfl, hWr⟩
    · simp [pass_B] at h
    · simp only [List.mem_cons, List.mem_singleton, List.not_mem_nil, or_false] at hW
      rcases hW with rfl | rfl
      · have hr' : r = "G" := by simpa [reads, pass_B] using hr
        subst hr'
        revert hWr
        decide
      · decide
  · rcases h with h | ⟨r, hr, _⟩
    · simp [pass_A] at h
    · simp [reads, pass_A] at hr

/-- Witness of C2 on the scenario of §8. -/
theorem order_passes_completeness_witness :
    unique_names [pass_B, pass_A] ∧ dependencies_exist [pass_B, pass_A] ∧
      acyclic [pass_B, pass_A] ∧ (∃ W ∈ [pass_B, pass_A], writes W "Backbuffer") ∧
      ∃ fuel ordered log, order_passes fuel [pass_B, pass_A] = .ok (.value ordered, log) ∧
        ∀ P ∈ [pass_B, pass_A], reachable [pass_B, pass_A] P.name → ordered.count P = 1 :=
  ⟨by decide, by decide, acyclic_scenario, by decide,
    order_passes_completeness [pass_B, pass_A] (by decide) (by decide) acyclic_scenario
      (by decide)⟩

/-- C4, missing backbuffer: when no pass lists "Backbuffer" among its texture outputs or output
buffers, `order_passes` returns the error result. It does so for every recursion bound, the bound 0
included, and logs nothing but the missing backbuffer: no traversal is started. -/
theorem order_passes_missing_backbuffer (passes : List RenderPassCreateInfo) (fuel : Nat)
    (h : ∀ P ∈ passes, ¬ writes P "Backbuffer") :
    order_passes fuel passes =
      .ok (.error ⟨"Failed to order passes because no backbuffer was found"⟩, [.no_backbuffer]) := by
  have hw : writers_of passes "Backbuffer" = [] := by
    cases hws : writers_of passes "Backbuffer" with
    | nil => rfl
    | cons c rest =>
      have hc : c ∈ writers_of passes "Backbuffer" := by rw [hws]; simp
      obtain ⟨W, hW, _, hWb⟩ := (mem_writers_of passes "Backbuffer" c).1 hc
      exact absurd hWb (h W hW)
  unfold order_passes
  simp only [find_resource_to_write_pass, pushed, hw, if_true]

/-- Witness of C4: a pass list whose only pass writes "G", at recursion bound 0. -/
theorem order_passes_missing_backbuffer_witness :
    (∀ P ∈ [pass_A], ¬ writes P "Backbuffer") ∧
      order_passes 0 [pass_A] =
        .ok (.error ⟨"Failed to order passes because no backbuffer was found"⟩,
          [.no_backbuffer]) :=
  ⟨by decide, order_passes_missing_backbuffer [pass_A] 0 (by decide)⟩

/-- No call of `add_dependent_passes` on the cyclic pair returns, whatever the recursion bound. -/
theorem add_dependent_passes_cycle (fuel depth : Nat) (s : SchedState) :
    add_dependent_passes (build_render_passes_to_order [cycle_A, cycle_B])
        (build_resource_to_write_pass [cycle_A, cycle_B]) fuel "A" depth s = .error .out_of_fuel ∧
      add_dependent_passes (build_render_passes_to_order [cycle_A, cycle_B])
        (build_resource_to_write_pass [cycle_A, cycle_B]) fuel "B" depth s = .error .out_of_fuel := by
  have hA : (build_render_passes_to_order [cycle_A, cycle_B]).find "A" = some cycle_A := by decide
  have hB : (build_render_passes_to_order [cycle_A, cycle_B]).find "B" = some cycle_B := by decide
  induction fuel generalizing depth s with
  | zero => exact ⟨rfl, rfl⟩
  | succ fuel ih =>
    constructor
    · have hd : cycle_A.dependencies = ["B"] := rfl
      unfold add_dependent_passes
      simp only [hA, hd, visit_dependencies, (ih _ _).2]
    · have hd : cycle_B.dependencies = ["A"] := rfl
      unfold add_dependent_passes
      simp only [hB, hd, visit_dependencies, (ih _ _).1]

/-- C5, evaluated at the failing input: on the cyclic pair (B writes "Backbuffer" and depends on
A, A depends on B) `order_passes` returns nothing at any recursion bound: the recursion does not
end, it is not aborted when the depth exceeds the number of passes. -/
theorem order_passes_cycle_never_returns (fuel : Nat) :
    order_passes fuel [cycle_A, cycle_B] = .error .out_of_fuel := by
  have hbb : (build_resource_to_write_pass [cycle_A, cycle_B]).find "Backbuffer" = some ["B"] := by
    decide
  unfold order_passes
  simp only [hbb, visit_all, (add_dependent_passes_cycle fuel 1 _).2]

/-- On every pass list with unique names, a dependency cycle through a pass reachable from a writer
of "Backbuffer" keeps `order_passes` from returning any result. -/
theorem order_passes_no_result_on_cycle (passes : List RenderPassCreateInfo)
    (hu : unique_names passes) (n : String) (hn : reachable passes n)
    (hc : Relation.TransGen (requires passes) n n) (fuel : Nat)
    (r : Result (List RenderPassCreateInfo) × List LogError) :
    order_passes fuel passes ≠ .ok r := by
  intro h
  obtain ⟨res, log⟩ := r
  obtain ⟨W, hW, hWb, hreach⟩ := hn
  have hWn : W.name ∈ writers_of passes "Backbuffer" :=
    (mem_writers_of passes "Backbuffer" W.name).2 ⟨W, hW, rfl, hWb⟩
  rcases order_passes_ok h with ⟨hw, _⟩ | ⟨_, D, _, hcov, _, _⟩
  · rw [hw] at hWn
    simp at hWn
  · exact hcov.acyc n (hcov.complete _ hWn n (hreach.mono fun _ _ => edge_of_requires hu))
      (hc.mono fun _ _ => edge_of_requires hu)

/-- C6 fails as stated: the pass `C` writes "Backbuffer" and reads "X", which no pass writes, and
`order_passes` returns the ordered list `[C]`; the dangling read is only logged. -/
theorem order_passes_unresolved_input_counterexample :
    reads pass_C "X" ∧ (∀ W ∈ [pass_C], ¬ writes W "X") ∧ writes pass_C "Backbuffer" ∧
      order_passes 1 [pass_C] = .ok (.value [pass_C], [.texture_not_written "C" "X"]) := by
  decide

/-- C6 as amended: let the pass `C` of a pass list with unique names be reachable from a writer of
"Backbuffer", and let no pass write `X`. Whenever `order_passes` returns, it returns an ordered
list that contains `C`, and it has logged the message naming `C` and `X` for a texture input `X`
of `C`, and the message for buffers for an input buffer `X` of `C`. -/
theorem order_passes_unresolved_input_logged (passes : List RenderPassCreateInfo) (fuel : Nat)
    (res : Result (List RenderPassCreateInfo)) (log : List LogError)
    (h : order_passes fuel passes = .ok (res, log)) (hu : unique_names passes)
    (C : RenderPassCreateInfo) (hC : C ∈ passes) (hreach : reachable passes C.name)
    (X : String) (hX : ∀ W ∈ passes, ¬ writes W X) :
    (∃ ordered, res = .value ordered ∧ C ∈ ordered) ∧
      (X ∈ C.texture_inputs → LogError.texture_not_written C.name X ∈ log) ∧
      (X ∈ C.input_buffers → LogError.buffer_not_written C.name X ∈ log) := by
  obtain ⟨W, hW, hWb, hWC⟩ := hreach
  have hWn : W.name ∈ writers_of passes "Backbuffer" :=
    (mem_writers_of passes "Backbuffer" W.name).2 ⟨W, hW, rfl, hWb⟩
  have hnone : (build_resource_to_write_pass passes).find X = none := by
    have hw : writers_of passes X = [] := by
      cases hws : writers_of passes X with
      | nil => rfl
      | cons c rest =>
        have hc : c ∈ writers_of passes X := by rw [hws]; simp
        obtain ⟨V, hV, _, hVX⟩ := (mem_writers_of passes X c).1 hc
        exact absurd hVX (hX V hV)
    rw [find_resource_to_write_pass, hw]
    rfl
  rcases order_passes_ok h with ⟨hw, _⟩ | ⟨_, D, ordered, hcov, hres, hall⟩
  · rw [hw] at hWn
    simp at hWn
  · have hedge := hWC.mono fun _ _ => edge_of_requires hu
    refine ⟨⟨ordered, hres, ?_⟩, ?_, ?_⟩
    · have hCN : C.name ∈ first_occurrences [] D.reverse := by
        rw [mem_first_occurrences]
        simpa using hcov.complete _ hWn _ hedge
      obtain ⟨Q, hQ, hQf⟩ := forall₂_mem_left hall hCN
      rw [find_index_unique hu hC] at hQf
      cases hQf
      exact hQ
    · intro hin
      exact hcov.logged _ hWn _ hedge _
        ⟨C, find_index_unique hu hC, Or.inl ⟨X, hin, hnone, rfl⟩⟩
    · intro hin
      exact hcov.logged _ hWn _ hedge _
        ⟨C, find_index_unique hu hC, Or.inr ⟨X, hin, hnone, rfl⟩⟩

theorem reachable_pass_C : reachable [pass_C] pass_C.name :=
  ⟨pass_C, by simp, by decide, Relation.ReflTransGen.refl⟩

/-- Witness of the amended C6 on the pass `C` of §8. -/
theorem order_passes_unresolved_input_logged_witness :
    order_passes 1 [pass_C] = .ok (.value [pass_C], [.texture_not_written "C" "X"]) ∧
      unique_names [pass_C] ∧ pass_C ∈ [pass_C] ∧ reachable [pass_C] pass_C.name ∧
      (∀ W ∈ [pass_C], ¬ writes W "X") ∧
      ((∃ ordered, Result.value [pass_C] = .value ordered ∧ pass_C ∈ ordered) ∧
        ("X" ∈ pass_C.texture_inputs →
          LogError.texture_not_written pass_C.name "X" ∈ [LogError.texture_not_written "C" "X"]) ∧
        ("X" ∈ pass_C.input_buffers →
          LogError.buffer_not_written pass_C.name "X" ∈ [LogError.texture_not_written "C" "X"])) :=
  ⟨by decide, by decide, by decide, reachable_pass_C, by decide,
    order_passes_unresolved_input_logged [pass_C] 1 (.value [pass_C])
      [.texture_not_written "C" "X"] (by decide) (by decide) pass_C (by decide) reachable_pass_C
      "X" (by decide)⟩

/-- C7 fails as stated: two passes declare the name "A", and `order_passes` returns an ordered list
that holds the first of them; nothing is reported. -/
theorem order_passes_duplicate_names_counterexample :
    duplicate_first.name = duplicate_second.name ∧ duplicate_first ≠ duplicate_second ∧
      order_passes 1 [duplicate_first, duplicate_second] = .ok (.value [duplicate_first], []) := by
  decide

/-- C7 as amended: a duplicate pass name is never reported. When `order_passes` returns an error
result, no pass of the input writes "Backbuffer" (the missing backbuffer is the only error result
there is, with or without duplicate names); when it returns an ordered list, every pass of the list
is the first pass of the input list declaring its name (the name index keeps the first descriptor),
and no name occurs twice in the list. -/
theorem order_passes_keeps_first_declaration (passes : List RenderPassCreateInfo) (fuel : Nat)
    (res : Result (List RenderPassCreateInfo)) (log : List LogError)
    (h : order_passes fuel passes = .ok (res, log)) :
    (∀ e, res = .error e → ∀ P ∈ passes, ¬ writes P "Backbuffer") ∧
      ∀ ordered, res = .value ordered →
        (∀ P ∈ ordered, passes.find? (fun Q => decide (Q.name = P.name)) = some P) ∧
          (ordered.map (·.name)).Nodup := by
  rcases order_passes_ok h with ⟨hw, hres, _⟩ | ⟨_, D, ordered', _, hres, hall⟩
  · constructor
    · intro e _ P hP hPb
      have hmem : P.name ∈ writers_of passes "Backbuffer" :=
        (mem_writers_of passes "Backbuffer" P.name).2 ⟨P, hP, rfl, hPb⟩
      rw [hw] at hmem
      simp at hmem
    · intro ordered hval
      rw [hres] at hval
      cases hval
  · constructor
    · intro e herr
      rw [hres] at herr
      cases herr
    · intro ordered hval
      rw [hres] at hval
      cases hval
      constructor
      · intro P hP
        obtain ⟨n, _, hfind⟩ := forall₂_mem_right hall hP
        obtain ⟨_, rfl⟩ := find_index_mem hfind
        rw [← find_render_passes_to_order]
        exact hfind
      · rw [names_of_found hall]
        exact nodup_first_occurrences [] _ List.nodup_nil

/-- Witness of the amended C7 on the two passes named "A". -/
theorem order_passes_keeps_first_declaration_witness :
    order_passes 1 [duplicate_first, duplicate_second] = .ok (.value [duplicate_first], []) ∧
      ((∀ e, Result.value [duplicate_first] = .error e →
          ∀ P ∈ [duplicate_first, duplicate_second], ¬ writes P "Backbuffer") ∧
        ∀ ordered, Result.value [duplicate_first] = .value ordered →
          (∀ P ∈ ordered,
            [duplicate_first, duplicate_second].find? (fun Q => decide (Q.name = P.name)) =
              some P) ∧
            (ordered.map (·.name)).Nodup) :=
  ⟨by decide,
    order_passes_keeps_first_declaration [duplicate_first, duplicate_second] 1
      (.value [duplicate_first]) [] (by decide)⟩

/-- No call of `add_dependent_passes` for the name "A" returns on the two passes named "A" of which
the first reads what the second writes: the name index holds the first, the write index lists "A"
as the writer of "G", and the call for "A" calls itself. -/
theorem add_dependent_passes_reenters (fuel depth : Nat) (s : SchedState) :
    add_dependent_passes (build_render_passes_to_order [reentrant_first, reentrant_second])
        (build_resource_to_write_pass [reentrant_first, reentrant_second]) fuel "A" depth s =
      .error .out_of_fuel := by
  have hA : (build_render_passes_to_order [reentrant_first, reentrant_second]).find "A" =
      some reentrant_first := by decide
  have hG : (build_resource_to_write_pass [reentrant_first, reentrant_second]).find "G" =
      some ["A"] := by decide
  induction fuel generalizing depth s with
  | zero => rfl
  | succ fuel ih =>
    have hd : reentrant_first.dependencies = [] := rfl
    have ht : reentrant_first.texture_inputs = ["G"] := rfl
    unfold add_dependent_passes
    simp only [hA, hd, ht, visit_dependencies, visit_inputs, hG, visit_all, ih]

/-- A duplicate name can also keep `order_passes` from returning: on the two passes named "A" of
which the first writes "Backbuffer" and reads "G" and the second writes "G", no recursion bound is
enough. -/
theorem order_passes_duplicate_reenters (fuel : Nat) :
    reentrant_first.name = reentrant_second.name ∧
      order_passes fuel [reentrant_first, reentrant_second] = .error .out_of_fuel := by
  have hbb : (build_resource_to_write_pass [reentrant_first, reentrant_second]).find
      "Backbuffer" = some ["A"] := by decide
  refine ⟨rfl, ?_⟩
  unfold order_passes
  simp only [hbb, visit_all, add_dependent_passes_reenters fuel 1 _]

/-! ## `determine_aliasing_of_textures` -/

theorem mem_subscript {V : Type} (dflt : V) (f : V → V) (m : unordered_map V) (key : String)
    (e : String × V) (h : e ∈ unordered_map.subscript dflt f m key) :
    e ∈ m ∨ ∃ v, e = (key, f v) := by
  induction m with
  | nil =>
    simp only [unordered_map.subscript, List.mem_singleton] at h
    exact Or.inr ⟨dflt, h⟩
  | cons kv rest ih =>
    obtain ⟨k, v⟩ := kv
    unfold unordered_map.subscript at h
    by_cases hk : k = key
    · rw [if_pos hk] at h
      rcases List.mem_cons.1 h with h | h
      · exact Or.inr ⟨v, by rw [h, hk]⟩
      · exact Or.inl (List.mem_cons_of_mem _ h)
    · rw [if_neg hk] at h
      rcases List.mem_cons.1 h with h | h
      · exact Or.inl (by rw [h]; simp)
      · rcases ih h with h | h
        · exact Or.inl (List.mem_cons_of_mem _ h)
        · exact Or.inr h

section aliasing

variable {Format : Type} [DecidableEq Format]

/-- The inner loop records only entries that satisfy `alias_entry_ok`. -/
theorem try_alias_entries (textures : unordered_map (TextureCreateInfo Format))
    (ranges : unordered_map Range) (rio : List String) (Y0 : String)
    (t0 : TextureCreateInfo Format) (ht0 : textures.find Y0 = some t0)
    (hbb : Y0 ≠ "Backbuffer" ∧ Y0 ≠ "backbuffer") (i : Nat) (hi : rio[i]? = some Y0)
    (cs : List String) (hcs : ∀ c ∈ cs, ∃ j, j < i ∧ rio[j]? = some c)
    (aliases aliases' : unordered_map String)
    (hinv : ∀ Y X, (Y, X) ∈ aliases → alias_entry_ok textures ranges rio Y X)
    (h : try_alias textures ranges Y0 t0.format cs aliases = .ok aliases') :
    ∀ Y X, (Y, X) ∈ aliases' → alias_entry_ok textures ranges rio Y X := by
  induction cs generalizing aliases with
  | nil =>
    simp only [try_alias, Except.ok.injEq] at h
    subst h
    exact hinv
  | cons c rest ih =>
    have hrest : ∀ c' ∈ rest, ∃ j, j < i ∧ rio[j]? = some c' :=
      fun c' hc' => hcs c' (List.mem_cons_of_mem _ hc')
    unfold try_alias at h
    split at h
    next => cases h
    next rY hrY =>
      split at h
      next => cases h
      next rX hrX =>
        by_cases hdis : rY.is_disjoint_with rX = true
        · rw [if_pos hdis] at h
          split at h
          next => cases h
          next tX htX =>
            by_cases hfmt : t0.format = tX.format
            · rw [if_pos hfmt] at h
              refine ih hrest _ ?_ h
              intro Y X hYX
              rcases mem_subscript _ _ _ _ _ hYX with hold | ⟨v, hnew⟩
              · exact hinv Y X hold
              · simp only [Prod.mk.injEq] at hnew
                obtain ⟨rfl, rfl⟩ := hnew
                obtain ⟨j, hj, hjc⟩ := hcs X (by simp)
                exact ⟨hbb, ⟨i, j, hj, hi, hjc⟩, rY, rX, t0, tX, hrY, hrX, hdis, ht0, htX, hfmt⟩
            · rw [if_neg hfmt] at h
              exact ih hrest _ hinv h
        · rw [if_neg hdis] at h
          exact ih hrest _ hinv h

/-- The outer loop records only entries that satisfy `alias_entry_ok`. -/
theorem alias_loop_entries (textures : unordered_map (TextureCreateInfo Format))
    (ranges : unordered_map Range) (rio : List String) (i : Nat) (rest : List String)
    (hdrop : rio.drop i = rest) (aliases aliases' : unordered_map String)
    (hinv : ∀ Y X, (Y, X) ∈ aliases → alias_entry_ok textures ranges rio Y X)
    (h : alias_loop textures ranges rio i rest aliases = .ok aliases') :
    ∀ Y X, (Y, X) ∈ aliases' → alias_entry_ok textures ranges rio Y X := by
  induction rest generalizing i aliases with
  | nil =>
    simp only [alias_loop, Except.ok.injEq] at h
    subst h
    exact hinv
  | cons y rest ih =>
    have hi : rio[i]? = some y := by
      have := congrArg (fun l => l[0]?) hdrop
      simpa [List.getElem?_drop] using this
    have hdrop' : rio.drop (i + 1) = rest := by
      rw [← List.drop_drop 1 i, hdrop]
      rfl
    unfold alias_loop at h
    by_cases hbb : y = "Backbuffer" ∨ y = "backbuffer"
    · rw [if_pos hbb] at h
      exact ih (i + 1) hdrop' _ hinv h
    · rw [if_neg hbb] at h
      split at h
      next => cases h
      next t0 ht0 =>
        split at h
        next => cases h
        next aliases1 h1 =>
          refine ih (i + 1) hdrop' aliases1 ?_ h
          refine try_alias_entries textures ranges rio y t0 ht0
            ⟨fun e => hbb (Or.inl e), fun e => hbb (Or.inr e)⟩ i hi (rio.take i) ?_ aliases
            aliases1 hinv h1
          intro c hc
          obtain ⟨j, hj⟩ := List.mem_iff_getElem?.1 hc
          rw [List.getElem?_take] at hj
          by_cases hlt : j < i
          · rw [if_pos hlt] at hj
            exact ⟨j, hlt, hj⟩
          · rw [if_neg hlt] at hj
            cases hj

/-- Every entry of a returned alias table satisfies `alias_entry_ok`. -/
theorem determine_aliasing_entries (textures : unordered_map (TextureCreateInfo Format))
    (ranges : unordered_map Range) (rio : List String) (aliases : unordered_map String)
    (h : determine_aliasing_of_textures textures ranges rio = .ok aliases) :
    ∀ Y X, (Y, X) ∈ aliases → alias_entry_ok textures ranges rio Y X :=
  alias_loop_entries textures ranges rio 0 rio rfl [] aliases (by simp) h

/-- C8, pairwise alias safety: for every entry `Y -> X` of an alias table returned by
`determine_aliasing_of_textures`, `range(Y).is_disjoint_with(range(X))` is true and the formats of
`Y` and `X` in the texture table are equal. -/
theorem determine_aliasing_pairwise_safe (textures : unordered_map (TextureCreateInfo Format))
    (resource_used_range : unordered_map Range) (resources_in_order : List String)
    (aliases : unordered_map String)
    (h : determine_aliasing_of_textures textures resource_used_range resources_in_order =
      .ok aliases)
    (Y X : String) (hYX : (Y, X) ∈ aliases) :
    ∃ rY rX tY tX, resource_used_range.find Y = some rY ∧ resource_used_range.find X = some rX ∧
      textures.find Y = some tY ∧ textures.find X = some tX ∧
      rY.is_disjoint_with rX = true ∧ tY.format = tX.format := by
  obtain ⟨_, _, rY, rX, tY, tX, hrY, hrX, hdis, htY, htX, hfmt⟩ :=
    determine_aliasing_entries textures resource_used_range resources_in_order aliases h Y X hYX
  exact ⟨rY, rX, tY, tX, hrY, hrX, htY, htX, hdis, hfmt⟩

/-- Witness of C8: the entry `Y1 -> X` of the table computed for three textures of one format. -/
theorem determine_aliasing_pairwise_safe_witness :
    determine_aliasing_of_textures shared_textures shared_ranges ["X", "Y1", "Y2"] =
        .ok [("Y1", "X"), ("Y2", "X")] ∧
      ("Y1", "X") ∈ [("Y1", "X"), ("Y2", "X")] ∧
      ∃ rY rX tY tX, shared_ranges.find "Y1" = some rY ∧ shared_ranges.find "X" = some rX ∧
        shared_textures.find "Y1" = some tY ∧ shared_textures.find "X" = some tX ∧
        rY.is_disjoint_with rX = true ∧ tY.format = tX.format :=
  ⟨by decide, by decide,
    determine_aliasing_pairwise_safe shared_textures shared_ranges ["X", "Y1", "Y2"]
      [("Y1", "X"), ("Y2", "X")] (by decide) "Y1" "X" (by decide)⟩

theorem spans_of_is_disjoint_with {a b : Range} (h : a.is_disjoint_with b = true) :
    a.last_used_pass < b.first_used_pass ∨ b.last_used_pass < a.first_used_pass := by
  unfold Range.is_disjoint_with at h
  split at h
  · cases h
  · split at h
    · cases h
    · simpa using h

/-- C9 fails as stated: "Y1" and "Y2" are both aliased to "X", so the three share one allocation,
and the spans of "Y1" and "Y2" are both the passes 1 to 2: they overlap, neither ends before the
other begins. -/
theorem determine_aliasing_shared_backing_counterexample :
    determine_aliasing_of_textures shared_textures shared_ranges ["X", "Y1", "Y2"] =
        .ok [("Y1", "X"), ("Y2", "X")] ∧
      ∃ r1 r2, shared_ranges.find "Y1" = some r1 ∧ shared_ranges.find "Y2" = some r2 ∧
        r1.first_used_pass = 1 ∧ r1.last_used_pass = 2 ∧
        r2.first_used_pass = 1 ∧ r2.last_used_pass = 2 ∧
        ¬ (r1.last_used_pass < r2.first_used_pass ∨ r2.last_used_pass < r1.first_used_pass) :=
  ⟨by decide, ⟨1, 2, UINT_MAX, 0⟩, ⟨1, 2, UINT_MAX, 0⟩, by decide, by decide, by decide,
    by decide, by decide, by decide, by decide⟩

/-- C9 as amended: for every entry `Y -> X` of an alias table returned by
`determine_aliasing_of_textures`, the spans `[first_used_pass, last_used_pass]` of `Y` and of `X`
do not overlap: one ends before the other begins. -/
theorem determine_aliasing_entry_spans_apart
    (textures : unordered_map (TextureCreateInfo Format))
    (resource_used_range : unordered_map Range) (resources_in_order : List String)
    (aliases : unordered_map String)
    (h : determine_aliasing_of_textures textures resource_used_range resources_in_order =
      .ok aliases)
    (Y X : String) (hYX : (Y, X) ∈ aliases) :
    ∃ rY rX, resource_used_range.find Y = some rY ∧ resource_used_range.find X = some rX ∧
      (rY.last_used_pass < rX.first_used_pass ∨ rX.last_used_pass < rY.first_used_pass) := by
  obtain ⟨_, _, rY, rX, _, _, hrY, hrX, hdis, _⟩ :=
    determine_aliasing_entries textures resource_used_range resources_in_order aliases h Y X hYX
  exact ⟨rY, rX, hrY, hrX, spans_of_is_disjoint_with hdis⟩

/-- Witness of the amended C9: the entry `Y2 -> X`. -/
theorem determine_aliasing_entry_spans_apart_witness :
    determine_aliasing_of_textures shared_textures shared_ranges ["X", "Y1", "Y2"] =
        .ok [("Y1", "X"), ("Y2", "X")] ∧
      ("Y2", "X") ∈ [("Y1", "X"), ("Y2", "X")] ∧
      ∃ rY rX, shared_ranges.find "Y2" = some rY ∧ shared_ranges.find "X" = some rX ∧
        (rY.last_used_pass < rX.first_used_pass ∨ rX.last_used_pass < rY.first_used_pass) :=
  ⟨by decide, by decide,
    determine_aliasing_entry_spans_apart shared_textures shared_ranges ["X", "Y1", "Y2"]
      [("Y1", "X"), ("Y2", "X")] (by decide) "Y2" "X" (by decide)⟩

/-- C10 fails as stated: "Backbuffer" stands first in the discovery list and its range is disjoint
with the range of "T", which has the same format; the returned alias table maps "T" to
"Backbuffer", so "Backbuffer" is a value of the table. -/
theorem determine_aliasing_backbuffer_counterexample :
    determine_aliasing_of_textures backbuffer_textures backbuffer_ranges ["Backbuffer", "T"] =
      .ok [("T", "Backbuffer")] := by
  decide

/-- C10 as amended: "Backbuffer" is never a key of an alias table returned by
`determine_aliasing_of_textures`: no entry records it as aliasing another resource. -/
theorem determine_aliasing_backbuffer_not_key
    (textures : unordered_map (TextureCreateInfo Format))
    (resource_used_range : unordered_map Range) (resources_in_order : List String)
    (aliases : unordered_map String)
    (h : determine_aliasing_of_textures textures resource_used_range resources_in_order =
      .ok aliases)
    (X : String) : ("Backbuffer", X) ∉ aliases ∧ aliases.find "Backbuffer" = none := by
  have hnot : ∀ X, ("Backbuffer", X) ∉ aliases := fun X hmem =>
    (determine_aliasing_entries textures resource_used_range resources_in_order aliases h
      "Backbuffer" X hmem).1.1 rfl
  refine ⟨hnot X, ?_⟩
  cases hf : aliases.find "Backbuffer" with
  | none => rfl
  | some v => exact absurd (unordered_map.mem_of_find hf) (hnot v)

/-- Witness of the amended C10 on the table that maps "T" to "Backbuffer". -/
theorem determine_aliasing_backbuffer_not_key_witness :
    determine_aliasing_of_textures backbuffer_textures backbuffer_ranges ["Backbuffer", "T"] =
        .ok [("T", "Backbuffer")] ∧
      (("Backbuffer", "T") ∉ [("T", "Backbuffer")] ∧
        unordered_map.find [("T", "Backbuffer")] "Backbuffer" = none) :=
  ⟨by decide,
    determine_aliasing_backbuffer_not_key backbuffer_textures backbuffer_ranges
      ["Backbuffer", "T"] [("T", "Backbuffer")] (by decide) "T"⟩

end aliasing

/-! ## The order normaliser, the write index and `Range` -/

/-- The list of first occurrences is the reverse of the library `dedup` (which keeps the last
occurrence of every element) of the reversed list. -/
theorem first_occurrences_eq_dedup (l : List String) :
    first_occurrences [] l = l.reverse.dedup.reverse := by
  induction l using List.reverseRecOn with
  | nil => simp [first_occurrences]
  | append_singleton l x ih =>
    rw [first_occurrences_snoc, List.reverse_append, List.reverse_singleton, List.singleton_append]
    by_cases hx : x ∈ l
    · have h1 : x ∈ first_occurrences [] l := (mem_first_occurrences [] l x).2 (Or.inr hx)
      rw [if_pos h1, List.dedup_cons_of_mem (List.mem_reverse.2 hx), ih]
    · have h1 : x ∉ first_occurrences [] l := by
        rw [mem_first_occurrences]; simpa using hx
      rw [if_neg h1, List.dedup_cons_of_not_mem (fun h => hx (List.mem_reverse.1 h)), ih]
      simp

/-- C14, order normaliser: the in-place compaction loop of `order_passes` (followed by the erase of
the tail) returns the first occurrences of the names in left-to-right order; the result has no
duplicates, the same names as the input, is a subsequence of the input and is not longer; the
write cursor is never ahead of the read cursor. -/
theorem filter_passes_first_occurrences (l : List String) :
    filter_passes l = first_occurrences [] l ∧
      filter_passes l = l.reverse.dedup.reverse ∧
      (filter_passes l).Nodup ∧ (∀ x, x ∈ filter_passes l ↔ x ∈ l) ∧
      List.Sublist (filter_passes l) l ∧ (filter_passes l).length ≤ l.length ∧
      ∀ r, ((List.range (min r l.length)).foldl filter_step ⟨l, 0, []⟩).output_itr ≤
        min r l.length := by
  have h1 : filter_passes l = l.reverse.dedup.reverse := by
    rw [filter_passes_eq, first_occurrences_eq_dedup]
  have hsub : List.Sublist (filter_passes l) l := by
    rw [h1]
    have := List.reverse_sublist.2 (List.dedup_sublist l.reverse)
    simpa using this
  refine ⟨filter_passes_eq l, h1, ?_, ?_, hsub, hsub.length_le, ?_⟩
  · rw [h1]
    exact List.nodup_reverse.2 (List.nodup_dedup _)
  · intro x
    rw [h1]
    simp
  · intro r
    exact (filter_loop_invariant l (min r l.length) (Nat.min_le_right _ _)).1

/-- C15, write index: the writer list that `order_passes` builds for a resource `r` is the
sequence, in input order, of the names of the passes listing `r` among their texture outputs or
output buffers, one entry per listing (`writers_of`); `r` has an entry iff some pass writes it. -/
theorem resource_to_write_pass_entries (passes : List RenderPassCreateInfo) (r : String) :
    (build_resource_to_write_pass passes).find r =
        (if writers_of passes r = [] then none else some (writers_of passes r)) ∧
      (((build_resource_to_write_pass passes).find r).isSome ↔ ∃ W ∈ passes, writes W r) := by
  have h : (build_resource_to_write_pass passes).find r =
      (if writers_of passes r = [] then none else some (writers_of passes r)) := by
    rw [find_resource_to_write_pass]
    unfold pushed
    by_cases hw : writers_of passes r = [] <;> simp [hw]
  refine ⟨h, ?_⟩
  rw [h]
  constructor
  · intro hsome
    by_cases hw : writers_of passes r = []
    · simp [hw] at hsome
    · obtain ⟨c, hc⟩ := List.exists_mem_of_ne_nil _ hw
      obtain ⟨W, hW, _, hWr⟩ := (mem_writers_of passes r c).1 hc
      exact ⟨W, hW, hWr⟩
  · rintro ⟨W, hW, hWr⟩
    have hw : writers_of passes r ≠ [] :=
      List.ne_nil_of_mem ((mem_writers_of passes r W.name).2 ⟨W, hW, rfl, hWr⟩)
    simp [hw]

/-- C16, disjointness: `a.is_disjoint_with(b)` is true iff both ranges are used, both can alias,
and one span ends before the other begins; `can_alias()` is false exactly when the range has a
reader and a writer and `first_read_pass <= first_write_pass`. -/
theorem is_disjoint_with_iff (a b : Range) :
    (a.is_disjoint_with b = true ↔
        a.is_used = true ∧ b.is_used = true ∧ a.can_alias = true ∧ b.can_alias = true ∧
          (a.last_used_pass < b.first_used_pass ∨ b.last_used_pass < a.first_used_pass)) ∧
      (a.can_alias = false ↔
        a.has_reader = true ∧ a.has_writer = true ∧ a.first_read_pass ≤ a.first_write_pass) := by
  constructor
  · unfold Range.is_disjoint_with
    cases ha : a.is_used <;> cases hb : b.is_used <;> cases hca : a.can_alias <;>
      cases hcb : b.can_alias <;> simp
  · unfold Range.can_alias
    cases a.has_reader <;> cases a.has_writer <;> simp

/-- C13, evaluated at the failing input: on the ordered list `[A, B]` of §8 the pass at index 1
writes "Backbuffer" for the first time, and the recorded range of "Backbuffer" is
`first_write_pass = 1`, `last_write_pass = 0`: the index 1 is not covered. -/
theorem determine_usage_range_misses_first_access :
    (determine_usage_order_of_textures [pass_A, pass_B] [] []).resource_used_range.find
        "Backbuffer" = some ⟨1, 0, UINT_MAX, 0⟩ ∧
      "Backbuffer" ∈ pass_B.texture_outputs.map (·.name) ∧ [pass_A, pass_B][1]? = some pass_B ∧
      ¬ (1 ≤ (Range.mk 1 0 UINT_MAX 0).last_write_pass) := by
  decide

/-! ## Which entry the aliasing resolver records -/

theorem find_of_mem_of_nodup_keys {V : Type} {m : unordered_map V}
    (hm : (m.map (·.1)).Nodup) {key : String} {v : V} (h : (key, v) ∈ m) :
    unordered_map.find m key = some v := by
  induction m with
  | nil => simp at h
  | cons e rest ih =>
    obtain ⟨k, w⟩ := e
    simp only [List.map_cons, List.nodup_cons] at hm
    rcases List.mem_cons.1 h with h | h
    · simp only [Prod.mk.injEq] at h
      obtain ⟨rfl, rfl⟩ := h
      simp [unordered_map.find]
    · have hk : k ≠ key := by
        rintro rfl
        exact hm.1 (List.mem_map_of_mem (·.1) h)
      simp only [unordered_map.find, hk, if_false]
      exact ih hm.2 h

theorem keys_subscript {V : Type} (dflt : V) (f : V → V) (m : unordered_map V) (key : String) :
    (unordered_map.subscript dflt f m key).map (·.1) =
      if key ∈ m.map (·.1) then m.map (·.1) else m.map (·.1) ++ [key] := by
  induction m with
  | nil => simp [unordered_map.subscript]
  | cons e rest ih =>
    obtain ⟨k, w⟩ := e
    by_cases hk : k = key
    · subst hk
      simp [unordered_map.subscript]
    · have hk' : ¬ key = k := fun e => hk e.symm
      simp only [unordered_map.subscript, if_neg hk, List.map_cons, ih, List.mem_cons, hk',
        false_or]
      by_cases hmem : key ∈ rest.map (·.1) <;> simp [hmem]

theorem nodup_keys_subscript {V : Type} (dflt : V) (f : V → V) (m : unordered_map V)
    (key : String) (hm : (m.map (·.1)).Nodup) :
    ((unordered_map.subscript dflt f m key).map (·.1)).Nodup := by
  rw [keys_subscript]
  by_cases hmem : key ∈ m.map (·.1)
  · rw [if_pos hmem]; exact hm
  · rw [if_neg hmem]
    exact List.Nodup.append hm (List.nodup_singleton key) (by simpa using hmem)

section aliasing_entries

variable {Format : Type} [DecidableEq Format]

/-- One iteration of the inner loop: the entry of `Y0` is overwritten when the candidate is
eligible, and nothing changes otherwise. -/
theorem try_alias_step (textures : unordered_map (TextureCreateInfo Format))
    (ranges : unordered_map Range) (Y0 : String) (t0 : TextureCreateInfo Format)
    (ht0 : textures.find Y0 = some t0) (c : String) (rest : List String)
    (aliases aliases' : unordered_map String)
    (h : try_alias textures ranges Y0 t0.format (c :: rest) aliases = .ok aliases') :
    ∃ aliases1, try_alias textures ranges Y0 t0.format rest aliases1 = .ok aliases' ∧
      ((eligible textures ranges Y0 c ∧
          aliases1 = unordered_map.subscript "" (fun _ => c) aliases Y0) ∨
        (¬ eligible textures ranges Y0 c ∧ aliases1 = aliases)) := by
  unfold try_alias at h
  split at h
  next => cases h
  next rY hrY =>
    split at h
    next => cases h
    next rX hrX =>
      by_cases hdis : rY.is_disjoint_with rX = true
      · rw [if_pos hdis] at h
        split at h
        next => cases h
        next tX htX =>
          by_cases hfmt : t0.format = tX.format
          · rw [if_pos hfmt] at h
            exact ⟨_, h, Or.inl ⟨⟨rY, rX, t0, tX, hrY, hrX, ht0, htX, hdis, hfmt⟩, rfl⟩⟩
          · rw [if_neg hfmt] at h
            refine ⟨_, h, Or.inr ⟨?_, rfl⟩⟩
            rintro ⟨rY', rX', tY', tX', _, _, htY', htX', _, hfmt'⟩
            rw [ht0] at htY'
            rw [htX] at htX'
            cases htY'
            cases htX'
            exact hfmt hfmt'
      · rw [if_neg hdis] at h
        refine ⟨_, h, Or.inr ⟨?_, rfl⟩⟩
        rintro ⟨rY', rX', tY', tX', hrY', hrX', _, _, hdis', _⟩
        rw [hrY] at hrY'
        rw [hrX] at hrX'
        cases hrY'
        cases hrX'
        exact hdis hdis'

/-- The inner loop changes the entry of `Y0` only, and sets it to the last eligible candidate. -/
theorem try_alias_find (textures : unordered_map (TextureCreateInfo Format))
    (ranges : unordered_map Range) (Y0 : String) (t0 : TextureCreateInfo Format)
    (ht0 : textures.find Y0 = some t0) (cs : List String)
    (aliases aliases' : unordered_map String)
    (h : try_alias textures ranges Y0 t0.format cs aliases = .ok aliases') :
    (∀ k, k ≠ Y0 → aliases'.find k = aliases.find k) ∧
      ((∀ c ∈ cs, ¬ eligible textures ranges Y0 c) → aliases'.find Y0 = aliases.find Y0) ∧
      ((∃ c ∈ cs, eligible textures ranges Y0 c) →
        ∃ pre c post, cs = pre ++ c :: post ∧ eligible textures ranges Y0 c ∧
          (∀ z ∈ post, ¬ eligible textures ranges Y0 z) ∧ aliases'.find Y0 = some c) := by
  induction cs generalizing aliases with
  | nil =>
    simp only [try_alias, Except.ok.injEq] at h
    subst h
    exact ⟨fun _ _ => rfl, fun _ => rfl, by simp⟩
  | cons c rest ih =>
    obtain ⟨aliases1, h1, hcase⟩ := try_alias_step textures ranges Y0 t0 ht0 c rest _ _ h
    obtain ⟨ih1, ih2, ih3⟩ := ih aliases1 h1
    have hother : ∀ k, k ≠ Y0 → aliases1.find k = aliases.find k := by
      intro k hk
      rcases hcase with ⟨_, rfl⟩ | ⟨_, rfl⟩
      · rw [unordered_map.find_subscript, if_neg (fun e => hk e.symm)]
      · rfl
    refine ⟨fun k hk => (ih1 k hk).trans (hother k hk), ?_, ?_⟩
    · intro hnone
      rw [ih2 (fun c' hc' => hnone c' (List.mem_cons_of_mem _ hc'))]
      rcases hcase with ⟨hel, _⟩ | ⟨_, rfl⟩
      · exact absurd hel (hnone c (by simp))
      · rfl
    · intro hex
      by_cases hrest : ∃ c' ∈ rest, eligible textures ranges Y0 c'
      · obtain ⟨pre, c', post, hsplit, hel, hpost, hfind⟩ := ih3 hrest
        exact ⟨c :: pre, c', post, by rw [hsplit]; rfl, hel, hpost, hfind⟩
      · have hnone : ∀ c' ∈ rest, ¬ eligible textures ranges Y0 c' :=
          fun c' hc' hel => hrest ⟨c', hc', hel⟩
        rcases hcase with ⟨hel, rfl⟩ | ⟨hel, _⟩
        · refine ⟨[], c, rest, rfl, hel, hnone, ?_⟩
          rw [ih2 hnone, unordered_map.find_subscript]
          simp
        · obtain ⟨c', hc', hel'⟩ := hex
          rcases List.mem_cons.1 hc' with rfl | hc'
          · exact absurd hel' hel
          · exact absurd hel' (hnone c' hc')

theorem try_alias_nodup_keys (textures : unordered_map (TextureCreateInfo Format))
    (ranges : unordered_map Range) (Y0 : String) (t0 : TextureCreateInfo Format)
    (ht0 : textures.find Y0 = some t0) (cs : List String)
    (aliases aliases' : unordered_map String) (hm : (aliases.map (·.1)).Nodup)
    (h : try_alias textures ranges Y0 t0.format cs aliases = .ok aliases') :
    (aliases'.map (·.1)).Nodup := by
  induction cs generalizing aliases with
  | nil =>
    simp only [try_alias, Except.ok.injEq] at h
    subst h
    exact hm
  | cons c rest ih =>
    obtain ⟨aliases1, h1, hcase⟩ := try_alias_step textures ranges Y0 t0 ht0 c rest _ _ h
    refine ih aliases1 ?_ h1
    rcases hcase with ⟨_, rfl⟩ | ⟨_, rfl⟩
    · exact nodup_keys_subscript _ _ _ _ hm
    · exact hm

/-- Induction over the outer loop of `determine_aliasing_of_textures`. -/
theorem alias_loop_induction (textures : unordered_map (TextureCreateInfo Format))
    (ranges : unordered_map Range) (rio : List String)
    (Inv : Nat → unordered_map String → Prop)
    (hskip : ∀ i y a, rio[i]? = some y → (y = "Backbuffer" ∨ y = "backbuffer") →
      Inv i a → Inv (i + 1) a)
    (hstep : ∀ i y t0 a a1, rio[i]? = some y → ¬ (y = "Backbuffer" ∨ y = "backbuffer") →
      textures.find y = some t0 →
      try_alias textures ranges y t0.format (rio.take i) a = .ok a1 → Inv i a → Inv (i + 1) a1)
    (h0 : Inv 0 []) (aliases : unordered_map String)
    (h : determine_aliasing_of_textures textures ranges rio = .ok aliases) :
    Inv rio.length aliases := by
  have main : ∀ (rest : List String) (i : Nat) (a : unordered_map String),
      rio.drop i = rest → i ≤ rio.length → Inv i a →
      alias_loop textures ranges rio i rest a = .ok aliases → Inv rio.length aliases := by
    intro rest
    induction rest with
    | nil =>
      intro i a hdrop hile hinv hloop
      simp only [alias_loop, Except.ok.injEq] at hloop
      subst hloop
      have hlen := congrArg List.length hdrop
      simp only [List.length_drop, List.length_nil] at hlen
      have : i = rio.length := by omega
      rw [← this]
      exact hinv
    | cons y rest ih =>
      intro i a hdrop hile hinv hloop
      have hi : rio[i]? = some y := by
        have := congrArg (fun l => l[0]?) hdrop
        simpa [List.getElem?_drop] using this
      have hdrop' : rio.drop (i + 1) = rest := by
        rw [← List.drop_drop 1 i, hdrop]
        rfl
      have hile' : i + 1 ≤ rio.length := (List.getElem?_eq_some.1 hi).1
      unfold alias_loop at hloop
      by_cases hbb : y = "Backbuffer" ∨ y = "backbuffer"
      · rw [if_pos hbb] at hloop
        exact ih (i + 1) a hdrop' hile' (hskip i y a hi hbb hinv) hloop
      · rw [if_neg hbb] at hloop
        split at hloop
        next => cases hloop
        next t0 ht0 =>
          split at hloop
          next => cases hloop
          next a1 h1 =>
            exact ih (i + 1) a1 hdrop' hile' (hstep i y t0 a a1 hi hbb ht0 h1 hinv) hloop
  exact main rio 0 [] rfl (Nat.zero_le _) h0 h

theorem mem_take_index {l : List String} {i : Nat} {c : String} (h : c ∈ l.take i) :
    ∃ j, j < i ∧ l[j]? = some c := by
  obtain ⟨j, hj⟩ := List.mem_iff_getElem?.1 h
  rw [List.getElem?_take] at hj
  by_cases hlt : j < i
  · rw [if_pos hlt] at hj
    exact ⟨j, hlt, hj⟩
  · rw [if_neg hlt] at hj
    cases hj

theorem mem_take_of_index {l : List String} {i j : Nat} {c : String} (hj : j < i)
    (h : l[j]? = some c) : c ∈ l.take i :=
  List.mem_iff_getElem?.2 ⟨j, by rw [List.getElem?_take_of_lt hj]; exact h⟩

theorem take_split_index {l : List String} {i : Nat} {pre post : List String} {c : String}
    (h : l.take i = pre ++ c :: post) :
    pre.length < i ∧ l[pre.length]? = some c ∧
      ∀ k Z, pre.length < k → k < i → l[k]? = some Z → Z ∈ post := by
  have hlen : pre.length < i := by
    have h1 := congrArg List.length h
    simp only [List.length_take, List.length_append, List.length_cons] at h1
    omega
  refine ⟨hlen, ?_, ?_⟩
  · rw [← List.getElem?_take_of_lt hlen, h, List.getElem?_append_right (Nat.le_refl _)]
    simp
  · intro k Z hk hki hZ
    rw [← List.getElem?_take_of_lt hki, h, List.getElem?_append_right (Nat.le_of_lt hk)] at hZ
    obtain ⟨m, hm⟩ : ∃ m, k - pre.length = m + 1 := ⟨k - pre.length - 1, by omega⟩
    rw [hm, List.getElem?_cons_succ] at hZ
    exact List.getElem?_mem hZ

/-- The keys of a returned alias table are pairwise different. -/
theorem determine_aliasing_nodup_keys (textures : unordered_map (TextureCreateInfo Format))
    (ranges : unordered_map Range) (rio : List String) (aliases : unordered_map String)
    (h : determine_aliasing_of_textures textures ranges rio = .ok aliases) :
    (aliases.map (·.1)).Nodup := by
  have key := alias_loop_induction textures ranges rio
    (fun _ (a : unordered_map String) => (List.map Prod.fst a).Nodup)
    (fun _ _ _ _ _ hinv => hinv)
    (fun _ y t0 a a1 _ _ ht0 h1 hinv =>
      try_alias_nodup_keys textures ranges y t0 ht0 _ a a1 hinv h1)
    (by simp) aliases h
  exact key

/-- The target recorded for `Y` is the last eligible candidate before an occurrence of `Y`. -/
theorem determine_aliasing_find (textures : unordered_map (TextureCreateInfo Format))
    (ranges : unordered_map Range) (rio : List String) (aliases : unordered_map String)
    (h : determine_aliasing_of_textures textures ranges rio = .ok aliases) (Y X : String)
    (hYX : aliases.find Y = some X) :
    ∃ i j : Nat, j < i ∧ rio[i]? = some Y ∧ rio[j]? = some X ∧ eligible textures ranges Y X ∧
      ∀ (k : Nat) (Z : String), j < k → k < i → rio[k]? = some Z → ¬ eligible textures ranges Y Z := by
  have key := alias_loop_induction textures ranges rio
    (fun _ (a : unordered_map String) => ∀ Y X, a.find Y = some X →
      ∃ i j : Nat, j < i ∧ rio[i]? = some Y ∧ rio[j]? = some X ∧ eligible textures ranges Y X ∧
        ∀ (k : Nat) (Z : String), j < k → k < i → rio[k]? = some Z → ¬ eligible textures ranges Y Z)
    (fun _ _ _ _ _ hinv => hinv)
    (by
      intro i y t0 a a1 hi _ ht0 h1 hinv Y X hfind
      obtain ⟨hother, hnone, hsome⟩ := try_alias_find textures ranges y t0 ht0 _ a a1 h1
      by_cases hY : Y = y
      · subst hY
        by_cases hex : ∃ c ∈ rio.take i, eligible textures ranges Y c
        · obtain ⟨pre, c, post, hsplit, hel, hpost, hfind'⟩ := hsome hex
          rw [hfind'] at hfind
          cases hfind
          obtain ⟨hlt, hget, hbetween⟩ := take_split_index hsplit
          exact ⟨i, pre.length, hlt, hi, hget, hel,
            fun k Z hk hki hZ => hpost Z (hbetween k Z hk hki hZ)⟩
        · rw [hnone (fun c hc hel => hex ⟨c, hc, hel⟩)] at hfind
          exact hinv Y X hfind
      · rw [hother Y hY] at hfind
        exact hinv Y X hfind)
    (by intro Y X hfind; simp [unordered_map.find] at hfind) aliases h
  exact key Y X hYX

/-- A resource that is not a backbuffer spelling and has an eligible candidate before one of its
occurrences has an entry in the returned alias table. -/
theorem determine_aliasing_has_entry (textures : unordered_map (TextureCreateInfo Format))
    (ranges : unordered_map Range) (rio : List String) (aliases : unordered_map String)
    (h : determine_aliasing_of_textures textures ranges rio = .ok aliases) (Y X : String)
    (i j : Nat) (hji : j < i) (hi : rio[i]? = some Y) (hj : rio[j]? = some X)
    (hbb : ¬ (Y = "Backbuffer" ∨ Y = "backbuffer")) (hel : eligible textures ranges Y X) :
    ∃ X', aliases.find Y = some X' := by
  have key := alias_loop_induction textures ranges rio
    (fun n (a : unordered_map String) => ∀ (i : Nat) (Y : String), i < n → rio[i]? = some Y → ¬ (Y = "Backbuffer" ∨ Y = "backbuffer") →
      (∃ (j : Nat) (X : String), j < i ∧ rio[j]? = some X ∧ eligible textures ranges Y X) →
      ∃ X', a.find Y = some X')
    (by
      intro n y a hn hbby hinv i Y hin hiY hY hex
      rcases Nat.lt_succ_iff_lt_or_eq.1 hin with hlt | rfl
      · exact hinv i Y hlt hiY hY hex
      · rw [hn] at hiY
        cases hiY
        exact absurd hbby hY)
    (by
      intro n y t0 a a1 hn _ ht0 h1 hinv i Y hin hiY hY hex
      obtain ⟨hother, hnone, hsome⟩ := try_alias_find textures ranges y t0 ht0 _ a a1 h1
      have hkeep : (∃ X', a.find Y = some X') → ∃ X', a1.find Y = some X' := by
        intro hold
        by_cases hYy : Y = y
        · subst hYy
          by_cases hex' : ∃ c ∈ rio.take n, eligible textures ranges Y c
          · obtain ⟨_, c, _, _, _, _, hfind'⟩ := hsome hex'
            exact ⟨c, hfind'⟩
          · rw [hnone (fun c hc hel => hex' ⟨c, hc, hel⟩)]
            exact hold
        · rw [hother Y hYy]
          exact hold
      rcases Nat.lt_succ_iff_lt_or_eq.1 hin with hlt | rfl
      · exact hkeep (hinv i Y hlt hiY hY hex)
      · rw [hn] at hiY
        cases hiY
        obtain ⟨j, X, hj, hjX, hel⟩ := hex
        obtain ⟨_, c, _, _, _, _, hfind'⟩ := hsome ⟨X, mem_take_of_index hj hjX, hel⟩
        exact ⟨c, hfind'⟩)
    (by intro i Y hi; omega) aliases h
  exact key i Y (List.getElem?_eq_some.1 hi).1 hi hbb ⟨j, X, hji, hj, hel⟩

/-- C11 fails as stated: for "Y" both "X0" (index 0) and "X1" (index 1) are eligible, and the
returned table maps "Y" to "X1", the later of the two. -/
theorem determine_aliasing_first_match_counterexample :
    determine_aliasing_of_textures chain_textures chain_ranges ["X0", "X1", "Y"] =
        .ok [("X1", "X0"), ("Y", "X1")] ∧
      eligible chain_textures chain_ranges "Y" "X0" ∧
      eligible chain_textures chain_ranges "Y" "X1" :=
  ⟨by decide,
    ⟨⟨3, 4, UINT_MAX, 0⟩, ⟨0, 0, UINT_MAX, 0⟩, ⟨0⟩, ⟨0⟩, by decide, by decide, rfl, rfl,
      by decide, rfl⟩,
    ⟨⟨3, 4, UINT_MAX, 0⟩, ⟨1, 2, UINT_MAX, 0⟩, ⟨0⟩, ⟨0⟩, by decide, by decide, rfl, rfl,
      by decide, rfl⟩⟩

/-- C11 as amended, last eligible match wins: for every entry `Y -> X` of a returned alias table,
`X` is an eligible candidate (disjoint usage range, equal format) at a discovery index `j` below
an index `i` of `Y`, and no candidate at an index between `j` and `i` is eligible: `X` is the
eligible candidate with the largest index below `i`. -/
theorem determine_aliasing_last_eligible (textures : unordered_map (TextureCreateInfo Format))
    (resource_used_range : unordered_map Range) (resources_in_order : List String)
    (aliases : unordered_map String)
    (h : determine_aliasing_of_textures textures resource_used_range resources_in_order =
      .ok aliases)
    (Y X : String) (hYX : (Y, X) ∈ aliases) :
    ∃ i j : Nat, j < i ∧ resources_in_order[i]? = some Y ∧ resources_in_order[j]? = some X ∧
      eligible textures resource_used_range Y X ∧
      ∀ (k : Nat) (Z : String), j < k → k < i → resources_in_order[k]? = some Z →
        ¬ eligible textures resource_used_range Y Z :=
  determine_aliasing_find textures resource_used_range resources_in_order aliases h Y X
    (find_of_mem_of_nodup_keys
      (determine_aliasing_nodup_keys textures resource_used_range resources_in_order aliases h)
      hYX)

/-- Witness of the amended C11: the entry `Y -> X1` of the chain of three textures. -/
theorem determine_aliasing_last_eligible_witness :
    determine_aliasing_of_textures chain_textures chain_ranges ["X0", "X1", "Y"] =
        .ok [("X1", "X0"), ("Y", "X1")] ∧
      ("Y", "X1") ∈ [("X1", "X0"), ("Y", "X1")] ∧
      ∃ i j : Nat, j < i ∧ ["X0", "X1", "Y"][i]? = some "Y" ∧ ["X0", "X1", "Y"][j]? = some "X1" ∧
        eligible chain_textures chain_ranges "Y" "X1" ∧
        ∀ (k : Nat) (Z : String), j < k → k < i → ["X0", "X1", "Y"][k]? = some Z →
          ¬ eligible chain_textures chain_ranges "Y" Z :=
  ⟨by decide, by decide,
    determine_aliasing_last_eligible chain_textures chain_ranges ["X0", "X1", "Y"]
      [("X1", "X0"), ("Y", "X1")] (by decide) "Y" "X1" (by decide)⟩

/-- C12, alias direction: for a duplicate-free discovery list, every entry `Y -> X` of a returned
alias table has `X` at a strictly smaller discovery index than `Y`, no resource has two targets,
and the alias relation has no cycle. -/
theorem determine_aliasing_forest (textures : unordered_map (TextureCreateInfo Format))
    (resource_used_range : unordered_map Range) (resources_in_order : List String)
    (aliases : unordered_map String)
    (h : determine_aliasing_of_textures textures resource_used_range resources_in_order =
      .ok aliases)
    (hnd : resources_in_order.Nodup) :
    (∀ Y X, (Y, X) ∈ aliases → Y ∈ resources_in_order ∧ X ∈ resources_in_order ∧
        resources_in_order.indexOf X < resources_in_order.indexOf Y) ∧
      (∀ Y X X', (Y, X) ∈ aliases → (Y, X') ∈ aliases → X = X') ∧
      ∀ Y, ¬ Relation.TransGen (fun a b => (a, b) ∈ aliases) Y Y := by
  have hidx : ∀ (n : Nat) (Z : String), resources_in_order[n]? = some Z →
      resources_in_order.indexOf Z = n := by
    intro n Z hZ
    obtain ⟨hn, hnZ⟩ := List.getElem?_eq_some.1 hZ
    rw [← hnZ]
    exact List.indexOf_getElem hnd n hn
  have hdir : ∀ Y X, (Y, X) ∈ aliases → Y ∈ resources_in_order ∧ X ∈ resources_in_order ∧
      resources_in_order.indexOf X < resources_in_order.indexOf Y := by
    intro Y X hYX
    obtain ⟨_, ⟨i, j, hji, hi, hj⟩, _⟩ :=
      determine_aliasing_entries textures resource_used_range resources_in_order aliases h Y X hYX
    rw [hidx i Y hi, hidx j X hj]
    exact ⟨List.getElem?_mem hi, List.getElem?_mem hj, hji⟩
  have hkeys :=
    determine_aliasing_nodup_keys textures resource_used_range resources_in_order aliases h
  refine ⟨hdir, ?_, ?_⟩
  · intro Y X X' hX hX'
    have h1 := find_of_mem_of_nodup_keys hkeys hX
    have h2 := find_of_mem_of_nodup_keys hkeys hX'
    rw [h1] at h2
    exact Option.some.inj h2
  · intro Y hcyc
    have hlt : ∀ A B, Relation.TransGen (fun a b => (a, b) ∈ aliases) A B →
        resources_in_order.indexOf B < resources_in_order.indexOf A := by
      intro A B hAB
      induction hAB with
      | single hs => exact (hdir _ _ hs).2.2
      | tail _ hs ih => exact lt_trans (hdir _ _ hs).2.2 ih
    exact lt_irrefl _ (hlt Y Y hcyc)

/-- Witness of C12 on the chain of three textures. -/
theorem determine_aliasing_forest_witness :
    determine_aliasing_of_textures chain_textures chain_ranges ["X0", "X1", "Y"] =
        .ok [("X1", "X0"), ("Y", "X1")] ∧
      ["X0", "X1", "Y"].Nodup ∧
      ((∀ Y X, (Y, X) ∈ [("X1", "X0"), ("Y", "X1")] →
          Y ∈ ["X0", "X1", "Y"] ∧ X ∈ ["X0", "X1", "Y"] ∧
            ["X0", "X1", "Y"].indexOf X < ["X0", "X1", "Y"].indexOf Y) ∧
        (∀ Y X X', (Y, X) ∈ [("X1", "X0"), ("Y", "X1")] →
          (Y, X') ∈ [("X1", "X0"), ("Y", "X1")] → X = X') ∧
        ∀ Y, ¬ Relation.TransGen (fun a b => (a, b) ∈ [("X1", "X0"), ("Y", "X1")]) Y Y) :=
  ⟨by decide, by decide,
    determine_aliasing_forest chain_textures chain_ranges ["X0", "X1", "Y"]
      [("X1", "X0"), ("Y", "X1")] (by decide) (by decide)⟩

/-- C17 fails as stated: the entry spelled "BACKBUFFER" equals "backbuffer" when letter case is
ignored, and the returned table has it as a key. -/
theorem determine_aliasing_case_counterexample :
    determine_aliasing_of_textures uppercase_textures uppercase_ranges ["X", "BACKBUFFER"] =
        .ok [("BACKBUFFER", "X")] ∧
      "BACKBUFFER".data.map Char.toLower = "backbuffer".data := by
  decide

/-- C17 as amended: an entry of the discovery list named exactly "Backbuffer" or "backbuffer" is
skipped and is never a key of the returned alias table. -/
theorem determine_aliasing_skips_exact_spellings
    (textures : unordered_map (TextureCreateInfo Format))
    (resource_used_range : unordered_map Range) (resources_in_order : List String)
    (aliases : unordered_map String)
    (h : determine_aliasing_of_textures textures resource_used_range resources_in_order =
      .ok aliases)
    (Y : String) (hY : Y = "Backbuffer" ∨ Y = "backbuffer") :
    aliases.find Y = none ∧ ∀ X, (Y, X) ∉ aliases := by
  have hnot : ∀ X, (Y, X) ∉ aliases := by
    intro X hmem
    have hok := (determine_aliasing_entries textures resource_used_range resources_in_order
      aliases h Y X hmem).1
    rcases hY with hY | hY
    · exact hok.1 hY
    · exact hok.2 hY
  refine ⟨?_, hnot⟩
  cases hf : aliases.find Y with
  | none => rfl
  | some v => exact absurd (unordered_map.mem_of_find hf) (hnot v)

/-- Witness of the amended C17: "Backbuffer" stands behind the eligible candidate "T" and gets no
entry. -/
theorem determine_aliasing_skips_exact_spellings_witness :
    determine_aliasing_of_textures backbuffer_textures backbuffer_ranges ["T", "Backbuffer"] =
        .ok [] ∧
      ("Backbuffer" = "Backbuffer" ∨ "Backbuffer" = "backbuffer") ∧
      (unordered_map.find ([] : unordered_map String) "Backbuffer" = none ∧
        ∀ X, ("Backbuffer", X) ∉ ([] : unordered_map String)) :=
  ⟨by decide, by decide,
    determine_aliasing_skips_exact_spellings backbuffer_textures backbuffer_ranges
      ["T", "Backbuffer"] [] (by decide) "Backbuffer" (by decide)⟩

/-- C20, keys of the alias table: whenever `determine_aliasing_of_textures` returns, a resource `Y`
is a key of the result iff `Y` is not named "Backbuffer" or "backbuffer" and some resource `X` at
a smaller discovery index is eligible for it (disjoint range, same format); a resource without
such a candidate has no entry. -/
theorem determine_aliasing_keys (textures : unordered_map (TextureCreateInfo Format))
    (resource_used_range : unordered_map Range) (resources_in_order : List String)
    (aliases : unordered_map String)
    (h : determine_aliasing_of_textures textures resource_used_range resources_in_order =
      .ok aliases)
    (Y : String) :
    (∃ X, (Y, X) ∈ aliases) ↔
      (Y ≠ "Backbuffer" ∧ Y ≠ "backbuffer" ∧
        ∃ (i j : Nat) (X : String), j < i ∧ resources_in_order[i]? = some Y ∧
          resources_in_order[j]? = some X ∧ eligible textures resource_used_range Y X) := by
  constructor
  · rintro ⟨X, hYX⟩
    obtain ⟨hbb, ⟨i, j, hji, hi, hj⟩, rY, rX, tY, tX, hrY, hrX, hdis, htY, htX, hfmt⟩ :=
      determine_aliasing_entries textures resource_used_range resources_in_order aliases h Y X hYX
    exact ⟨hbb.1, hbb.2, i, j, X, hji, hi, hj, rY, rX, tY, tX, hrY, hrX, htY, htX, hdis, hfmt⟩
  · rintro ⟨hb1, hb2, i, j, X, hji, hi, hj, hel⟩
    have hbb : ¬ (Y = "Backbuffer" ∨ Y = "backbuffer") := by
      rintro (e | e)
      · exact hb1 e
      · exact hb2 e
    obtain ⟨X', hX'⟩ := determine_aliasing_has_entry textures resource_used_range
      resources_in_order aliases h Y X i j hji hi hj hbb hel
    exact ⟨X', unordered_map.mem_of_find hX'⟩

/-- Witness of C20 on the chain of three textures, for the resource "Y". -/
theorem determine_aliasing_keys_witness :
    determine_aliasing_of_textures chain_textures chain_ranges ["X0", "X1", "Y"] =
        .ok [("X1", "X0"), ("Y", "X1")] ∧
      ((∃ X, ("Y", X) ∈ [("X1", "X0"), ("Y", "X1")]) ↔
        ("Y" ≠ "Backbuffer" ∧ "Y" ≠ "backbuffer" ∧
          ∃ (i j : Nat) (X : String), j < i ∧ ["X0", "X1", "Y"][i]? = some "Y" ∧
            ["X0", "X1", "Y"][j]? = some X ∧ eligible chain_textures chain_ranges "Y" X)) :=
  ⟨by decide,
    determine_aliasing_keys chain_textures chain_ranges ["X0", "X1", "Y"]
      [("X1", "X0"), ("Y", "X1")] (by decide) "Y"⟩

end aliasing_entries

/-! ## The cycle guard on acyclic pass lists -/

theorem no_circular_logged_refl (s : SchedState) : no_circular_logged s s :=
  ⟨[], by simp, by simp⟩

theorem no_circular_logged_trans {s1 s2 s3 : SchedState} (h1 : no_circular_logged s1 s2)
    (h2 : no_circular_logged s2 s3) : no_circular_logged s1 s3 := by
  obtain ⟨lg1, e1, n1⟩ := h1
  obtain ⟨lg2, e2, n2⟩ := h2
  refine ⟨lg1 ++ lg2, by rw [e2, e1, List.append_assoc], ?_⟩
  simp only [List.mem_append, not_or]
  exact ⟨n1, n2⟩

theorem visit_all_no_circular {visit : String → SchedState → Except Abort SchedState}
    (cs : List String)
    (hv : ∀ c ∈ cs, ∀ s s', visit c s = .ok s' → no_circular_logged s s')
    (s s' : SchedState) (h : visit_all visit cs s = .ok s') : no_circular_logged s s' := by
  induction cs generalizing s with
  | nil =>
    simp only [visit_all, Except.ok.injEq] at h
    subst h
    exact no_circular_logged_refl s
  | cons c rest ih =>
    unfold visit_all at h
    split at h
    next => cases h
    next s1 h1 =>
      exact no_circular_logged_trans (hv c (by simp) s s1 h1)
        (ih (fun c' hc' => hv c' (List.mem_cons_of_mem _ hc')) s1 h)

theorem visit_dependencies_no_circular {visit : String → SchedState → Except Abort SchedState}
    (ds : List String)
    (hv : ∀ c ∈ ds, ∀ s s', visit c s = .ok s' → no_circular_logged s s')
    (s s' : SchedState) (h : visit_dependencies visit ds s = .ok s') :
    no_circular_logged s s' := by
  induction ds generalizing s with
  | nil =>
    simp only [visit_dependencies, Except.ok.injEq] at h
    subst h
    exact no_circular_logged_refl s
  | cons d rest ih =>
    unfold visit_dependencies at h
    split at h
    next => cases h
    next s1 h1 =>
      have hpush : no_circular_logged s (s.push_back d) := ⟨[], by simp [SchedState.push_back],
        by simp⟩
      exact no_circular_logged_trans hpush (no_circular_logged_trans
        (hv d (by simp) _ s1 h1) (ih (fun c' hc' => hv c' (List.mem_cons_of_mem _ hc')) s1 h))

theorem visit_inputs_no_circular {visit : String → SchedState → Except Abort SchedState}
    (rtw : unordered_map (List String)) (not_written : String → LogError)
    (hnw : ∀ r, not_written r ≠ .circular_render_graph) (rs : List String)
    (hv : ∀ c ∈ rs.flatMap (fun r => (rtw.find r).getD []), ∀ s s',
      visit c s = .ok s' → no_circular_logged s s')
    (s s' : SchedState) (h : visit_inputs visit rtw not_written rs s = .ok s') :
    no_circular_logged s s' := by
  induction rs generalizing s with
  | nil =>
    simp only [visit_inputs, Except.ok.injEq] at h
    subst h
    exact no_circular_logged_refl s
  | cons r rest ih =>
    have hrest : ∀ c ∈ rest.flatMap (fun r => (rtw.find r).getD []), ∀ s s',
        visit c s = .ok s' → no_circular_logged s s' :=
      fun c hc => hv c (by simp only [List.flatMap_cons, List.mem_append]; exact Or.inr hc)
    cases hr : rtw.find r with
    | none =>
      simp only [visit_inputs, hr] at h
      have hlog : no_circular_logged s (s.log (not_written r)) :=
        ⟨[not_written r], by simp [SchedState.log], by
          simp only [List.mem_singleton]
          exact fun e => hnw r e.symm⟩
      exact no_circular_logged_trans hlog (ih hrest _ h)
    | some ws =>
      simp only [visit_inputs, hr] at h
      split at h
      next => cases h
      next s1 h1 =>
        have hws : ∀ c ∈ ws, ∀ s s', visit c s = .ok s' → no_circular_logged s s' :=
          fun c hc => hv c (by simp only [List.flatMap_cons, List.mem_append, hr,
            Option.getD_some]; exact Or.inl hc)
        have hins : no_circular_logged s (s.insert_end ws) :=
          ⟨[], by simp [SchedState.insert_end], by simp⟩
        exact no_circular_logged_trans hins (no_circular_logged_trans
          (visit_all_no_circular ws hws _ s1 h1) (ih hrest s1 h))

theorem mem_keys_of_find {V : Type} {m : unordered_map V} {key : String} {v : V}
    (h : unordered_map.find m key = some v) : key ∈ m.map Prod.fst :=
  List.mem_map.2 ⟨(key, v), unordered_map.mem_of_find h, rfl⟩

/-- A call whose chain of callers `anc` has no repetition and is at least as long as `depth - 1`
never takes the branch of the cycle guard, nor do the calls it makes, when the graph is acyclic. -/
theorem add_dependent_passes_no_circular {pm : unordered_map RenderPassCreateInfo}
    {rtw : unordered_map (List String)}
    (hac : ∀ x, ¬ Relation.TransGen (edge pm rtw) x x) (fuel : Nat) (n : String) (depth : Nat)
    (s s' : SchedState) (anc : List String) (hnd : anc.Nodup)
    (hkeys : ∀ a ∈ anc, a ∈ pm.map Prod.fst)
    (hanc : ∀ a ∈ anc, Relation.TransGen (edge pm rtw) a n) (hdepth : depth ≤ anc.length + 1)
    (h : add_dependent_passes pm rtw fuel n depth s = .ok s') : no_circular_logged s s' := by
  induction fuel generalizing n depth s s' anc with
  | zero => simp [add_dependent_passes] at h
  | succ fuel ih =>
    unfold add_dependent_passes at h
    simp only [] at h
    cases hn : pm.find n with
    | none => simp [hn] at h
    | some pass =>
      simp only [hn] at h
      have hnanc : n ∉ anc := fun hmem => hac n (hanc n hmem)
      have hnd' : (anc ++ [n]).Nodup :=
        List.Nodup.append hnd (List.nodup_singleton n) (by simpa using hnanc)
      have hkeys' : ∀ a ∈ anc ++ [n], a ∈ pm.map Prod.fst := by
        intro a ha
        rcases List.mem_append.1 ha with ha | ha
        · exact hkeys a ha
        · rw [List.mem_singleton.1 ha]
          exact mem_keys_of_find hn
      have hlen : (anc ++ [n]).length ≤ pm.size := by
        have := (List.subperm_of_subset hnd' hkeys').length_le
        simpa [unordered_map.size] using this
      have hguard : ¬ depth > pm.size := by
        simp only [List.length_append, List.length_singleton] at hlen
        omega
      rw [if_neg hguard] at h
      have hv : ∀ c ∈ children rtw pass, ∀ s s',
          add_dependent_passes pm rtw fuel c ((depth + 1) % 4294967296) s = .ok s' →
            no_circular_logged s s' := by
        intro c hc s1 s2 hcall
        refine ih c _ s1 s2 (anc ++ [n]) hnd' hkeys' ?_ ?_ hcall
        · intro a ha
          rcases List.mem_append.1 ha with ha | ha
          · exact Relation.TransGen.tail (hanc a ha) ⟨pass, hn, hc⟩
          · rw [List.mem_singleton.1 ha]
            exact Relation.TransGen.single ⟨pass, hn, hc⟩
        · have := Nat.mod_le (depth + 1) 4294967296
          simp only [List.length_append, List.length_singleton]
          omega
      simp only [children, List.mem_append] at hv
      split at h
      next => cases h
      next s1 h1 =>
        split at h
        next => cases h
        next s2 h2 =>
          exact no_circular_logged_trans
            (visit_dependencies_no_circular _ (fun c hc => hv c (Or.inl (Or.inl hc))) _ _ h1)
            (no_circular_logged_trans
              (visit_inputs_no_circular rtw _ (fun r => by simp) _
                (fun c hc => hv c (Or.inl (Or.inr hc))) _ _ h2)
              (visit_inputs_no_circular rtw _ (fun r => by simp) _
                (fun c hc => hv c (Or.inr hc)) _ _ h))

/-- On an acyclic pass list whose explicit dependencies exist, `order_passes` returns for a large
enough recursion bound. -/
theorem order_passes_returns (passes : List RenderPassCreateInfo)
    (hd : dependencies_exist passes) (ha : acyclic passes) :
    ∃ fuel r, order_passes fuel passes = .ok r := by
  by_cases hw : writers_of passes "Backbuffer" = []
  · refine ⟨0, (.error ⟨"Failed to order passes because no backbuffer was found"⟩,
      [.no_backbuffer]), ?_⟩
    unfold order_passes
    simp only [find_resource_to_write_pass, pushed, hw, if_true]
  · have hnames : ∀ c ∈ writers_of passes "Backbuffer", c ∈ passes.map (·.name) := by
      intro c hc
      obtain ⟨W, hW, rfl, _⟩ := (mem_writers_of passes "Backbuffer" c).1 hc
      exact List.mem_map_of_mem _ hW
    obtain ⟨F, hF⟩ := uniform_fuel (writers_of passes "Backbuffer")
      (fun c hc => add_dependent_passes_terminates hd ha c (hnames c hc))
    obtain ⟨st, hst⟩ := @visit_all_total
      (fun pass_name s => add_dependent_passes (build_render_passes_to_order passes)
        (build_resource_to_write_pass passes) F pass_name 1 s)
      (writers_of passes "Backbuffer") (fun c hc s => hF c hc F (Nat.le_refl _) 1 s)
      ⟨writers_of passes "Backbuffer", []⟩
    obtain ⟨e, lg, hst', hseg⟩ := visit_all_spec
      (fun c s s' hc => add_dependent_passes_spec F c 1 s s' hc) _ _ _ hst
    have hcov := covers_of_segment hseg
    have hfound : ∀ n ∈ filter_passes st.ordered_passes.reverse,
        ∃ P, (build_render_passes_to_order passes).find n = some P := by
      intro n hn
      rw [filter_passes_eq, mem_first_occurrences, hst'] at hn
      simp only [List.not_mem_nil, false_or, List.mem_reverse] at hn
      obtain ⟨c, hc, hcn⟩ := hcov.sound n hn
      apply find_index_of_mem
      rcases Relation.ReflTransGen.cases_tail hcn with rfl | ⟨y, _, hy⟩
      · exact hnames _ hc
      · exact requires_target_mem hd (requires_of_edge hy)
    obtain ⟨ordered, hord⟩ := passes_in_submission_order_total _ _ hfound
    refine ⟨F, (.value ordered, st.errors), ?_⟩
    unfold order_passes
    simp only [find_resource_to_write_pass, pushed, if_neg hw, Option.getD_none,
      List.nil_append, hst, hord]

/-- C18, depth bound on acyclic input: on a pass list without dependency cycle whose explicit
dependencies exist, `order_passes` returns (the recursion ends), and in no returning run a call of
`add_dependent_passes` has a depth above the number of passes: the message of the
'circular render graph' branch is not in the log. -/
theorem order_passes_depth_bound (passes : List RenderPassCreateInfo)
    (hd : dependencies_exist passes) (ha : acyclic passes) :
    (∃ fuel r, order_passes fuel passes = .ok r) ∧
      ∀ fuel res log, order_passes fuel passes = .ok (res, log) →
        LogError.circular_render_graph ∉ log := by
  refine ⟨order_passes_returns passes hd ha, ?_⟩
  intro fuel res log h
  have hac : ∀ x, ¬ Relation.TransGen (edge (build_render_passes_to_order passes)
      (build_resource_to_write_pass passes)) x x :=
    fun x hx => ha x (hx.mono fun _ _ => requires_of_edge)
  unfold order_passes at h
  simp only [find_resource_to_write_pass] at h
  by_cases hw : writers_of passes "Backbuffer" = []
  · simp only [hw, pushed, if_true, Except.ok.injEq, Prod.mk.injEq] at h
    rw [← h.2]
    simp
  · simp only [pushed, if_neg hw, Option.getD_none, List.nil_append] at h
    split at h
    next => cases h
    next st hst =>
      have hnc := visit_all_no_circular (writers_of passes "Backbuffer")
        (fun c _ s s' hcall => add_dependent_passes_no_circular hac fuel c 1 s s' []
          List.nodup_nil (by simp) (by simp) (by simp) hcall) _ _ hst
      obtain ⟨lg, hlg, hnot⟩ := hnc
      split at h
      next => cases h
      next ordered hord =>
        simp only [Except.ok.injEq, Prod.mk.injEq] at h
        rw [← h.2, hlg]
        simpa using hnot

/-- Witness of C18 on the scenario of §8. -/
theorem order_passes_depth_bound_witness :
    dependencies_exist [pass_B, pass_A] ∧ acyclic [pass_B, pass_A] ∧
      ((∃ fuel r, order_passes fuel [pass_B, pass_A] = .ok r) ∧
        ∀ fuel res log, order_passes fuel [pass_B, pass_A] = .ok (res, log) →
          LogError.circular_render_graph ∉ log) :=
  ⟨by decide, acyclic_scenario,
    order_passes_depth_bound [pass_B, pass_A] (by decide) acyclic_scenario⟩

/-! ## The usage tracker, texture by texture -/

theorem apply_events_append (o : Option Range) (es es' : List Nat) :
    apply_events o (es ++ es') = apply_events (apply_events o es) es' := by
  simp [apply_events, List.foldl_append]

theorem find_record_use_fold (pass_idx : Nat) (names : List String) (st : UsageState)
    (T : String) :
    (names.foldl (record_use pass_idx) st).resource_used_range.find T =
      apply_events (st.resource_used_range.find T)
        ((names.filter fun name => name = T).map fun _ => pass_idx) := by
  induction names generalizing st with
  | nil => simp [apply_events]
  | cons name rest ih =>
    rw [List.foldl_cons, ih]
    simp only [record_use, unordered_map.find_subscript]
    by_cases hn : name = T
    · subst hn
      simp [List.filter_cons, apply_events]
    · simp [List.filter_cons, hn]

/-- The range entry of a texture after the loop is the entry before it, touched at the events of
the texture. -/
theorem find_usage_loop (passes : List RenderPassCreateInfo) (pass_idx : Nat) (st : UsageState)
    (T : String) :
    (usage_loop passes pass_idx st).resource_used_range.find T =
      apply_events (st.resource_used_range.find T) (events_from passes pass_idx T) := by
  induction passes generalizing pass_idx st with
  | nil => simp [usage_loop, events_from, apply_events]
  | cons pass rest ih =>
    simp only [usage_loop, events_from]
    rw [ih, find_record_use_fold, find_record_use_fold]
    simp only [touched, List.filter_append, List.map_append, apply_events_append]

/-- Without wrap of the pass counter, the events of a texture are the indices of the passes that
access it, in increasing order. -/
theorem events_from_spec (passes : List RenderPassCreateInfo) (pass_idx : Nat) (T : String)
    (hlen : pass_idx + passes.length ≤ 4294967296) :
    (∀ e ∈ events_from passes pass_idx T, pass_idx ≤ e ∧ e < 4294967296) ∧
      (events_from passes pass_idx T).Pairwise (· ≤ ·) ∧
      ∀ (k : Nat) (P : RenderPassCreateInfo), passes[k]? = some P → accesses P T →
        pass_idx + k ∈ events_from passes pass_idx T := by
  induction passes generalizing pass_idx with
  | nil => simp [events_from]
  | cons pass rest ih =>
    simp only [List.length_cons] at hlen
    have hmod : (pass_idx + 1) % 4294967296 = pass_idx + 1 ∨ rest = [] := by
      by_cases hr : rest = []
      · exact Or.inr hr
      · left
        have : 0 < rest.length := List.length_pos.2 hr
        exact Nat.mod_eq_of_lt (by omega)
    rcases hmod with hmod | hr
    · obtain ⟨ih1, ih2, ih3⟩ := ih (pass_idx + 1) (by omega)
      simp only [events_from, hmod]
      refine ⟨?_, ?_, ?_⟩
      · intro e he
        rcases List.mem_append.1 he with he | he
        · obtain ⟨_, _, rfl⟩ := List.mem_map.1 he
          exact ⟨Nat.le_refl _, by omega⟩
        · have := ih1 e he
          exact ⟨by omega, this.2⟩
      · rw [List.pairwise_append]
        refine ⟨?_, ih2, ?_⟩
        · rw [List.pairwise_map]
          exact List.pairwise_of_forall fun _ _ => Nat.le_refl _
        · intro a ha b hb
          obtain ⟨_, _, rfl⟩ := List.mem_map.1 ha
          have := ih1 b hb
          omega
      · intro k P hk hacc
        cases k with
        | zero =>
          simp only [List.getElem?_cons_zero, Option.some.injEq] at hk
          subst hk
          apply List.mem_append_left
          exact List.mem_map.2 ⟨T, List.mem_filter.2 ⟨hacc, by simp⟩, rfl⟩
        | succ k =>
          simp only [List.getElem?_cons_succ] at hk
          have := ih3 k P hk hacc
          apply List.mem_append_right
          rw [show pass_idx + (k + 1) = pass_idx + 1 + k by omega]
          exact this
    · subst hr
      simp only [events_from, List.append_nil]
      refine ⟨?_, ?_, ?_⟩
      · intro e he
        obtain ⟨_, _, rfl⟩ := List.mem_map.1 he
        exact ⟨Nat.le_refl _, by simp only [List.length_nil] at hlen; omega⟩
      · rw [List.pairwise_map]
        exact List.pairwise_of_forall fun _ _ => Nat.le_refl _
      · intro k P hk hacc
        cases k with
        | zero =>
          simp only [List.getElem?_cons_zero, Option.some.injEq] at hk
          subst hk
          exact List.mem_map.2 ⟨T, List.mem_filter.2 ⟨hacc, by simp⟩, rfl⟩
        | succ k => simp at hk

/-- The range of a texture touched at the increasing pass indices `es`: the read fields are fresh,
`first_write_pass` is the smallest index, and `last_write_pass` is the largest index unless every
touch happened at the first index, in which case it may still be 0. -/
theorem apply_events_range (es : List Nat) :
    es ≠ [] → es.Pairwise (· ≤ ·) → (∀ e ∈ es, e < 4294967296) →
    ∃ r, apply_events none es = some r ∧ r.first_read_pass = UINT_MAX ∧ r.last_read_pass = 0 ∧
      r.first_write_pass ∈ es ∧ (∀ e ∈ es, r.first_write_pass ≤ e) ∧
      ((r.last_write_pass ∈ es ∧ ∀ e ∈ es, e ≤ r.last_write_pass) ∨
        (r.last_write_pass = 0 ∧ ∀ e ∈ es, e = r.first_write_pass)) := by
  induction es using List.reverseRecOn with
  | nil => intro h; exact absurd rfl h
  | append_singleton l i ih =>
    intro _ hsorted hlt
    have hi : i < 4294967296 := hlt i (by simp)
    rw [apply_events_append]
    by_cases hl : l = []
    · subst hl
      simp only [apply_events, List.foldl_nil, List.foldl_cons, Option.getD_none, List.nil_append,
        List.mem_singleton, forall_eq]
      by_cases hmax : i < UINT_MAX
      · refine ⟨⟨i, 0, UINT_MAX, 0⟩, ?_, rfl, rfl, rfl, Nat.le_refl _, Or.inr ⟨rfl, rfl⟩⟩
        simp [touch, Range.fresh, hmax]
      · have hieq : i = UINT_MAX := by
          simp only [UINT_MAX] at hmax ⊢
          omega
        subst hieq
        refine ⟨⟨UINT_MAX, UINT_MAX, UINT_MAX, 0⟩, ?_, rfl, rfl, rfl, Nat.le_refl _,
          Or.inl ⟨rfl, Nat.le_refl _⟩⟩
        simp [touch, Range.fresh, UINT_MAX]
    · have hsl : l.Pairwise (· ≤ ·) := (List.pairwise_append.1 hsorted).1
      have hle : ∀ e ∈ l, e ≤ i := fun e he =>
        (List.pairwise_append.1 hsorted).2.2 e he i (by simp)
      obtain ⟨r, hr, hfr, hlr, hfmem, hfmin, hlast⟩ :=
        ih hl hsl (fun e he => hlt e (List.mem_append_left _ he))
      rw [hr]
      have hfi : r.first_write_pass ≤ i := hle _ hfmem
      have hnot : ¬ i < r.first_write_pass := by omega
      simp only [apply_events, List.foldl_cons, List.foldl_nil, Option.getD_some, touch,
        if_neg hnot]
      by_cases hgt : i > r.last_write_pass
      · rw [if_pos hgt]
        refine ⟨_, rfl, hfr, hlr, List.mem_append_left _ hfmem, ?_, Or.inl ⟨by simp, ?_⟩⟩
        · intro e he
          rcases List.mem_append.1 he with he | he
          · exact hfmin e he
          · rw [List.mem_singleton.1 he]; exact hfi
        · intro e he
          rcases List.mem_append.1 he with he | he
          · exact hle e he
          · rw [List.mem_singleton.1 he]
      · rw [if_neg hgt]
        refine ⟨r, rfl, hfr, hlr, List.mem_append_left _ hfmem, ?_, ?_⟩
        · intro e he
          rcases List.mem_append.1 he with he | he
          · exact hfmin e he
          · rw [List.mem_singleton.1 he]; exact hfi
        · rcases hlast with ⟨hlmem, hlmax⟩ | ⟨hl0, hall⟩
          · refine Or.inl ⟨List.mem_append_left _ hlmem, ?_⟩
            intro e he
            rcases List.mem_append.1 he with he | he
            · exact hlmax e he
            · rw [List.mem_singleton.1 he]; omega
          · refine Or.inr ⟨hl0, ?_⟩
            intro e he
            rcases List.mem_append.1 he with he | he
            · exact hall e he
            · rw [List.mem_singleton.1 he]; omega

/-- After `determine_usage_order_of_textures` on at most 2^32 passes from empty tables, a recorded
range with `first_write_pass <= last_write_pass` has fresh read fields and covers every pass index
at which the texture is accessed. -/
theorem usage_range_covers (passes : List RenderPassCreateInfo)
    (hlen : passes.length ≤ 4294967296) (T : String) (r : Range)
    (hr : (determine_usage_order_of_textures passes [] []).resource_used_range.find T = some r) :
    r.first_read_pass = UINT_MAX ∧ r.last_read_pass = 0 ∧
      (r.first_write_pass ≤ r.last_write_pass →
        ∀ (k : Nat) (P : RenderPassCreateInfo), passes[k]? = some P → accesses P T →
          r.first_write_pass ≤ k ∧ k ≤ r.last_write_pass) := by
  unfold determine_usage_order_of_textures at hr
  rw [find_usage_loop] at hr
  simp only [unordered_map.find] at hr
  obtain ⟨hbound, hsorted, hmem⟩ := events_from_spec passes 0 T (by omega)
  have hne : events_from passes 0 T ≠ [] := by
    intro hnil
    rw [hnil] at hr
    simp [apply_events] at hr
  obtain ⟨r', hr', hfr, hlr, hfmem, hfmin, hlast⟩ :=
    apply_events_range (events_from passes 0 T) hne hsorted (fun e he => (hbound e he).2)
  rw [hr] at hr'
  cases hr'
  refine ⟨hfr, hlr, ?_⟩
  intro hused k P hk hacc
  have hkmem : k ∈ events_from passes 0 T := by
    have := hmem k P hk hacc
    simpa using this
  refine ⟨hfmin k hkmem, ?_⟩
  rcases hlast with ⟨_, hlmax⟩ | ⟨hl0, hall⟩
  · exact hlmax k hkmem
  · have := hall k hkmem
    omega

theorem used_of_is_disjoint_with {a b : Range} (h : a.is_disjoint_with b = true) :
    a.is_used = true ∧ b.is_used = true := by
  unfold Range.is_disjoint_with at h
  cases ha : a.is_used <;> cases hb : b.is_used <;> simp [ha, hb] at h ⊢

theorem used_span_of_fresh_reads (r : Range) (hfr : r.first_read_pass = UINT_MAX)
    (hlr : r.last_read_pass = 0) (hu : r.is_used = true) :
    r.first_write_pass ≤ r.last_write_pass ∧ r.last_used_pass = r.last_write_pass ∧
      r.first_used_pass ≤ r.first_write_pass := by
  have hreader : r.has_reader = false := by
    simp [Range.has_reader, hfr, hlr, UINT_MAX]
  have hwriter : r.has_writer = true := by
    simpa [Range.is_used, hreader] using hu
  refine ⟨by simpa [Range.has_writer] using hwriter, ?_, ?_⟩
  · simp [Range.last_used_pass, hreader, hwriter]
  · simp [Range.first_used_pass, hreader, hwriter]

section pipeline

variable {Format : Type} [DecidableEq Format]

/-- C19, end-to-end aliasing: for an ordered pass list (of at most 2^32 passes, the range of the
32 bit pass counter), when the range table and the discovery list come from
`determine_usage_order_of_textures` on empty tables, every entry `Y -> X` of the alias table
returned by `determine_aliasing_of_textures` has all pass indices at which `X` is read or written
before all pass indices at which `Y` is read or written, or all of them after. -/
theorem usage_then_aliasing_accesses_apart (textures : unordered_map (TextureCreateInfo Format))
    (passes : List RenderPassCreateInfo) (hlen : passes.length ≤ 4294967296)
    (aliases : unordered_map String)
    (h : determine_aliasing_of_textures textures
      (determine_usage_order_of_textures passes [] []).resource_used_range
      (determine_usage_order_of_textures passes [] []).resources_in_order = .ok aliases)
    (Y X : String) (hYX : (Y, X) ∈ aliases) :
    (∀ (i j : Nat) (P Q : RenderPassCreateInfo), passes[i]? = some P → passes[j]? = some Q →
        accesses P X → accesses Q Y → i < j) ∨
      (∀ (i j : Nat) (P Q : RenderPassCreateInfo), passes[i]? = some P → passes[j]? = some Q →
        accesses P X → accesses Q Y → j < i) := by
  obtain ⟨_, _, rY, rX, _, _, hrY, hrX, hdis, _⟩ :=
    determine_aliasing_entries textures _ _ aliases h Y X hYX
  obtain ⟨hfrY, hlrY, hcovY⟩ := usage_range_covers passes hlen Y rY hrY
  obtain ⟨hfrX, hlrX, hcovX⟩ := usage_range_covers passes hlen X rX hrX
  obtain ⟨huY, huX⟩ := used_of_is_disjoint_with hdis
  obtain ⟨hwY, hlastY, hfirstY⟩ := used_span_of_fresh_reads rY hfrY hlrY huY
  obtain ⟨hwX, hlastX, hfirstX⟩ := used_span_of_fresh_reads rX hfrX hlrX huX
  rcases spans_of_is_disjoint_with hdis with hsp | hsp
  · right
    intro i j P Q hP hQ haccX haccY
    have h1 := (hcovY hwY j Q hQ haccY).2
    have h2 := (hcovX hwX i P hP haccX).1
    omega
  · left
    intro i j P Q hP hQ haccX haccY
    have h1 := (hcovY hwY j Q hQ haccY).1
    have h2 := (hcovX hwX i P hP haccX).2
    omega

/-- Witness of C19: "X" is written at pass 0, "Y" is written at pass 1 and read at pass 2, and the
alias table maps "Y" to "X". -/
theorem usage_then_aliasing_accesses_apart_witness :
    pipeline_passes.length ≤ 4294967296 ∧
      determine_aliasing_of_textures pipeline_textures
        (determine_usage_order_of_textures pipeline_passes [] []).resource_used_range
        (determine_usage_order_of_textures pipeline_passes [] []).resources_in_order =
          .ok [("Y", "X")] ∧
      ("Y", "X") ∈ [("Y", "X")] ∧
      ((∀ (i j : Nat) (P Q : RenderPassCreateInfo), pipeline_passes[i]? = some P →
          pipeline_passes[j]? = some Q → accesses P "X" → accesses Q "Y" → i < j) ∨
        (∀ (i j : Nat) (P Q : RenderPassCreateInfo), pipeline_passes[i]? = some P →
          pipeline_passes[j]? = some Q → accesses P "X" → accesses Q "Y" → j < i)) :=
  ⟨by decide, by decide, by decide,
    usage_then_aliasing_accesses_apart pipeline_textures pipeline_passes (by decide)
      [("Y", "X")] (by decide) "Y" "X" (by decide)⟩

end pipeline

/-! ## The used span of a range -/

theorem first_used_le_last_used (r : Range) (hused : r.is_used = true) :
    r.first_used_pass ≤ r.last_used_pass := by
  unfold Range.is_used at hused
  unfold Range.first_used_pass Range.last_used_pass
  cases hw : r.has_writer <;> cases hr : r.has_reader
  · simp [hw, hr] at hused
  · have := hr
    simp only [Range.has_reader, decide_eq_true_eq] at this
    simp only [Bool.false_eq_true, if_false, if_true]
    omega
  · have := hw
    simp only [Range.has_writer, decide_eq_true_eq] at this
    simp only [Bool.false_eq_true, if_false, if_true]
    omega
  · have h1 := hw
    have h2 := hr
    simp only [Range.has_writer, decide_eq_true_eq] at h1
    simp only [Range.has_reader, decide_eq_true_eq] at h2
    simp only [if_true]
    omega

/-- C23, used span: for a range with 32 bit fields and `is_used()` true, `first_used_pass()` is the
minimum of `first_write_pass` (if `has_writer()`) and `first_read_pass` (if `has_reader()`),
`last_used_pass()` is the maximum of `last_write_pass` and `last_read_pass` under the same
conditions, and `first_used_pass() <= last_used_pass()`. -/
theorem used_span_well_formed (r : Range) (h32 : r.is_u32) (hused : r.is_used = true) :
    r.first_used_pass =
        (if r.has_writer then
          (if r.has_reader then min r.first_write_pass r.first_read_pass
            else r.first_write_pass)
          else r.first_read_pass) ∧
      r.last_used_pass =
        (if r.has_writer then
          (if r.has_reader then max r.last_write_pass r.last_read_pass else r.last_write_pass)
          else r.last_read_pass) ∧
      r.first_used_pass ≤ r.last_used_pass := by
  refine ⟨?_, ?_, first_used_le_last_used r hused⟩
  · obtain ⟨h1, _, h3, _⟩ := h32
    unfold Range.is_used at hused
    unfold Range.first_used_pass
    cases hw : r.has_writer <;> cases hr : r.has_reader
    · simp [hw, hr] at hused
    · simp only [Bool.false_eq_true, if_false, if_true]
      omega
    · simp only [Bool.false_eq_true, if_false, if_true]
      omega
    · simp only [if_true]
      omega
  · unfold Range.is_used at hused
    unfold Range.last_used_pass
    cases hw : r.has_writer <;> cases hr : r.has_reader
    · simp [hw, hr] at hused
    · simp only [Bool.false_eq_true, if_false, if_true]
      omega
    · simp only [Bool.false_eq_true, if_false, if_true]
      omega
    · simp only [if_true]
      omega

/-- Witness of C23: a range written at the passes 1 to 4 and read at the passes 2 to 6. -/
theorem used_span_well_formed_witness :
    (Range.mk 1 4 2 6).is_u32 ∧ (Range.mk 1 4 2 6).is_used = true ∧
      ((Range.mk 1 4 2 6).first_used_pass =
          (if (Range.mk 1 4 2 6).has_writer then
            (if (Range.mk 1 4 2 6).has_reader then
              min (Range.mk 1 4 2 6).first_write_pass (Range.mk 1 4 2 6).first_read_pass
              else (Range.mk 1 4 2 6).first_write_pass)
            else (Range.mk 1 4 2 6).first_read_pass) ∧
        (Range.mk 1 4 2 6).last_used_pass =
          (if (Range.mk 1 4 2 6).has_writer then
            (if (Range.mk 1 4 2 6).has_reader then
              max (Range.mk 1 4 2 6).last_write_pass (Range.mk 1 4 2 6).last_read_pass
              else (Range.mk 1 4 2 6).last_write_pass)
            else (Range.mk 1 4 2 6).last_read_pass) ∧
        (Range.mk 1 4 2 6).first_used_pass ≤ (Range.mk 1 4 2 6).last_used_pass) :=
  ⟨by decide, by decide, used_span_well_formed (Range.mk 1 4 2 6) (by decide) (by decide)⟩

/-- C26, symmetry and irreflexivity: `a.is_disjoint_with(b) = b.is_disjoint_with(a)` for all
ranges, and `a.is_disjoint_with(a)` is false. -/
theorem is_disjoint_with_symm_irrefl (a b : Range) :
    a.is_disjoint_with b = b.is_disjoint_with a ∧ a.is_disjoint_with a = false := by
  constructor
  · unfold Range.is_disjoint_with
    cases a.is_used <;> cases b.is_used <;> cases a.can_alias <;> cases b.can_alias <;>
      simp [Bool.or_comm]
  · cases hu : a.is_used
    · simp [Range.is_disjoint_with, hu]
    · have := first_used_le_last_used a hu
      have hnot : ¬ a.last_used_pass < a.first_used_pass := by omega
      simp [Range.is_disjoint_with, hu, hnot]

/-! ## The read fields and the discovery list of the usage tracker -/

theorem touch_read_fields (pass_idx : Nat) (r : Range) :
    (touch pass_idx r).first_read_pass = r.first_read_pass ∧
      (touch pass_idx r).last_read_pass = r.last_read_pass := by
  unfold touch
  split
  · exact ⟨rfl, rfl⟩
  · split <;> exact ⟨rfl, rfl⟩

theorem apply_events_read_fields (es : List Nat) (o : Option Range) (r : Range)
    (h : apply_events o es = some r) :
    r.first_read_pass = (o.getD Range.fresh).first_read_pass ∧
      r.last_read_pass = (o.getD Range.fresh).last_read_pass := by
  induction es generalizing o with
  | nil =>
    simp only [apply_events, List.foldl_nil] at h
    subst h
    exact ⟨rfl, rfl⟩
  | cons e rest ih =>
    have h' : apply_events (some (touch e (o.getD Range.fresh))) rest = some r := h
    have := ih _ h'
    simp only [Option.getD_some] at this
    rw [this.1, this.2]
    exact touch_read_fields e _

theorem apply_events_some (es : List Nat) (o : Option Range) (hne : es ≠ []) :
    ∃ r, apply_events o es = some r := by
  induction es using List.reverseRecOn with
  | nil => exact absurd rfl hne
  | append_singleton l e _ =>
    rw [apply_events_append]
    exact ⟨_, rfl⟩

/-- The entries of the table passed to the usage tracker stay in the table. -/
theorem determine_usage_keeps_entries (passes : List RenderPassCreateInfo)
    (resource_used_range : unordered_map Range) (resources_in_order : List String) (T : String)
    (hsome : (resource_used_range.find T).isSome) :
    ((determine_usage_order_of_textures passes resource_used_range
      resources_in_order).resource_used_range.find T).isSome := by
  unfold determine_usage_order_of_textures
  rw [find_usage_loop]
  by_cases hne : events_from passes 0 T = []
  · rw [hne]
    simpa [apply_events] using hsome
  · obtain ⟨r, hr⟩ := apply_events_some _ (resource_used_range.find T) hne
    simp only [hr, Option.isSome_some]

/-- C22, read fields: `determine_usage_order_of_textures` never changes `first_read_pass` or
`last_read_pass`: an entry of the resulting table has the read fields its resource had in the table
passed in, and the fresh defaults when the resource had no entry (for input accesses as for output
accesses; the pass counter may even wrap). -/
theorem determine_usage_keeps_read_fields (passes : List RenderPassCreateInfo)
    (resource_used_range : unordered_map Range) (resources_in_order : List String) (T : String)
    (r' : Range)
    (h : (determine_usage_order_of_textures passes resource_used_range
      resources_in_order).resource_used_range.find T = some r') :
    (∀ r, resource_used_range.find T = some r →
        r'.first_read_pass = r.first_read_pass ∧ r'.last_read_pass = r.last_read_pass) ∧
      (resource_used_range.find T = none →
        r'.first_read_pass = UINT_MAX ∧ r'.last_read_pass = 0) := by
  unfold determine_usage_order_of_textures at h
  rw [find_usage_loop] at h
  have key := apply_events_read_fields _ _ r' h
  constructor
  · intro r hr
    rw [hr] at key
    exact key
  · intro hnone
    rw [hnone] at key
    exact key

/-- Witness of C22: the tracker runs on `[A, B]` from a table in which "G" has a reader. -/
theorem determine_usage_keeps_read_fields_witness :
    (determine_usage_order_of_textures [pass_A, pass_B] read_ranges []).resource_used_range.find
        "G" = some ⟨0, 6, 3, 7⟩ ∧
      ((∀ r, read_ranges.find "G" = some r →
          (Range.mk 0 6 3 7).first_read_pass = r.first_read_pass ∧
            (Range.mk 0 6 3 7).last_read_pass = r.last_read_pass) ∧
        (read_ranges.find "G" = none →
          (Range.mk 0 6 3 7).first_read_pass = UINT_MAX ∧
            (Range.mk 0 6 3 7).last_read_pass = 0)) :=
  ⟨by decide,
    determine_usage_keeps_read_fields [pass_A, pass_B] read_ranges [] "G" ⟨0, 6, 3, 7⟩
      (by decide)⟩

theorem record_use_fold_order (pass_idx : Nat) (names : List String) (st : UsageState) :
    (names.foldl (record_use pass_idx) st).resources_in_order =
      first_occurrences st.resources_in_order names := by
  induction names generalizing st with
  | nil => simp [first_occurrences]
  | cons name rest ih =>
    rw [List.foldl_cons, ih]
    simp only [record_use, first_occurrences, List.foldl_cons]

theorem usage_loop_order (passes : List RenderPassCreateInfo) (pass_idx : Nat)
    (st : UsageState) :
    (usage_loop passes pass_idx st).resources_in_order =
      first_occurrences st.resources_in_order (passes.flatMap touched) := by
  induction passes generalizing pass_idx st with
  | nil => simp [usage_loop, first_occurrences]
  | cons pass rest ih =>
    simp only [usage_loop, List.flatMap_cons]
    rw [ih, record_use_fold_order, record_use_fold_order, touched, first_occurrences_append,
      first_occurrences_append]

theorem events_from_ne_nil (passes : List RenderPassCreateInfo) (pass_idx : Nat) (T : String)
    (h : T ∈ passes.flatMap touched) : events_from passes pass_idx T ≠ [] := by
  induction passes generalizing pass_idx with
  | nil => simp at h
  | cons pass rest ih =>
    simp only [List.flatMap_cons, List.mem_append] at h
    simp only [events_from]
    rcases h with h | h
    · intro hnil
      have hmem : pass_idx ∈ ((touched pass).filter fun name => name = T).map (fun _ => pass_idx) :=
        List.mem_map.2 ⟨T, List.mem_filter.2 ⟨h, by simp⟩, rfl⟩
      have := List.append_eq_nil.1 hnil
      rw [this.1] at hmem
      simp at hmem
    · intro hnil
      exact ih _ h (List.append_eq_nil.1 hnil).2

/-- C21, discovery list: after `determine_usage_order_of_textures` ran from an empty discovery
list, `resources_in_order` is the list of first occurrences of the texture names touched, pass by
pass, a pass's inputs before its outputs; it has no duplicates, holds exactly the names some pass
lists among its texture inputs or outputs, and each of its names has an entry in the range
table. -/
theorem determine_usage_discovery_list (passes : List RenderPassCreateInfo)
    (resource_used_range : unordered_map Range) :
    (determine_usage_order_of_textures passes resource_used_range []).resources_in_order =
        first_occurrences [] (passes.flatMap fun pass =>
          pass.texture_inputs ++ pass.texture_outputs.map (·.name)) ∧
      (determine_usage_order_of_textures passes resource_used_range []).resources_in_order.Nodup ∧
      (∀ T, T ∈ (determine_usage_order_of_textures passes resource_used_range
          []).resources_in_order ↔
        ∃ P ∈ passes, T ∈ P.texture_inputs ∨ T ∈ P.texture_outputs.map (·.name)) ∧
      ∀ T ∈ (determine_usage_order_of_textures passes resource_used_range []).resources_in_order,
        ((determine_usage_order_of_textures passes resource_used_range
          []).resource_used_range.find T).isSome := by
  have horder : (determine_usage_order_of_textures passes resource_used_range
      []).resources_in_order = first_occurrences [] (passes.flatMap touched) := by
    unfold determine_usage_order_of_textures
    rw [usage_loop_order]
  have hmem : ∀ T, T ∈ first_occurrences [] (passes.flatMap touched) ↔
      ∃ P ∈ passes, T ∈ P.texture_inputs ∨ T ∈ P.texture_outputs.map (·.name) := by
    intro T
    rw [mem_first_occurrences]
    simp only [List.not_mem_nil, false_or, List.mem_flatMap, touched, List.mem_append]
  refine ⟨horder, ?_, ?_, ?_⟩
  · rw [horder]
    exact nodup_first_occurrences [] _ List.nodup_nil
  · intro T
    rw [horder]
    exact hmem T
  · intro T hT
    rw [horder, mem_first_occurrences] at hT
    simp only [List.not_mem_nil, false_or] at hT
    unfold determine_usage_order_of_textures
    rw [find_usage_loop]
    obtain ⟨r, hr⟩ := apply_events_some _ (resource_used_range.find T)
      (events_from_ne_nil passes 0 T hT)
    simp only [hr, Option.isSome_some]

/-! ## The last pass of the order and the keyed lookups -/

/-- C24, the final pass presents: when `order_passes` returns an ordered list for a pass list with
unique names, the list is not empty and its last element writes "Backbuffer". -/
theorem order_passes_last_writes_backbuffer (passes : List RenderPassCreateInfo) (fuel : Nat)
    (ordered : List RenderPassCreateInfo) (log : List LogError)
    (h : order_passes fuel passes = .ok (.value ordered, log)) (hu : unique_names passes) :
    ∃ P, ordered.getLast? = some P ∧ writes P "Backbuffer" := by
  rcases order_passes_ok h with ⟨_, hres, _⟩ | ⟨hw, D, ordered', hcov, hres, hall⟩
  · cases hres
  · cases hres
    obtain ⟨c, hc⟩ := List.exists_mem_of_ne_nil _ hw
    have hcN : c ∈ first_occurrences [] D.reverse := by
      rw [mem_first_occurrences]
      simpa using hcov.complete c hc c Relation.ReflTransGen.refl
    have hpos : 0 < (first_occurrences [] D.reverse).length := List.length_pos_of_mem hcN
    have hnodup : (first_occurrences [] D.reverse).Nodup :=
      nodup_first_occurrences [] _ List.nodup_nil
    obtain ⟨x, hx⟩ : ∃ x, (first_occurrences [] D.reverse)[
        (first_occurrences [] D.reverse).length - 1]? = some x :=
      ⟨_, List.getElem?_eq_getElem (by omega)⟩
    obtain ⟨P, hP, hfind⟩ := forall₂_getElem?_left hall hx
    have hxD : x ∈ D := by
      have := (mem_first_occurrences [] D.reverse x).1 (List.getElem?_mem hx)
      simpa using this
    have hxw : x ∈ writers_of passes "Backbuffer" := by
      obtain ⟨w, hwm, hwx⟩ := hcov.sound x hxD
      rcases Relation.ReflTransGen.cases_tail hwx with rfl | ⟨y, hwy, hyx⟩
      · exact hwm
      · exfalso
        have hyN : y ∈ first_occurrences [] D.reverse := by
          rw [mem_first_occurrences]
          simpa using hcov.complete w hwm y hwy
        obtain ⟨k, hk⟩ := List.mem_iff_getElem?.1 hyN
        obtain ⟨j, hjk, hj⟩ := first_occurrences_order hcov.followed hk hyx
        have hji := getElem?_inj_of_nodup hnodup hj hx
        have hklt := (List.getElem?_eq_some.1 hk).1
        omega
    obtain ⟨W, hW, rfl, hWb⟩ := (mem_writers_of passes "Backbuffer" x).1 hxw
    rw [find_index_unique hu hW] at hfind
    cases hfind
    refine ⟨_, ?_, hWb⟩
    rw [List.getLast?_eq_getElem?, ← hall.length_eq]
    exact hP

/-- Witness of C24 on the scenario of §8. -/
theorem order_passes_last_writes_backbuffer_witness :
    order_passes 2 [pass_B, pass_A] = .ok (.value [pass_A, pass_B], []) ∧
      unique_names [pass_B, pass_A] ∧
      ∃ P, [pass_A, pass_B].getLast? = some P ∧ writes P "Backbuffer" :=
  ⟨by decide, by decide,
    order_passes_last_writes_backbuffer [pass_B, pass_A] 2 [pass_A, pass_B] [] (by decide)
      (by decide)⟩

theorem visit_all_in_range {visit : String → SchedState → Except Abort SchedState}
    (cs : List String)
    (hv : ∀ c ∈ cs, ∀ s key, visit c s ≠ .error (.out_of_range key))
    (s : SchedState) (key : String) : visit_all visit cs s ≠ .error (.out_of_range key) := by
  induction cs generalizing s with
  | nil => simp [visit_all]
  | cons c rest ih =>
    unfold visit_all
    split
    next e he =>
      intro heq
      cases heq
      exact hv c (by simp) s key he
    next s1 _ => exact ih (fun c' hc' => hv c' (List.mem_cons_of_mem _ hc')) s1

theorem visit_dependencies_in_range {visit : String → SchedState → Except Abort SchedState}
    (ds : List String)
    (hv : ∀ c ∈ ds, ∀ s key, visit c s ≠ .error (.out_of_range key))
    (s : SchedState) (key : String) :
    visit_dependencies visit ds s ≠ .error (.out_of_range key) := by
  induction ds generalizing s with
  | nil => simp [visit_dependencies]
  | cons d rest ih =>
    unfold visit_dependencies
    split
    next e he =>
      intro heq
      cases heq
      exact hv d (by simp) _ key he
    next s1 _ => exact ih (fun c' hc' => hv c' (List.mem_cons_of_mem _ hc')) s1

theorem visit_inputs_in_range {visit : String → SchedState → Except Abort SchedState}
    (rtw : unordered_map (List String)) (not_written : String → LogError) (rs : List String)
    (hv : ∀ c ∈ rs.flatMap (fun r => (rtw.find r).getD []), ∀ s key,
      visit c s ≠ .error (.out_of_range key))
    (s : SchedState) (key : String) :
    visit_inputs visit rtw not_written rs s ≠ .error (.out_of_range key) := by
  induction rs generalizing s with
  | nil => simp [visit_inputs]
  | cons r rest ih =>
    have hrest : ∀ c ∈ rest.flatMap (fun r => (rtw.find r).getD []), ∀ s key,
        visit c s ≠ .error (.out_of_range key) :=
      fun c hc => hv c (by simp only [List.flatMap_cons, List.mem_append]; exact Or.inr hc)
    cases hr : rtw.find r with
    | none =>
      simp only [visit_inputs, hr]
      exact ih hrest _
    | some ws =>
      have hws : ∀ c ∈ ws, ∀ s key, visit c s ≠ .error (.out_of_range key) :=
        fun c hc => hv c (by simp only [List.flatMap_cons, List.mem_append, hr,
          Option.getD_some]; exact Or.inl hc)
      simp only [visit_inputs, hr]
      split
      next e he =>
        intro heq
        cases heq
        exact visit_all_in_range ws hws _ key he
      next s1 _ => exact ih hrest s1

/-- With existing explicit dependencies, no call of `add_dependent_passes` for a pass name fails a
keyed lookup, whatever the recursion bound. -/
theorem add_dependent_passes_in_range {passes : List RenderPassCreateInfo}
    (hd : dependencies_exist passes) (fuel : Nat) (n : String) (hn : n ∈ passes.map (·.name))
    (depth : Nat) (s : SchedState) (key : String) :
    add_dependent_passes (build_render_passes_to_order passes)
      (build_resource_to_write_pass passes) fuel n depth s ≠ .error (.out_of_range key) := by
  induction fuel generalizing n depth s key with
  | zero => simp [add_dependent_passes]
  | succ fuel ih =>
    obtain ⟨P, hP⟩ := find_index_of_mem hn
    have hv : ∀ c ∈ children (build_resource_to_write_pass passes) P, ∀ s key,
        (fun name s => add_dependent_passes (build_render_passes_to_order passes)
          (build_resource_to_write_pass passes) fuel name ((depth + 1) % 4294967296) s) c s ≠
          .error (.out_of_range key) :=
      fun c hc s key => ih c (requires_target_mem hd (requires_of_edge ⟨P, hP, hc⟩)) _ s key
    simp only [children, List.mem_append] at hv
    unfold add_dependent_passes
    simp only [hP]
    split
    next e he =>
      intro heq
      cases heq
      exact visit_dependencies_in_range _ (fun c hc => hv c (Or.inl (Or.inl hc))) _ key he
    next s1 _ =>
      split
      next e he =>
        intro heq
        cases heq
        exact visit_inputs_in_range _ _ _ (fun c hc => hv c (Or.inl (Or.inr hc))) _ key he
      next s2 _ =>
        exact visit_inputs_in_range _ _ _ (fun c hc => hv c (Or.inr hc)) _ key

/-- C25, lookup safety: when every explicit dependency names a pass, no keyed lookup of
`order_passes` and `add_dependent_passes` misses its key, at any recursion bound, and a returning
call of `add_dependent_passes` for a pass name appends only names of input passes to the working
order. -/
theorem order_passes_lookup_safety (passes : List RenderPassCreateInfo)
    (hd : dependencies_exist passes) :
    (∀ fuel key, order_passes fuel passes ≠ .error (.out_of_range key)) ∧
      ∀ fuel n depth s s', n ∈ passes.map (·.name) →
        add_dependent_passes (build_render_passes_to_order passes)
          (build_resource_to_write_pass passes) fuel n depth s = .ok s' →
        (∀ x ∈ s.ordered_passes, x ∈ passes.map (·.name)) →
        ∀ x ∈ s'.ordered_passes, x ∈ passes.map (·.name) := by
  have hnames : ∀ c ∈ writers_of passes "Backbuffer", c ∈ passes.map (·.name) := by
    intro c hc
    obtain ⟨W, hW, rfl, _⟩ := (mem_writers_of passes "Backbuffer" c).1 hc
    exact List.mem_map_of_mem _ hW
  constructor
  · intro fuel key
    unfold order_passes
    simp only [find_resource_to_write_pass]
    by_cases hw : writers_of passes "Backbuffer" = []
    · simp [hw, pushed]
    · simp only [pushed, if_neg hw, Option.getD_none, List.nil_append]
      split
      next e he =>
        intro heq
        cases heq
        exact visit_all_in_range _
          (fun c hc s key => add_dependent_passes_in_range hd fuel c (hnames c hc) 1 s key) _ key
          he
      next st hst =>
        obtain ⟨e, lg, hst', hseg⟩ := visit_all_spec
          (fun c s s' hc => add_dependent_passes_spec fuel c 1 s s' hc) _ _ _ hst
        have hcov := covers_of_segment hseg
        have hfound : ∀ n ∈ filter_passes st.ordered_passes.reverse,
            ∃ P, (build_render_passes_to_order passes).find n = some P := by
          intro n hn
          rw [filter_passes_eq, mem_first_occurrences, hst'] at hn
          simp only [List.not_mem_nil, false_or, List.mem_reverse] at hn
          obtain ⟨c, hc, hcn⟩ := hcov.sound n hn
          apply find_index_of_mem
          rcases Relation.ReflTransGen.cases_tail hcn with rfl | ⟨y, _, hy⟩
          · exact hnames _ hc
          · exact requires_target_mem hd (requires_of_edge hy)
        obtain ⟨ordered, hord⟩ := passes_in_submission_order_total _ _ hfound
        simp [hord]
  · intro fuel n depth s s' _ hcall hs x hx
    obtain ⟨e, lg, rfl, hseg⟩ := add_dependent_passes_spec fuel n depth s s' hcall
    rcases List.mem_append.1 hx with hx | hx
    · exact hs x hx
    · obtain ⟨c, _, hcx⟩ := hseg.sound x hx
      obtain ⟨y, _, hyx⟩ := Relation.TransGen.tail'_iff.1 hcx
      exact requires_target_mem hd (requires_of_edge hyx)

/-- Witness of C25 on the scenario of §8. -/
theorem order_passes_lookup_safety_witness :
    dependencies_exist [pass_B, pass_A] ∧
      ((∀ fuel key, order_passes fuel [pass_B, pass_A] ≠ .error (.out_of_range key)) ∧
        ∀ fuel n depth s s', n ∈ [pass_B, pass_A].map (·.name) →
          add_dependent_passes (build_render_passes_to_order [pass_B, pass_A])
            (build_resource_to_write_pass [pass_B, pass_A]) fuel n depth s = .ok s' →
          (∀ x ∈ s.ordered_passes, x ∈ [pass_B, pass_A].map (·.name)) →
          ∀ x ∈ s'.ordered_passes, x ∈ [pass_B, pass_A].map (·.name)) :=
  ⟨by decide, order_passes_lookup_safety [pass_B, pass_A] (by decide)⟩

end nova.renderer.shaderpack
